import Mathlib

/-!
Verification of the TableGen language-support engine: shallow embedding of
the lexer, parser, include graph, symbol table, type system and the
multiclass-suffix resolution helpers, together with theorems about the
behaviour of these components.

Source files embedded: `src/server/{symbols,includeGraph,resolutionHelpers}.ts`
and the parser/types modules.  TypeScript `Map`s are modelled as ordered
association lists with JavaScript `Map.set` semantics (update in place,
insert at the end); `Set`s as duplicate-free lists in insertion order.
Recursions that are unbounded in TypeScript (they rely on runtime data being
finite or acyclic) are given an explicit fuel parameter; the theorems either
evaluate below the fuel bound or show the result is independent of the fuel.
-/

set_option maxHeartbeats 1000000

/-- Source position: zero-based line and character (types.ts `Position`). -/
structure Pos where
  line : Nat
  character : Nat
deriving Repr, DecidableEq

/-- Source range (types.ts `Range`). -/
structure Range where
  start : Pos
  «end» : Pos
deriving Repr, DecidableEq

/-- File location (types.ts `Location`). -/
structure Location where
  uri : String
  range : Range
deriving Repr, DecidableEq

/-- Ordered association-list lookup, mirroring JavaScript `Map.get`. -/
def alLookup {α : Type} (l : List (String × α)) (k : String) : Option α :=
  match l with
  | [] => none
  | (k2, v) :: rest => if k2 = k then some v else alLookup rest k

/-- Ordered association-list update, mirroring JavaScript `Map.set`: an
existing key keeps its position and gets the new value, a new key is
appended at the end. -/
def alSet {α : Type} (l : List (String × α)) (k : String) (v : α) : List (String × α) :=
  match l with
  | [] => [(k, v)]
  | (k2, v2) :: rest => if k2 = k then (k, v) :: rest else (k2, v2) :: alSet rest k v

/-- JavaScript `Set.add` on a duplicate-free insertion-ordered list. -/
def setAdd (l : List String) (x : String) : List String :=
  if l.contains x then l else l ++ [x]

/-- Type kinds of typeSystem.ts `TypeInfo.kind`. -/
inductive TypeKind where
  | builtin
  | cls
  | list
  | bits
  | dag
deriving Repr, DecidableEq

/-- TableGen type description (typeSystem.ts `TypeInfo`). -/
inductive TypeInfo where
  | mk (kind : TypeKind) (name : String) (elementType : Option TypeInfo)
      (bitWidth : Option Nat)
deriving Repr

/-- Field metadata (typeSystem.ts `FieldInfo`). -/
structure FieldInfo where
  name : String
  type : TypeInfo
  location : Location
  declaringClass : String
deriving Repr

/-- Template-argument metadata (typeSystem.ts `ArgumentInfo`). -/
structure ArgumentInfo where
  name : String
  type : TypeInfo
  location : Location
  hasDefault : Bool
deriving Repr

/-- Registry kinds of typeSystem.ts `ClassInfo.kind`. -/
inductive CIKind where
  | cls
  | multiclass
  | defRec
  | defmRec
deriving Repr, DecidableEq

/-- Class registry entry (typeSystem.ts `ClassInfo`).  `fields` is the
insertion-ordered map of the class's own fields; `allFields` is the cached
merged view (`undefined` modelled as `none`). -/
structure ClassInfo where
  name : String
  kind : CIKind
  location : Location
  uri : String
  parentClasses : List String
  arguments : List ArgumentInfo
  fields : List (String × FieldInfo)
  allFields : Option (List (String × FieldInfo))
  isForwardDeclaration : Bool
deriving Repr

/-- The class registry (typeSystem.ts `TypeSystem`): name → `ClassInfo`
plus the file → class-names side table used for `clearFile`. -/
structure TypeSystem where
  classes : List (String × ClassInfo)
  fileClasses : List (String × List String)
deriving Repr

def TypeSystem.empty : TypeSystem := ⟨[], []⟩

/-- `TypeSystem.addClass`: a stored full definition is kept when the incoming
entry is a forward declaration; otherwise the incoming entry is stored (its
cached `allFields` reset, as the source mutates `info.allFields = undefined`
after storing) and recorded under its file. -/
def TypeSystem.addClass (ts : TypeSystem) (info : ClassInfo) : TypeSystem :=
  let keepExisting :=
    match alLookup ts.classes info.name with
    | some existing => !existing.isForwardDeclaration && info.isForwardDeclaration
    | none => false
  if keepExisting then ts
  else
    { classes := alSet ts.classes info.name { info with allFields := none }
      fileClasses :=
        alSet ts.fileClasses info.uri
          (setAdd ((alLookup ts.fileClasses info.uri).getD []) info.name) }

/-- `TypeSystem.getClass`. -/
def TypeSystem.getClass (ts : TypeSystem) (name : String) : Option ClassInfo :=
  alLookup ts.classes name

/-- Merge a batch of fields into an accumulated field map, later entries
overwriting earlier ones (the `allFields.set(name, field)` loops). -/
def mergeFields (acc : List (String × FieldInfo)) (fs : List (String × FieldInfo)) :
    List (String × FieldInfo) :=
  fs.foldl (fun m kv => alSet m kv.1 kv.2) acc

/-- `TypeSystem.getAllFields`, with explicit fuel standing in for the
unbounded TypeScript recursion over parent classes (the source relies on the
registered inheritance graph being acyclic).  The cached view is read when
present; the cache write is a performance-only mutation and is not modelled.
The fold over `parentClasses` is the source's parent loop, merging each
parent's merged view in declaration order. -/
def getAllFieldsF : Nat → TypeSystem → String → List (String × FieldInfo)
  | 0, _, _ => []
  | fuel + 1, ts, className =>
    match alLookup ts.classes className with
    | none => []
    | some classInfo =>
      match classInfo.allFields with
      | some cached => cached
      | none =>
        mergeFields
          (classInfo.parentClasses.foldl
            (fun acc p => mergeFields acc (getAllFieldsF fuel ts p)) [])
          classInfo.fields

/-- `getAllFields` at the fuel bound used throughout: one level per
registered class suffices for any acyclic registry. -/
def TypeSystem.getAllFields (ts : TypeSystem) (className : String) :
    List (String × FieldInfo) :=
  getAllFieldsF (ts.classes.length + 1) ts className

/-- `TypeSystem.findFieldDefinition`, fuelled like `getAllFieldsF`: the
class's own field first, otherwise the first parent (in declaration order)
that resolves the field, recursively; first match wins, no merging. -/
def findFieldDefinitionF : Nat → TypeSystem → String → String → Option FieldInfo
  | 0, _, _, _ => none
  | fuel + 1, ts, className, fieldName =>
    match alLookup ts.classes className with
    | none => none
    | some classInfo =>
      match alLookup classInfo.fields fieldName with
      | some ownField => some ownField
      | none =>
        classInfo.parentClasses.findSome? fun p => findFieldDefinitionF fuel ts p fieldName

/-- `findFieldDefinition` at the standard fuel bound. -/
def TypeSystem.findFieldDefinition (ts : TypeSystem) (className fieldName : String) :
    Option FieldInfo :=
  findFieldDefinitionF (ts.classes.length + 1) ts className fieldName

/-- Accumulator of `TypeSystem.getAllParentClasses`: the collected parent
list and the visited set. -/
structure ParentAcc where
  parents : List String
  visited : List String
deriving Repr, DecidableEq

/-- The `collect` closure of `TypeSystem.getAllParentClasses`: unknown or
already-visited classes stop; otherwise the class is marked visited and each
of its parents is pushed (if not already listed) and recursed into.  Fuel
bounds the visiting depth, which the visited set keeps at most one level per
registered class. -/
def collectParentsF : Nat → TypeSystem → String → ParentAcc → ParentAcc
  | 0, _, _, acc => acc
  | fuel + 1, ts, name, acc =>
    match alLookup ts.classes name with
    | none => acc
    | some classInfo =>
      if acc.visited.contains name then acc
      else
        classInfo.parentClasses.foldl
          (fun a parent =>
            let a1 :=
              if a.parents.contains parent then a
              else { a with parents := a.parents ++ [parent] }
            collectParentsF fuel ts parent a1)
          { acc with visited := acc.visited ++ [name] }

/-- `TypeSystem.getAllParentClasses` at the standard fuel bound. -/
def TypeSystem.getAllParentClasses (ts : TypeSystem) (className : String) :
    List String :=
  (collectParentsF (ts.classes.length + 1) ts className ⟨[], []⟩).parents

/-- Helper: looking up the key just set with `alSet` yields the stored value. -/
theorem alLookup_alSet_self {α : Type} (l : List (String × α)) (k : String) (v : α) :
    alLookup (alSet l k v) k = some v := by
  induction l with
  | nil => simp [alSet, alLookup]
  | cons hd tl ih =>
    obtain ⟨k2, v2⟩ := hd
    by_cases h : k2 = k
    · simp [alSet, alLookup, h]
    · simp [alSet, alLookup, h, ih]

/-- C4: for `class Base{int F;int G;}` and `class Child:Base{int F;int H;}`
registered in the type system, `getAllFields "Child"` has exactly the three
entries `F ↦ Child.F`, `G ↦ Base.G`, `H ↦ Child.H`: parents are merged in
declaration order and the class's own fields are overlaid last. -/
theorem getAllFields_merges_parents_then_own (uB uC : String) (locB locC : Location)
    (fBF fBG fCF fCH : FieldInfo) :
    let base : ClassInfo :=
      { name := "Base", kind := .cls, location := locB, uri := uB,
        parentClasses := [], arguments := [], fields := [("F", fBF), ("G", fBG)],
        allFields := none, isForwardDeclaration := false }
    let child : ClassInfo :=
      { name := "Child", kind := .cls, location := locC, uri := uC,
        parentClasses := ["Base"], arguments := [], fields := [("F", fCF), ("H", fCH)],
        allFields := none, isForwardDeclaration := false }
    let ts := (TypeSystem.empty.addClass base).addClass child
    ts.getAllFields "Child" = [("F", fCF), ("G", fBG), ("H", fCH)] ∧
    (ts.getAllFields "Child").length = 3 ∧
    alLookup (ts.getAllFields "Child") "F" = some fCF ∧
    alLookup (ts.getAllFields "Child") "G" = some fBG ∧
    alLookup (ts.getAllFields "Child") "H" = some fCH := by
  refine ⟨?_, ?_, ?_, ?_, ?_⟩ <;> rfl

/-- C5: for `A{F}`, `B{F}` and `C:A,B{}` (parents declared A then B),
`findFieldDefinition "C" "F"` resolves to A's declaration of F: the class's
own fields are checked first, then the parents in declaration order, first
match winning. -/
theorem findFieldDefinition_first_parent_wins (uA uB uC : String)
    (locA locB locC : Location) (fAF fBF : FieldInfo) :
    let a : ClassInfo :=
      { name := "A", kind := .cls, location := locA, uri := uA,
        parentClasses := [], arguments := [], fields := [("F", fAF)],
        allFields := none, isForwardDeclaration := false }
    let b : ClassInfo :=
      { name := "B", kind := .cls, location := locB, uri := uB,
        parentClasses := [], arguments := [], fields := [("F", fBF)],
        allFields := none, isForwardDeclaration := false }
    let c : ClassInfo :=
      { name := "C", kind := .cls, location := locC, uri := uC,
        parentClasses := ["A", "B"], arguments := [], fields := [],
        allFields := none, isForwardDeclaration := false }
    let ts := ((TypeSystem.empty.addClass a).addClass b).addClass c
    ts.findFieldDefinition "C" "F" = some fAF := by
  rfl

/-- Helper: a forward declaration arriving when a full definition is stored
leaves the type system unchanged. -/
theorem addClass_keep (ts : TypeSystem) (info ex : ClassInfo)
    (hlook : alLookup ts.classes info.name = some ex)
    (hex : ex.isForwardDeclaration = false)
    (hinfo : info.isForwardDeclaration = true) :
    ts.addClass info = ts := by
  simp [TypeSystem.addClass, hlook, hex, hinfo]

/-- Helper: a non-forward registration always becomes the stored entry, with
its cached field view reset. -/
theorem addClass_store_full (ts : TypeSystem) (info : ClassInfo)
    (hinfo : info.isForwardDeclaration = false) :
    (ts.addClass info).getClass info.name = some { info with allFields := none } := by
  cases h : alLookup ts.classes info.name with
  | none => simp [TypeSystem.addClass, TypeSystem.getClass, h, alLookup_alSet_self]
  | some ex => simp [TypeSystem.addClass, TypeSystem.getClass, h, hinfo, alLookup_alSet_self]

/-- Helper: registering into a registry without the name stores the entry. -/
theorem addClass_store_fresh (ts : TypeSystem) (info : ClassInfo)
    (hn : alLookup ts.classes info.name = none) :
    (ts.addClass info).getClass info.name = some { info with allFields := none } := by
  simp [TypeSystem.addClass, TypeSystem.getClass, hn, alLookup_alSet_self]

/-- C6: registering a class name twice, a full definition always wins over a
forward declaration regardless of arrival order: a forward declaration never
replaces a stored full definition, a non-forward registration always becomes
the stored entry (so of two full definitions the later wins), and the
forward/full/forward sequence leaves the full definition (with its fields)
stored. -/
theorem addClass_definition_over_forward :
    (∀ (ts : TypeSystem) (info ex : ClassInfo),
        alLookup ts.classes info.name = some ex →
        ex.isForwardDeclaration = false →
        info.isForwardDeclaration = true →
        (ts.addClass info).getClass info.name = some ex) ∧
    (∀ (ts : TypeSystem) (info : ClassInfo),
        info.isForwardDeclaration = false →
        (ts.addClass info).getClass info.name = some { info with allFields := none }) ∧
    (∀ (ts : TypeSystem) (n : String) (f1 d2 f3 : ClassInfo),
        alLookup ts.classes n = none →
        f1.name = n → d2.name = n → f3.name = n →
        f1.isForwardDeclaration = true →
        d2.isForwardDeclaration = false →
        f3.isForwardDeclaration = true →
        (((ts.addClass f1).addClass d2).addClass f3).getClass n =
          some { d2 with allFields := none }) := by
  refine ⟨?_, ?_, ?_⟩
  · intro ts info ex hlook hex hinfo
    rw [addClass_keep ts info ex hlook hex hinfo]
    simp [TypeSystem.getClass, hlook]
  · intro ts info hinfo
    exact addClass_store_full ts info hinfo
  · intro ts n f1 d2 f3 hn h1 h2 h3 hf1 hd2 hf3
    have step2 : ((ts.addClass f1).addClass d2).getClass d2.name =
        some { d2 with allFields := none } :=
      addClass_store_full _ d2 hd2
    have hlook3 : alLookup ((ts.addClass f1).addClass d2).classes f3.name =
        some { d2 with allFields := none } := by
      rw [h3, ← h2]
      exact step2
    have keep3 := addClass_keep _ f3 { d2 with allFields := none } hlook3 (by simp [hd2]) hf3
    rw [keep3, ← h2]
    exact step2

/-- Witness for C6: concrete forward/full/forward registrations of class `X`. -/
theorem addClass_definition_over_forward_witness :
    (let loc : Location := ⟨"a.td", ⟨⟨0, 0⟩, ⟨0, 0⟩⟩⟩
     let fwd1 : ClassInfo := ⟨"X", .cls, loc, "a.td", [], [], [], none, true⟩
     let d2 : ClassInfo := ⟨"X", .cls, loc, "b.td", [], [],
       [("F", ⟨"F", .mk .builtin "int" none none, loc, "X"⟩)], none, false⟩
     let fwd3 : ClassInfo := ⟨"X", .cls, loc, "c.td", [], [], [], none, true⟩
     ((((TypeSystem.empty.addClass fwd1).addClass d2).addClass fwd3).getClass "X" =
        some { d2 with allFields := none }) ∧
     ((TypeSystem.empty.addClass d2).getClass "X" = some { d2 with allFields := none }) ∧
     (((TypeSystem.empty.addClass d2).addClass fwd1).getClass "X" =
        some { d2 with allFields := none })) := by
  refine ⟨?_, ?_, ?_⟩
  · exact addClass_definition_over_forward.2.2 TypeSystem.empty "X" _ _ _
      rfl rfl rfl rfl rfl rfl rfl
  · exact addClass_definition_over_forward.2.1 TypeSystem.empty _ rfl
  · exact addClass_definition_over_forward.1 _ _ _ rfl rfl rfl

/-- One step of the parent loop of `getAllParentClasses`: push the parent if
not already listed, then recurse into it. -/
def collectParentStep (fuel : Nat) (ts : TypeSystem) (a : ParentAcc) (parent : String) :
    ParentAcc :=
  let a1 :=
    if a.parents.contains parent then a
    else { a with parents := a.parents ++ [parent] }
  collectParentsF fuel ts parent a1

/-- Unfolding lemma for `collectParentsF` at positive fuel, with the loop
body named. -/
theorem collectParentsF_succ (fuel : Nat) (ts : TypeSystem) (name : String) (acc : ParentAcc) :
    collectParentsF (fuel + 1) ts name acc =
      match alLookup ts.classes name with
      | none => acc
      | some classInfo =>
        if acc.visited.contains name then acc
        else
          classInfo.parentClasses.foldl (collectParentStep fuel ts)
            { acc with visited := acc.visited ++ [name] } := rfl

/-- The parents accumulated by `collectParentsF` stay duplicate-free. -/
theorem collectParentsF_nodup_par :
    ∀ (fuel : Nat) (ts : TypeSystem) (name : String) (acc : ParentAcc),
      acc.parents.Nodup → (collectParentsF fuel ts name acc).parents.Nodup := by
  intro fuel
  induction fuel with
  | zero => intro ts name acc h; exact h
  | succ fuel ih =>
    intro ts name acc h
    rw [collectParentsF_succ]
    cases alLookup ts.classes name with
    | none => exact h
    | some ci =>
      by_cases hv : acc.visited.contains name = true
      · simp only [hv, if_true]; exact h
      · simp only [hv, Bool.false_eq_true, if_false]
        have aux : ∀ (ps : List String) (a : ParentAcc), a.parents.Nodup →
            (ps.foldl (collectParentStep fuel ts) a).parents.Nodup := by
          intro ps
          induction ps with
          | nil => intro a ha; exact ha
          | cons p ps ihp =>
            intro a ha
            rw [List.foldl_cons]
            apply ihp
            unfold collectParentStep
            apply ih
            by_cases hp : p ∈ a.parents
            · simpa [hp] using ha
            · simp [hp, List.nodup_append, ha]
        exact aux ci.parentClasses _ h

/-- Number of registered class names not yet visited: the decreasing measure
of `getAllParentClasses`'s walk. -/
def keysUnvisited (ts : TypeSystem) (visited : List String) : Nat :=
  ((ts.classes.map Prod.fst).filter (fun k => !(visited.contains k))).length

/-- A successful `alLookup` means the key is among the stored keys. -/
theorem alLookup_mem_keys {α : Type} :
    ∀ (l : List (String × α)) (k : String) (v : α),
      alLookup l k = some v → k ∈ l.map Prod.fst := by
  intro l
  induction l with
  | nil => intro k v h; simp [alLookup] at h
  | cons hd tl ih =>
    intro k v h
    obtain ⟨k2, v2⟩ := hd
    by_cases he : k2 = k
    · simp [he]
    · simp only [alLookup, he, if_false] at h
      simpa using Or.inr (ih k v h)

/-- Filtering with a stronger predicate yields at most as many elements. -/
theorem filter_length_mono_of_imp {p q : String → Bool} :
    ∀ (l : List String), (∀ x, q x = true → p x = true) →
      (l.filter q).length ≤ (l.filter p).length := by
  intro l h
  induction l with
  | nil => simp
  | cons hd tl ih =>
    by_cases hq : q hd = true
    · simp [hq, h hd hq]; omega
    · by_cases hp : p hd = true
      · simp [hq, hp]; omega
      · simp [hq, hp]; omega

/-- Growing the visited set cannot increase the measure. -/
theorem keysUnvisited_mono (ts : TypeSystem) (v1 v2 : List String)
    (h : ∀ x, x ∈ v1 → x ∈ v2) : keysUnvisited ts v2 ≤ keysUnvisited ts v1 := by
  apply filter_length_mono_of_imp
  intro x hx
  simp only [Bool.not_eq_true', ← Bool.not_eq_true] at hx ⊢
  intro hc
  exact hx (by simpa using h x (by simpa using hc))

/-- Filtering out one more present element strictly shrinks the filter. -/
theorem filter_erase_one :
    ∀ (keys v : List String) (k : String), k ∈ keys → k ∉ v →
      (keys.filter (fun x => !((v ++ [k]).contains x))).length <
        (keys.filter (fun x => !(v.contains x))).length := by
  intro keys
  induction keys with
  | nil => intro v k hk _; simp at hk
  | cons hd tl ih =>
    intro v k hk hv
    by_cases he : hd = k
    · subst he
      have h1 : (tl.filter (fun x => !((v ++ [hd]).contains x))).length ≤
          (tl.filter (fun x => !(v.contains x))).length := by
        apply filter_length_mono_of_imp
        intro x hx
        simp at hx ⊢
        exact hx.1
      have hdropL : (!((v ++ [hd]).contains hd)) = false := by simp
      have hkeepR : (!(v.contains hd)) = true := by simp [hv]
      simp only [List.filter_cons, hdropL, hkeepR, if_false, if_true, List.length_cons,
        Bool.false_eq_true]
      omega
    · have hk2 : k ∈ tl := by
        rcases List.mem_cons.mp hk with h | h
        · exact absurd h.symm he
        · exact h
      have := ih v k hk2 hv
      by_cases hc : hd ∈ v
      · have hdropL : (!((v ++ [k]).contains hd)) = false := by simp [hc]
        have hdropR : (!(v.contains hd)) = false := by simp [hc]
        simp only [List.filter_cons, hdropL, hdropR, if_false, Bool.false_eq_true]
        omega
      · have hkeepL : (!((v ++ [k]).contains hd)) = true := by simp [hc, he]
        have hkeepR : (!(v.contains hd)) = true := by simp [hc]
        simp only [List.filter_cons, hkeepL, hkeepR, if_true, List.length_cons]
        omega

/-- Visiting a registered, unvisited class strictly decreases the measure. -/
theorem keysUnvisited_strict (ts : TypeSystem) (v : List String) (k : String)
    (hk : k ∈ ts.classes.map Prod.fst) (hv : k ∉ v) :
    keysUnvisited ts (v ++ [k]) < keysUnvisited ts v :=
  filter_erase_one _ v k hk hv

/-- The visited set only grows during the parent walk. -/
theorem collectParentsF_visited_mono :
    ∀ (fuel : Nat) (ts : TypeSystem) (name : String) (acc : ParentAcc) (x : String),
      x ∈ acc.visited → x ∈ (collectParentsF fuel ts name acc).visited := by
  intro fuel
  induction fuel with
  | zero => intro ts name acc x hx; exact hx
  | succ fuel ih =>
    intro ts name acc x hx
    rw [collectParentsF_succ]
    cases alLookup ts.classes name with
    | none => exact hx
    | some ci =>
      by_cases hv : acc.visited.contains name = true
      · simp only [hv, if_true]; exact hx
      · simp only [hv, Bool.false_eq_true, if_false]
        have aux : ∀ (ps : List String) (a : ParentAcc), x ∈ a.visited →
            x ∈ (ps.foldl (collectParentStep fuel ts) a).visited := by
          intro ps
          induction ps with
          | nil => intro a ha; exact ha
          | cons p ps ihp =>
            intro a ha
            rw [List.foldl_cons]
            apply ihp
            unfold collectParentStep
            apply ih
            by_cases hp : p ∈ a.parents
            · simpa [hp] using ha
            · simpa [hp] using ha
        exact aux ci.parentClasses _ (by simp [hx])

/-- Above the measure, one more unit of fuel does not change the walk. -/
theorem collectParentsF_stable :
    ∀ (fuel : Nat) (ts : TypeSystem) (name : String) (acc : ParentAcc),
      keysUnvisited ts acc.visited < fuel →
      collectParentsF (fuel + 1) ts name acc = collectParentsF fuel ts name acc := by
  intro fuel
  induction fuel with
  | zero => intro ts name acc h; omega
  | succ fuel ih =>
    intro ts name acc hlt
    rw [collectParentsF_succ, collectParentsF_succ]
    cases hcl : alLookup ts.classes name with
    | none => rfl
    | some ci =>
      by_cases hv : acc.visited.contains name = true
      · simp only [hv, if_true]
      · simp only [hv, Bool.false_eq_true, if_false]
        have hkey : name ∈ ts.classes.map Prod.fst := alLookup_mem_keys _ _ _ hcl
        have hnv : name ∉ acc.visited := by simpa using hv
        have hlt1 : keysUnvisited ts (acc.visited ++ [name]) < fuel := by
          have := keysUnvisited_strict ts acc.visited name hkey hnv
          omega
        have aux : ∀ (ps : List String) (a : ParentAcc), keysUnvisited ts a.visited < fuel →
            ps.foldl (collectParentStep (fuel + 1) ts) a =
              ps.foldl (collectParentStep fuel ts) a := by
          intro ps
          induction ps with
          | nil => intro a _; rfl
          | cons p ps ihp =>
            intro a hba
            have hvis1 : ∀ (b : Bool),
                ((if b then a else { a with parents := a.parents ++ [p] }) : ParentAcc).visited
                  = a.visited := by
              intro b; cases b <;> rfl
            have hstep : collectParentStep (fuel + 1) ts a p = collectParentStep fuel ts a p := by
              unfold collectParentStep
              apply ih
              rw [hvis1]
              exact hba
            rw [List.foldl_cons, List.foldl_cons, hstep]
            apply ihp
            have hmono : ∀ z, z ∈ a.visited → z ∈ (collectParentStep fuel ts a p).visited := by
              intro z hz
              unfold collectParentStep
              apply collectParentsF_visited_mono
              rw [hvis1]
              exact hz
            have := keysUnvisited_mono ts a.visited (collectParentStep fuel ts a p).visited hmono
            omega
        exact aux ci.parentClasses _ hlt1

/-- Above the measure, any extra fuel leaves the walk unchanged. -/
theorem collectParentsF_stable_all :
    ∀ (extra fuel : Nat) (ts : TypeSystem) (name : String) (acc : ParentAcc),
      keysUnvisited ts acc.visited < fuel →
      collectParentsF (fuel + extra) ts name acc = collectParentsF fuel ts name acc := by
  intro extra
  induction extra with
  | zero => intro fuel ts name acc _; rfl
  | succ extra ih =>
    intro fuel ts name acc h
    have h2 : keysUnvisited ts acc.visited < fuel + extra := by omega
    calc collectParentsF (fuel + (extra + 1)) ts name acc
        = collectParentsF ((fuel + extra) + 1) ts name acc := by ring_nf
      _ = collectParentsF (fuel + extra) ts name acc := collectParentsF_stable _ _ _ _ h2
      _ = collectParentsF fuel ts name acc := ih fuel ts name acc h

/-- C10: `getAllParentClasses` terminates for every registry, including ones
whose parent edges form a cycle, because the walk tracks visited classes: the
computation is unchanged by any extra fuel beyond the standard bound, and the
returned list mentions each parent class name at most once. -/
theorem getAllParentClasses_cycle_safe_nodup (ts : TypeSystem) (className : String) :
    (ts.getAllParentClasses className).Nodup ∧
    ∀ (extra : Nat),
      collectParentsF (ts.classes.length + 1 + extra) ts className ⟨[], []⟩ =
        collectParentsF (ts.classes.length + 1) ts className ⟨[], []⟩ := by
  constructor
  · exact collectParentsF_nodup_par _ _ _ _ (by simp)
  · intro extra
    have hb : keysUnvisited ts ([] : List String) < ts.classes.length + 1 := by
      have h1 : ((ts.classes.map Prod.fst).filter
          (fun k => !(([] : List String).contains k))).length ≤
          (ts.classes.map Prod.fst).length := List.length_filter_le _ _
      unfold keysUnvisited
      simp only [List.length_map] at h1
      omega
    exact collectParentsF_stable_all extra (ts.classes.length + 1) ts className ⟨[], []⟩ hb

/-- AST identifier node (types.ts `Identifier`). -/
structure Identifier where
  name : String
  range : Range
deriving Repr, DecidableEq

mutual

/-- Expression nodes (types.ts `Expression` union).  `bangOp` carries the
captured type-argument text the parser attaches to `BangOperator` nodes. -/
inductive Expression where
  | identE (id : Identifier)
  | numberLit (value : Int) (range : Range)
  | stringLit (value : String) (range : Range)
  | codeLit (value : String) (range : Range)
  | listExpr (elements : List Expression) (range : Range)
  | dagExpr (operator : Expression) (args : List DagArg) (range : Range)
  | bangOp (operator : String) (typeArgText : Option String) (args : List Expression)
      (range : Range)
  | binaryExpr (operator : String) (left right : Expression) (range : Range)
  | ternaryExpr (condition thenExpr elseExpr : Expression) (range : Range)
  | fieldAccess (object : Expression) (field : Identifier) (range : Range)
  | classRefE (cr : ClassRef)

/-- Class reference with optional instantiation arguments (types.ts `ClassRef`). -/
inductive ClassRef where
  | mk (name : Identifier) (args : List Expression) (range : Range)

/-- Dag argument with optional `$name` label (types.ts `DagArg`). -/
inductive DagArg where
  | mk (value : Expression) (name : Option Identifier) (range : Range)

end

def ClassRef.name : ClassRef → Identifier
  | ⟨n, _, _⟩ => n

def ClassRef.args : ClassRef → List Expression
  | ⟨_, a, _⟩ => a

def ClassRef.range : ClassRef → Range
  | ⟨_, _, r⟩ => r

/-- Template argument (types.ts `TemplateArg`). -/
structure TemplateArg where
  argType : String
  name : Identifier
  defaultValue : Option Expression
  range : Range

/-- A single `let` binding (types.ts `LetBinding`). -/
structure LetBinding where
  name : Identifier
  value : Expression
  range : Range

mutual

/-- Statement nodes (types.ts `Statement` union). -/
inductive Statement where
  | classDef (name : Identifier) (templateArgs : List TemplateArg)
      (parentClasses : List ClassRef) (body : List Statement)
      (isForwardDeclaration : Bool) (range : Range)
  | recordDef (name : Option Identifier) (parentClasses : List ClassRef)
      (body : List Statement) (range : Range)
  | multiClassDefS (mc : MultiClassDef)
  | defmDef (name : Option Identifier) (parentClasses : List ClassRef) (range : Range)
  | defsetDef (valueType : String) (name : Identifier) (body : List Statement)
      (range : Range)
  | defvarDef (name : Identifier) (value : Expression) (range : Range)
  | fieldDef (fieldType : String) (name : Identifier) (value : Option Expression)
      (range : Range)
  | letStmt (bindings : List LetBinding) (body : List Statement) (range : Range)
  | foreachStmt (var : Identifier) (iterRange : Expression) (body : List Statement)
      (range : Range)
  | ifStmt (condition : Expression) (thenBody elseBody : List Statement) (range : Range)
  | includeStmt (path : String) (range : Range)
  | assertStmt (condition message : Expression) (range : Range)

/-- Multiclass definition node (types.ts `MultiClassDef`), kept as its own
type because the resolution helpers pass these nodes around. -/
inductive MultiClassDef where
  | mk (name : Identifier) (templateArgs : List TemplateArg)
      (parentClasses : List ClassRef) (body : List Statement) (range : Range)

end

def MultiClassDef.name : MultiClassDef → Identifier
  | ⟨n, _, _, _, _⟩ => n

def MultiClassDef.templateArgs : MultiClassDef → List TemplateArg
  | ⟨_, t, _, _, _⟩ => t

def MultiClassDef.parentClasses : MultiClassDef → List ClassRef
  | ⟨_, _, p, _, _⟩ => p

def MultiClassDef.body : MultiClassDef → List Statement
  | ⟨_, _, _, b, _⟩ => b

def MultiClassDef.range : MultiClassDef → Range
  | ⟨_, _, _, _, r⟩ => r

/-- Parse diagnostic (types.ts `ParseError`). -/
structure ParseError where
  message : String
  range : Range
deriving Repr, DecidableEq

/-- Parsed file (types.ts `ParsedFile`): statements, the include statements
among them, and the diagnostics. -/
structure ParsedFile where
  uri : String
  statements : List Statement
  includes : List Statement
  errors : List ParseError

/-- Symbol kinds (types.ts `SymbolKind`). -/
inductive SymbolKind where
  | cls
  | defn
  | defm
  | multiclass
  | defset
  | defvar
  | field
  | templateArg
  | foreachVar
  | letBinding
deriving Repr, DecidableEq

/-- Declaration symbol (types.ts `Symbol`; named `TgSymbol` here because
`Symbol` already exists in the ambient library).  The optional fields model
the TypeScript `?:` members, with `none` for `undefined`. -/
structure TgSymbol where
  name : String
  kind : SymbolKind
  location : Location
  scope : Option String := none
  isForwardDeclaration : Option Bool := none
deriving Repr, DecidableEq

/-- Identifier reference (types.ts `SymbolReference`). -/
structure SymbolReference where
  name : String
  location : Location
  scope : Option String := none
  definitionLocation : Option Location := none
deriving Repr, DecidableEq

/-- Code-unit comparison of identifier characters, standing in for the
JavaScript default sort comparator (UTF-16 code-unit order; identical to
scalar-value order on the identifier characters involved here). -/
def charListLt : List Char → List Char → Bool
  | [], [] => false
  | [], _ :: _ => true
  | _ :: _, [] => false
  | c :: cs, d :: ds =>
    if c.toNat < d.toNat then true
    else if d.toNat < c.toNat then false
    else charListLt cs ds

def strLt (a b : String) : Bool :=
  charListLt a.data b.data

def insertSorted (x : String) : List String → List String
  | [] => [x]
  | y :: ys => if strLt x y then x :: y :: ys else y :: insertSorted x ys

/-- `Array.from(set).sort()`: the set's elements in ascending order. -/
def sortStrings : List String → List String
  | [] => []
  | x :: xs => insertSorted x (sortStrings xs)

/-- State threaded through the suffix collection: the accumulated suffix set
and the per-multiclass-name cache (both mutated in place in the source). -/
abbrev SuffixState := List String × List (String × List String)

mutual

/-- resolutionHelpers.ts `collectDefSuffixes`: cached results are returned,
a multiclass already being expanded (cycle) contributes the empty set,
otherwise parent multiclasses are expanded first (in declaration order),
then the body, and the sorted result is cached.  Fuel makes the recursion
structural; every recursive call of the source decrements it by one, so any
fuel above the total work bound gives the source's result. -/
def collectDefSuffixesF (findMc : String → Option MultiClassDef) :
    Nat → MultiClassDef → List (String × List String) → List String → SuffixState
  | 0, _, cache, _ => ([], cache)
  | fuel + 1, mc, cache, visiting =>
    let cacheKey := mc.name.name
    match alLookup cache cacheKey with
    | some cached => (cached, cache)
    | none =>
      if visiting.contains cacheKey then ([], cache)
      else
        let visiting1 := visiting ++ [cacheKey]
        let afterParents :=
          mc.parentClasses.foldl
            (fun (acc : SuffixState) parent =>
              match findMc parent.name.name with
              | some parentMc =>
                let inh := collectDefSuffixesF findMc fuel parentMc acc.2 visiting1
                (inh.1.foldl setAdd acc.1, inh.2)
              | none => acc)
            ([], cache)
        let afterBody := collectBodySuffixesF findMc fuel mc.body afterParents visiting1
        let sorted := sortStrings afterBody.1
        (sorted, alSet afterBody.2 cacheKey sorted)

/-- resolutionHelpers.ts `collectDefSuffixesFromBody`: named defs contribute
their own name; named nested defms contribute their name concatenated with
each suffix of the referenced multiclass; defset/foreach/let/if bodies are
transparent. -/
def collectBodySuffixesF (findMc : String → Option MultiClassDef) :
    Nat → List Statement → SuffixState → List String → SuffixState
  | 0, _, st, _ => st
  | _ + 1, [], st, _ => st
  | fuel + 1, stmt :: rest, st, visiting =>
    let st1 :=
      match stmt with
      | .recordDef (some nm) _ _ _ => (setAdd st.1 nm.name, st.2)
      | .defmDef (some nm) parents _ =>
        parents.foldl
          (fun (acc : SuffixState) parent =>
            match findMc parent.name.name with
            | some nestedMc =>
              let sub := collectDefSuffixesF findMc fuel nestedMc acc.2 visiting
              (sub.1.foldl (fun s u => setAdd s (nm.name ++ u)) acc.1, sub.2)
            | none => acc)
          st
      | .defsetDef _ _ b _ => collectBodySuffixesF findMc fuel b st visiting
      | .foreachStmt _ _ b _ => collectBodySuffixesF findMc fuel b st visiting
      | .letStmt _ b _ => collectBodySuffixesF findMc fuel b st visiting
      | .ifStmt _ tb eb _ =>
        collectBodySuffixesF findMc fuel eb (collectBodySuffixesF findMc fuel tb st visiting)
          visiting
      | _ => st
    collectBodySuffixesF findMc fuel rest st1 visiting

end

/-- resolutionHelpers.ts `collectCompositeDefmSymbolsFromStatements`: every
named defm synthesizes, for each suffix of each referenced multiclass, one
composite symbol of kind `def` located at the defm's name range; the
composite names are emitted sorted.  The suffix cache is threaded; every
top-level `collectDefSuffixes` call starts with a fresh visiting set. -/
def collectCompositeF (findMc : String → Option MultiClassDef) :
    Nat → List Statement → String → List (String × List String) → List TgSymbol →
    List TgSymbol × List (String × List String)
  | 0, _, _, cache, collected => (collected, cache)
  | _ + 1, [], _, cache, collected => (collected, cache)
  | fuel + 1, stmt :: rest, uri, cache, collected =>
    match stmt with
    | .defmDef (some nm) parents _ =>
      let defmLocation : Location := ⟨uri, nm.range⟩
      let res :=
        parents.foldl
          (fun (acc : List String × List (String × List String)) parent =>
            match findMc parent.name.name with
            | some mcDef =>
              let sfx := collectDefSuffixesF findMc fuel mcDef acc.2 []
              (sfx.1.foldl (fun s u => setAdd s (nm.name ++ u)) acc.1, sfx.2)
            | none => acc)
          ([], cache)
      let newSyms := (sortStrings res.1).map fun compositeName =>
        ({ name := compositeName, kind := .defn, location := defmLocation } : TgSymbol)
      collectCompositeF findMc fuel rest uri res.2 (collected ++ newSyms)
    | .defsetDef _ _ b _ =>
      let r1 := collectCompositeF findMc fuel b uri cache collected
      collectCompositeF findMc fuel rest uri r1.2 r1.1
    | .foreachStmt _ _ b _ =>
      let r1 := collectCompositeF findMc fuel b uri cache collected
      collectCompositeF findMc fuel rest uri r1.2 r1.1
    | .letStmt _ b _ =>
      let r1 := collectCompositeF findMc fuel b uri cache collected
      collectCompositeF findMc fuel rest uri r1.2 r1.1
    | .ifStmt _ tb eb _ =>
      let r1 := collectCompositeF findMc fuel tb uri cache collected
      let r2 := collectCompositeF findMc fuel eb uri r1.2 r1.1
      collectCompositeF findMc fuel rest uri r2.2 r2.1
    | _ => collectCompositeF findMc fuel rest uri cache collected

/-- resolutionHelpers.ts `computeCompositeDefmSymbols`, with fuel. -/
def computeCompositeDefmSymbolsF (fuel : Nat) (statements : List Statement) (uri : String)
    (findMc : String → Option MultiClassDef) : List TgSymbol :=
  (collectCompositeF findMc fuel statements uri [] []).1

/-- C1: with `multiclass A{def _a:Base;}` and `multiclass B:A{def _b:Base;}`
resolvable (A's and B's nodes found by the multiclass lookup), the composite
defm symbols computed for `defm Z:B;` are exactly `Z_a` and `Z_b` — the
inherited suffix from parent multiclass A first, then B's local suffix —
each a symbol of kind `def` located at the defm's declaration location. -/
theorem compositeDefm_inherits_parent_suffixes
    (find : String → Option MultiClassDef) (uri : String) (r rZ : Range) (extra : Nat)
    (hA : find "A" = some (MultiClassDef.mk ⟨"A", r⟩ [] []
      [Statement.recordDef (some ⟨"_a", r⟩) [ClassRef.mk ⟨"Base", r⟩ [] r] [] r] r))
    (hB : find "B" = some (MultiClassDef.mk ⟨"B", r⟩ [] [ClassRef.mk ⟨"A", r⟩ [] r]
      [Statement.recordDef (some ⟨"_b", r⟩) [ClassRef.mk ⟨"Base", r⟩ [] r] [] r] r)) :
    computeCompositeDefmSymbolsF (extra + 8)
      [Statement.defmDef (some ⟨"Z", rZ⟩) [ClassRef.mk ⟨"B", r⟩ [] r] r] uri find =
      [⟨"Z_a", .defn, ⟨uri, rZ⟩, none, none⟩, ⟨"Z_b", .defn, ⟨uri, rZ⟩, none, none⟩] := by
  simp [computeCompositeDefmSymbolsF, collectCompositeF, collectDefSuffixesF,
    collectBodySuffixesF, hA, hB, MultiClassDef.name, MultiClassDef.parentClasses,
    MultiClassDef.body, ClassRef.name, alLookup, alSet, setAdd, sortStrings,
    insertSorted, strLt, charListLt]

/-- Witness for C1: a concrete multiclass lookup containing exactly A and B. -/
theorem compositeDefm_inherits_parent_suffixes_witness :
    (let r0 : Range := ⟨⟨0, 0⟩, ⟨0, 0⟩⟩
     let rZ0 : Range := ⟨⟨2, 5⟩, ⟨2, 6⟩⟩
     let find0 : String → Option MultiClassDef := fun n =>
       if n = "A" then
         some (MultiClassDef.mk ⟨"A", r0⟩ [] []
           [Statement.recordDef (some ⟨"_a", r0⟩) [ClassRef.mk ⟨"Base", r0⟩ [] r0] [] r0] r0)
       else if n = "B" then
         some (MultiClassDef.mk ⟨"B", r0⟩ [] [ClassRef.mk ⟨"A", r0⟩ [] r0]
           [Statement.recordDef (some ⟨"_b", r0⟩) [ClassRef.mk ⟨"Base", r0⟩ [] r0] [] r0] r0)
       else none
     computeCompositeDefmSymbolsF 8
       [Statement.defmDef (some ⟨"Z", rZ0⟩) [ClassRef.mk ⟨"B", r0⟩ [] r0] r0] "test.td" find0 =
       [⟨"Z_a", .defn, ⟨"test.td", rZ0⟩, none, none⟩,
        ⟨"Z_b", .defn, ⟨"test.td", rZ0⟩, none, none⟩]) := by
  exact compositeDefm_inherits_parent_suffixes _ "test.td" _ _ 0 rfl rfl

/-- C2: with mutually recursive `multiclass A:B{def _a;}` and
`multiclass B:A{def _b;}`, computing the composite defm symbols for
`defm Z:A;` terminates with exactly `Z_a` and `Z_b` (the result is the same
for every fuel margin), and in general a multiclass re-entered while it is
being expanded (its name is in the visiting set and not yet cached)
contributes the empty suffix set instead of recursing. -/
theorem compositeDefm_mutual_recursion_terminates
    (find : String → Option MultiClassDef) (uri : String) (r rZ : Range) (extra : Nat)
    (hA : find "A" = some (MultiClassDef.mk ⟨"A", r⟩ [] [ClassRef.mk ⟨"B", r⟩ [] r]
      [Statement.recordDef (some ⟨"_a", r⟩) [] [] r] r))
    (hB : find "B" = some (MultiClassDef.mk ⟨"B", r⟩ [] [ClassRef.mk ⟨"A", r⟩ [] r]
      [Statement.recordDef (some ⟨"_b", r⟩) [] [] r] r)) :
    (computeCompositeDefmSymbolsF (extra + 8)
      [Statement.defmDef (some ⟨"Z", rZ⟩) [ClassRef.mk ⟨"A", r⟩ [] r] r] uri find =
      [⟨"Z_a", .defn, ⟨uri, rZ⟩, none, none⟩, ⟨"Z_b", .defn, ⟨uri, rZ⟩, none, none⟩]) ∧
    (∀ (fuel : Nat) (mc : MultiClassDef) (cache : List (String × List String))
        (visiting : List String),
        alLookup cache mc.name.name = none →
        visiting.contains mc.name.name = true →
        collectDefSuffixesF find (fuel + 1) mc cache visiting = ([], cache)) := by
  constructor
  · simp [computeCompositeDefmSymbolsF, collectCompositeF, collectDefSuffixesF,
      collectBodySuffixesF, hA, hB, MultiClassDef.name, MultiClassDef.parentClasses,
      MultiClassDef.body, ClassRef.name, alLookup, alSet, setAdd, sortStrings,
      insertSorted, strLt, charListLt]
  · intro fuel mc cache visiting hcache hvis
    have hv2 : mc.name.name ∈ visiting := by simpa using hvis
    simp [collectDefSuffixesF, hcache, hv2]

/-- Witness for C2: the concrete mutually recursive pair A:B and B:A. -/
theorem compositeDefm_mutual_recursion_terminates_witness :
    (let r0 : Range := ⟨⟨0, 0⟩, ⟨0, 0⟩⟩
     let rZ0 : Range := ⟨⟨2, 5⟩, ⟨2, 6⟩⟩
     let find1 : String → Option MultiClassDef := fun n =>
       if n = "A" then
         some (MultiClassDef.mk ⟨"A", r0⟩ [] [ClassRef.mk ⟨"B", r0⟩ [] r0]
           [Statement.recordDef (some ⟨"_a", r0⟩) [] [] r0] r0)
       else if n = "B" then
         some (MultiClassDef.mk ⟨"B", r0⟩ [] [ClassRef.mk ⟨"A", r0⟩ [] r0]
           [Statement.recordDef (some ⟨"_b", r0⟩) [] [] r0] r0)
       else none
     (computeCompositeDefmSymbolsF 8
       [Statement.defmDef (some ⟨"Z", rZ0⟩) [ClassRef.mk ⟨"A", r0⟩ [] r0] r0] "test.td" find1 =
       [⟨"Z_a", .defn, ⟨"test.td", rZ0⟩, none, none⟩,
        ⟨"Z_b", .defn, ⟨"test.td", rZ0⟩, none, none⟩]) ∧
     collectDefSuffixesF find1 1
       (MultiClassDef.mk ⟨"A", r0⟩ [] [ClassRef.mk ⟨"B", r0⟩ [] r0]
         [Statement.recordDef (some ⟨"_a", r0⟩) [] [] r0] r0) [] ["A"] = ([], [])) := by
  refine ⟨?_, ?_⟩
  · exact (compositeDefm_mutual_recursion_terminates _ "test.td" _ _ 0 rfl rfl).1
  · exact (compositeDefm_mutual_recursion_terminates _ "test.td" ⟨⟨0, 0⟩, ⟨0, 0⟩⟩
      ⟨⟨2, 5⟩, ⟨2, 6⟩⟩ 0 rfl rfl).2 0 _ [] ["A"] rfl rfl

/-- includeGraph.ts `IncludeGraph` state.  File paths are opaque names here
(`path.normalize` is the identity on them): root file → include search paths,
forward and reverse include edges, and the two memo tables. -/
structure IncludeGraph where
  rootFiles : List (String × List String)
  forwardIncludes : List (String × List String)
  reverseIncludes : List (String × List String)
  fileToRoot : List (String × String)
  visibleFilesCache : List (String × List String)

/-- The BFS loop of `findRootFile` over the reverse-include edges, fuelled
(each loop iteration of the source consumes one unit). -/
def bfsRootF (g : IncludeGraph) : Nat → List String → List String → Option String
  | 0, _, _ => none
  | _ + 1, [], _ => none
  | fuel + 1, current :: queue, visited =>
    if visited.contains current then bfsRootF g fuel queue visited
    else
      let visited1 := visited ++ [current]
      if (alLookup g.rootFiles current).isSome then some current
      else
        let parents := (alLookup g.reverseIncludes current).getD []
        bfsRootF g fuel (queue ++ parents.filter (fun p => !(visited1.contains p))) visited1

/-- includeGraph.ts `findRootFile`: memo table first, then the file itself if
it is a root, then a BFS up the reverse-include edges (memo writes are
performance-only and not modelled). -/
def IncludeGraph.findRootFileF (g : IncludeGraph) (fuel : Nat) (filePath : String) :
    Option String :=
  match alLookup g.fileToRoot filePath with
  | some r => some r
  | none =>
    if (alLookup g.rootFiles filePath).isSome then some filePath
    else bfsRootF g fuel [filePath] []

/-- Phase 1 of `getVisibleFiles` (`collectUpToTarget`), flattened over the
depth-first worklist: an already-visited file contributes nothing, otherwise
it is visited and collected; reaching the target stops the walk, and a
branch's includes are explored before its right siblings.  State is
(visibleFiles, visited); the Bool is the "target found" flag. -/
def upToTargetListF (g : IncludeGraph) (target : String) :
    Nat → List String → List String × List String → Bool × (List String × List String)
  | 0, _, st => (false, st)
  | _ + 1, [], st => (false, st)
  | fuel + 1, file :: rest, st =>
    if st.2.contains file then upToTargetListF g target fuel rest st
    else
      let st1 := (st.1 ++ [file], st.2 ++ [file])
      if file = target then (true, st1)
      else
        let r := upToTargetListF g target fuel ((alLookup g.forwardIncludes file).getD []) st1
        if r.1 then r else upToTargetListF g target fuel rest r.2

/-- Phase 2 of `getVisibleFiles` (`collectAllIncludes`): the target's
transitive includes in include order, skipping files already collected. -/
def collectAllIncludesListF (g : IncludeGraph) :
    Nat → List String → List String × List String → List String × List String
  | 0, _, st => st
  | _ + 1, [], st => st
  | fuel + 1, inc :: rest, st =>
    if st.2.contains inc then collectAllIncludesListF g fuel rest st
    else
      let st1 := (st.1 ++ [inc], st.2 ++ [inc])
      let st2 := collectAllIncludesListF g fuel ((alLookup g.forwardIncludes inc).getD []) st1
      collectAllIncludesListF g fuel rest st2

/-- includeGraph.ts `getVisibleFiles`: the memoized view if cached, else the
union of (1) the files from the root down to the target in include order,
first occurrence winning, stopping each branch at the target, and (2) the
target's transitive includes, skipping files already collected. -/
def IncludeGraph.getVisibleFilesF (g : IncludeGraph) (fuel : Nat) (filePath : String) :
    List String :=
  match alLookup g.visibleFilesCache filePath with
  | some cached => cached
  | none =>
    match g.findRootFileF fuel filePath with
    | none => []
    | some rootFile =>
      let phase1 := upToTargetListF g filePath fuel [rootFile] ([], [])
      let phase2 :=
        collectAllIncludesListF g fuel ((alLookup g.forwardIncludes filePath).getD [])
          phase1.2
      phase2.1

/-- C3: in the include graph with roots R and S where R includes A, A
includes B, and S is unrelated to A and B, `getVisibleFiles A` is exactly
`[R, A, B]` — R and A from the root-to-target path, B as a transitive
include of A — for every fuel margin, and in particular never contains the
unrelated root S. -/
theorem getVisibleFiles_path_and_includes (R A B S : String) (ps1 ps2 : List String)
    (extra : Nat) (hRA : R ≠ A) (hRB : R ≠ B) (hRS : R ≠ S) (hAB : A ≠ B)
    (hAS : A ≠ S) (hBS : B ≠ S) :
    let g : IncludeGraph :=
      { rootFiles := [(R, ps1), (S, ps2)]
        forwardIncludes := [(R, [A]), (A, [B])]
        reverseIncludes := [(A, [R]), (B, [A])]
        fileToRoot := []
        visibleFilesCache := [] }
    g.getVisibleFilesF (extra + 8) A = [R, A, B] ∧
    S ∉ g.getVisibleFilesF (extra + 8) A := by
  intro g
  have main : g.getVisibleFilesF (extra + 8) A = [R, A, B] := by
    simp [IncludeGraph.getVisibleFilesF, IncludeGraph.findRootFileF, bfsRootF,
      upToTargetListF, collectAllIncludesListF, alLookup, g,
      hRA, hRB, hRS, hAB, hAS, hBS, Ne.symm hRA, Ne.symm hRB, Ne.symm hRS,
      Ne.symm hAB, Ne.symm hAS, Ne.symm hBS]
  refine ⟨main, ?_⟩
  rw [main]
  simp [Ne.symm hRS, Ne.symm hAS, Ne.symm hBS]

/-- Witness for C3: concrete file names R.td, A.td, B.td, S.td. -/
theorem getVisibleFiles_path_and_includes_witness :
    (let g : IncludeGraph :=
       { rootFiles := [("R.td", []), ("S.td", [])]
         forwardIncludes := [("R.td", ["A.td"]), ("A.td", ["B.td"])]
         reverseIncludes := [("A.td", ["R.td"]), ("B.td", ["A.td"])]
         fileToRoot := []
         visibleFilesCache := [] }
     g.getVisibleFilesF 8 "A.td" = ["R.td", "A.td", "B.td"] ∧
     "S.td" ∉ g.getVisibleFilesF 8 "A.td") := by
  exact getVisibleFiles_path_and_includes "R.td" "A.td" "B.td" "S.td" [] [] 0
    (by decide) (by decide) (by decide) (by decide) (by decide) (by decide)

/-- JavaScript truthiness of a TypeScript `string | undefined` scope value:
`undefined` and the empty string are falsy. -/
def isTruthyScope : Option String → Bool
  | none => false
  | some s => !(s == "")

/-- The `if (!map.has(k)) map.set(k, []); map.get(k).push(x)` idiom. -/
def alPush {α : Type} (l : List (String × List α)) (k : String) (x : α) :
    List (String × List α) :=
  alSet l k (((alLookup l k).getD []) ++ [x])

/-- JavaScript `Map.delete` (keys are unique in a `Map`, so dropping every
entry under the key is the deletion of its one entry). -/
def alErase {α : Type} (l : List (String × α)) (k : String) : List (String × α) :=
  l.filter (fun kv => !(kv.1 == k))

/-- symbols.ts `SymbolTable` state: the global and scoped name indices, the
flat reference list, and the per-file indices used for `clearFile`. -/
structure SymbolTable where
  globalSymbols : List (String × List TgSymbol)
  scopedSymbols : List (String × List (String × List TgSymbol))
  references : List SymbolReference
  fileSymbols : List (String × List TgSymbol)
  fileReferences : List (String × List SymbolReference)

def SymbolTable.empty : SymbolTable := ⟨[], [], [], [], []⟩

/-- symbols.ts `SymbolTable.addSymbol`: empty names are dropped; the symbol
is filed under its file, and under the scoped index when its scope is truthy,
else the global index. -/
def SymbolTable.addSymbol (st : SymbolTable) (symbol : TgSymbol) : SymbolTable :=
  if symbol.name = "" then st
  else
    let st1 := { st with fileSymbols := alPush st.fileSymbols symbol.location.uri symbol }
    if isTruthyScope symbol.scope then
      let sc := symbol.scope.getD ""
      { st1 with
        scopedSymbols :=
          alSet st1.scopedSymbols sc
            (alPush ((alLookup st1.scopedSymbols sc).getD []) symbol.name symbol) }
    else
      { st1 with globalSymbols := alPush st1.globalSymbols symbol.name symbol }

/-- symbols.ts `SymbolTable.addReference`. -/
def SymbolTable.addReference (st : SymbolTable) (ref : SymbolReference) : SymbolTable :=
  { st with
    fileReferences := alPush st.fileReferences ref.location.uri ref
    references := st.references ++ [ref] }

/-- The `findIndex`/`splice` pair of `clearFile`: remove the first symbol
located in the given file. -/
def removeFirstUri (uri : String) : List TgSymbol → List TgSymbol
  | [] => []
  | s :: rest => if s.location.uri = uri then rest else s :: removeFirstUri uri rest

/-- One iteration of the symbol-removal loop of `clearFile`: drop the first
entry of the symbol's index bucket that is located in the cleared file. -/
def clearFileSymbolStep (uri : String) (st : SymbolTable) (sym : TgSymbol) : SymbolTable :=
  if isTruthyScope sym.scope then
    match alLookup st.scopedSymbols (sym.scope.getD "") with
    | none => st
    | some scopeMap =>
      match alLookup scopeMap sym.name with
      | none => st
      | some syms =>
        { st with
          scopedSymbols := alSet st.scopedSymbols (sym.scope.getD "")
            (alSet scopeMap sym.name (removeFirstUri uri syms)) }
  else
    match alLookup st.globalSymbols sym.name with
    | none => st
    | some syms =>
      { st with globalSymbols := alSet st.globalSymbols sym.name (removeFirstUri uri syms) }

/-- symbols.ts `SymbolTable.clearFile`: for each symbol previously filed
under the uri, remove its index entry; drop the per-file symbol list; drop
all references located in the file from the flat list and the per-file
reference index. -/
def SymbolTable.clearFile (st : SymbolTable) (uri : String) : SymbolTable :=
  let oldSymbols := (alLookup st.fileSymbols uri).getD []
  let st1 := oldSymbols.foldl (clearFileSymbolStep uri) st
  { st1 with
    fileSymbols := alErase st1.fileSymbols uri
    references := st1.references.filter (fun r => !(r.location.uri == uri))
    fileReferences := alErase st1.fileReferences uri }

/-- The `syms.find(s => !s.isForwardDeclaration) || syms[0]` preference. -/
def pickDefinition (syms : List TgSymbol) : Option TgSymbol :=
  match syms.find? (fun s => !(s.isForwardDeclaration.getD false)) with
  | some d => some d
  | none => syms.head?

/-- symbols.ts `SymbolTable.findDefinition`: a truthy scope's bucket is
preferred when non-empty, else the global bucket, preferring non-forward
declarations in either. -/
def SymbolTable.findDefinition (st : SymbolTable) (name : String) (scope : Option String) :
    Option TgSymbol :=
  let scopedResult :=
    if isTruthyScope scope then
      match alLookup st.scopedSymbols (scope.getD "") with
      | none => none
      | some scopeMap =>
        match alLookup scopeMap name with
        | none => none
        | some syms => if syms.length > 0 then pickDefinition syms else none
    else none
  match scopedResult with
  | some s => some s
  | none =>
    match alLookup st.globalSymbols name with
    | none => none
    | some syms => if syms.length > 0 then pickDefinition syms else none

/-- symbols.ts `SymbolTable.findReferences`. -/
def SymbolTable.findReferences (st : SymbolTable) (name : String) : List SymbolReference :=
  st.references.filter (fun r => r.name == name)

/-- symbols.ts `SymbolTable.getAllSymbolsInFile`. -/
def SymbolTable.getAllSymbolsInFile (st : SymbolTable) (uri : String) : List TgSymbol :=
  (alLookup st.fileSymbols uri).getD []

/-- One unit of work arriving at the symbol table: a declaration or a
reference. -/
inductive TableEntry where
  | sym (s : TgSymbol)
  | ref (r : SymbolReference)

def TableEntry.uri : TableEntry → String
  | .sym s => s.location.uri
  | .ref r => r.location.uri

def tableStep (st : SymbolTable) (e : TableEntry) : SymbolTable :=
  match e with
  | .sym s => st.addSymbol s
  | .ref r => st.addReference r

/-- A symbol table populated by a sequence of `addSymbol`/`addReference`
calls, as the indexer does. -/
def buildTable (entries : List TableEntry) : SymbolTable :=
  entries.foldl tableStep SymbolTable.empty

def bucketG (st : SymbolTable) (n : String) : List TgSymbol :=
  (alLookup st.globalSymbols n).getD []

def bucketS (st : SymbolTable) (sc n : String) : List TgSymbol :=
  (alLookup ((alLookup st.scopedSymbols sc).getD []) n).getD []

def bucketFS (st : SymbolTable) (f : String) : List TgSymbol :=
  (alLookup st.fileSymbols f).getD []

def bucketFR (st : SymbolTable) (f : String) : List SymbolReference :=
  (alLookup st.fileReferences f).getD []

/-- Entries a build run files under the global bucket of `n`. -/
def selG (n : String) : TableEntry → Option TgSymbol
  | .sym s =>
    if s.name ≠ "" ∧ isTruthyScope s.scope = false ∧ s.name = n then some s else none
  | .ref _ => none

/-- Entries a build run files under the scoped bucket of `(sc, n)`. -/
def selS (sc n : String) : TableEntry → Option TgSymbol
  | .sym s =>
    if s.name ≠ "" ∧ isTruthyScope s.scope = true ∧ s.scope.getD "" = sc ∧ s.name = n then
      some s
    else none
  | .ref _ => none

/-- Entries a build run files under the per-file symbol list of `f`. -/
def selFS (f : String) : TableEntry → Option TgSymbol
  | .sym s => if s.name ≠ "" ∧ s.location.uri = f then some s else none
  | .ref _ => none

def selRef : TableEntry → Option SymbolReference
  | .ref r => some r
  | .sym _ => none

def selFR (f : String) : TableEntry → Option SymbolReference
  | .ref r => if r.location.uri = f then some r else none
  | .sym _ => none

theorem alLookup_alSet_ne {α : Type} (l : List (String × α)) (k k' : String) (v : α)
    (h : k' ≠ k) : alLookup (alSet l k v) k' = alLookup l k' := by
  induction l with
  | nil => simp [alSet, alLookup, Ne.symm h]
  | cons hd tl ih =>
    obtain ⟨k2, v2⟩ := hd
    by_cases h2 : k2 = k
    · subst h2
      simp [alSet, alLookup, Ne.symm h]
    · simp [alSet, alLookup, h2, ih]

theorem getD_alPush_self {α : Type} (l : List (String × List α)) (k : String) (x : α) :
    (alLookup (alPush l k x) k).getD [] = (alLookup l k).getD [] ++ [x] := by
  simp [alPush, alLookup_alSet_self]

theorem getD_alPush_ne {α : Type} (l : List (String × List α)) (k k' : String) (x : α)
    (h : k' ≠ k) : (alLookup (alPush l k x) k').getD [] = (alLookup l k').getD [] := by
  simp [alPush, alLookup_alSet_ne _ _ _ _ h]

theorem alLookup_alErase_self {α : Type} (l : List (String × α)) (k : String) :
    alLookup (alErase l k) k = none := by
  induction l with
  | nil => rfl
  | cons hd tl ih =>
    obtain ⟨k2, v2⟩ := hd
    simp only [alErase, List.filter_cons] at ih ⊢
    by_cases h2 : k2 = k
    · simpa [h2] using ih
    · simpa [alLookup, h2] using ih

theorem alLookup_alErase_ne {α : Type} (l : List (String × α)) (k k' : String)
    (h : k' ≠ k) : alLookup (alErase l k) k' = alLookup l k' := by
  induction l with
  | nil => rfl
  | cons hd tl ih =>
    obtain ⟨k2, v2⟩ := hd
    simp only [alErase, List.filter_cons] at ih ⊢
    by_cases h2 : k2 = k
    · subst h2
      simp [alLookup, Ne.symm h, ih]
    · simp [alLookup, h2, ih]

theorem step_bucketG (st : SymbolTable) (e : TableEntry) (n : String) :
    bucketG (tableStep st e) n = bucketG st n ++ (selG n e).toList := by
  cases e with
  | ref r => simp [tableStep, SymbolTable.addReference, bucketG, selG]
  | sym s =>
    by_cases h1 : s.name = ""
    · simp [tableStep, SymbolTable.addSymbol, h1, selG, bucketG]
    · by_cases h2 : isTruthyScope s.scope = true
      · simp [tableStep, SymbolTable.addSymbol, h1, h2, selG, bucketG]
      · by_cases h3 : s.name = n
        · subst h3
          simp [tableStep, SymbolTable.addSymbol, h1, h2, selG, bucketG, getD_alPush_self]
        · simp [tableStep, SymbolTable.addSymbol, h1, h2, h3, selG, bucketG,
            getD_alPush_ne _ _ _ _ (fun hh => h3 hh.symm)]

theorem step_bucketS (st : SymbolTable) (e : TableEntry) (sc n : String) :
    bucketS (tableStep st e) sc n = bucketS st sc n ++ (selS sc n e).toList := by
  cases e with
  | ref r => simp [tableStep, SymbolTable.addReference, bucketS, selS]
  | sym s =>
    by_cases h1 : s.name = ""
    · simp [tableStep, SymbolTable.addSymbol, h1, selS, bucketS]
    · by_cases h2 : isTruthyScope s.scope = true
      · by_cases h3 : s.scope.getD "" = sc
        · subst h3
          by_cases h4 : s.name = n
          · subst h4
            simp [tableStep, SymbolTable.addSymbol, h1, h2, selS, bucketS,
              alLookup_alSet_self, getD_alPush_self]
          · simp [tableStep, SymbolTable.addSymbol, h1, h2, h4, selS, bucketS,
              alLookup_alSet_self, getD_alPush_ne _ _ _ _ (fun hh => h4 hh.symm)]
        · simp [tableStep, SymbolTable.addSymbol, h1, h2, h3, selS, bucketS,
            alLookup_alSet_ne _ _ _ _ (fun hh => h3 hh.symm)]
      · simp [tableStep, SymbolTable.addSymbol, h1, h2, selS, bucketS]

theorem step_bucketFS (st : SymbolTable) (e : TableEntry) (f : String) :
    bucketFS (tableStep st e) f = bucketFS st f ++ (selFS f e).toList := by
  cases e with
  | ref r => simp [tableStep, SymbolTable.addReference, bucketFS, selFS]
  | sym s =>
    by_cases h1 : s.name = ""
    · simp [tableStep, SymbolTable.addSymbol, h1, selFS, bucketFS]
    · by_cases h3 : s.location.uri = f
      · subst h3
        by_cases h2 : isTruthyScope s.scope = true <;>
          simp [tableStep, SymbolTable.addSymbol, h1, h2, selFS, bucketFS, getD_alPush_self]
      · by_cases h2 : isTruthyScope s.scope = true <;>
          simp [tableStep, SymbolTable.addSymbol, h1, h2, h3, selFS, bucketFS,
            getD_alPush_ne _ _ _ _ (fun hh => h3 hh.symm)]

theorem step_references (st : SymbolTable) (e : TableEntry) :
    (tableStep st e).references = st.references ++ (selRef e).toList := by
  cases e with
  | ref r => simp [tableStep, SymbolTable.addReference, selRef]
  | sym s =>
    by_cases h1 : s.name = ""
    · simp [tableStep, SymbolTable.addSymbol, h1, selRef]
    · by_cases h2 : isTruthyScope s.scope = true <;>
        simp [tableStep, SymbolTable.addSymbol, h1, h2, selRef]

theorem step_bucketFR (st : SymbolTable) (e : TableEntry) (f : String) :
    bucketFR (tableStep st e) f = bucketFR st f ++ (selFR f e).toList := by
  cases e with
  | sym s =>
    by_cases h1 : s.name = ""
    · simp [tableStep, SymbolTable.addSymbol, h1, selFR, bucketFR]
    · by_cases h2 : isTruthyScope s.scope = true <;>
        simp [tableStep, SymbolTable.addSymbol, h1, h2, selFR, bucketFR]
  | ref r =>
    by_cases h3 : r.location.uri = f
    · subst h3
      simp [tableStep, SymbolTable.addReference, selFR, bucketFR, getD_alPush_self]
    · simp [tableStep, SymbolTable.addReference, h3, selFR, bucketFR,
        getD_alPush_ne _ _ _ _ (fun hh => h3 hh.symm)]

theorem fold_bucketG : ∀ (L : List TableEntry) (st : SymbolTable) (n : String),
    bucketG (L.foldl tableStep st) n = bucketG st n ++ L.filterMap (selG n) := by
  intro L
  induction L with
  | nil => intro st n; simp
  | cons e L ih =>
    intro st n
    rw [List.foldl_cons, ih, step_bucketG, List.filterMap_cons]
    cases selG n e <;> simp

theorem fold_bucketS : ∀ (L : List TableEntry) (st : SymbolTable) (sc n : String),
    bucketS (L.foldl tableStep st) sc n = bucketS st sc n ++ L.filterMap (selS sc n) := by
  intro L
  induction L with
  | nil => intro st sc n; simp
  | cons e L ih =>
    intro st sc n
    rw [List.foldl_cons, ih, step_bucketS, List.filterMap_cons]
    cases selS sc n e <;> simp

theorem fold_bucketFS : ∀ (L : List TableEntry) (st : SymbolTable) (f : String),
    bucketFS (L.foldl tableStep st) f = bucketFS st f ++ L.filterMap (selFS f) := by
  intro L
  induction L with
  | nil => intro st f; simp
  | cons e L ih =>
    intro st f
    rw [List.foldl_cons, ih, step_bucketFS, List.filterMap_cons]
    cases selFS f e <;> simp

theorem fold_references : ∀ (L : List TableEntry) (st : SymbolTable),
    (L.foldl tableStep st).references = st.references ++ L.filterMap selRef := by
  intro L
  induction L with
  | nil => intro st; simp
  | cons e L ih =>
    intro st
    rw [List.foldl_cons, ih, step_references, List.filterMap_cons]
    cases selRef e <;> simp

theorem fold_bucketFR : ∀ (L : List TableEntry) (st : SymbolTable) (f : String),
    bucketFR (L.foldl tableStep st) f = bucketFR st f ++ L.filterMap (selFR f) := by
  intro L
  induction L with
  | nil => intro st f; simp
  | cons e L ih =>
    intro st f
    rw [List.foldl_cons, ih, step_bucketFR, List.filterMap_cons]
    cases selFR f e <;> simp

/-- Iterated first-match removal, tracking the removal loop of `clearFile`. -/
def remN (uri : String) : Nat → List TgSymbol → List TgSymbol
  | 0, l => l
  | k + 1, l => remN uri k (removeFirstUri uri l)

theorem remN_cons_not (uri : String) (s : TgSymbol) (h : s.location.uri ≠ uri) :
    ∀ (k : Nat) (l : List TgSymbol), remN uri k (s :: l) = s :: remN uri k l := by
  intro k
  induction k with
  | zero => intro l; rfl
  | succ k ih =>
    intro l
    have : removeFirstUri uri (s :: l) = s :: removeFirstUri uri l := by
      simp [removeFirstUri, h]
    rw [remN, this, ih, remN]

/-- Removing first-matches once per matching element filters them all out. -/
theorem remN_count (uri : String) : ∀ (l : List TgSymbol),
    remN uri (l.countP (fun s => s.location.uri == uri)) l =
      l.filter (fun s => !(s.location.uri == uri)) := by
  intro l
  induction l with
  | nil => rfl
  | cons s l ih =>
    by_cases h : s.location.uri = uri
    · have hc : (s :: l).countP (fun s => s.location.uri == uri) =
          l.countP (fun s => s.location.uri == uri) + 1 := by
        simp [List.countP_cons, h]
      rw [hc, remN]
      have : removeFirstUri uri (s :: l) = l := by simp [removeFirstUri, h]
      rw [this, ih]
      simp [List.filter_cons, h]
    · have hc : (s :: l).countP (fun s => s.location.uri == uri) =
          l.countP (fun s => s.location.uri == uri) := by
        simp [List.countP_cons, h]
      rw [hc, remN_cons_not uri s h, ih]
      simp [List.filter_cons, h]

/-- The removal loop leaves references and the per-file indices alone. -/
theorem clearStep_others (uri : String) (st : SymbolTable) (s : TgSymbol) :
    (clearFileSymbolStep uri st s).references = st.references ∧
    (clearFileSymbolStep uri st s).fileSymbols = st.fileSymbols ∧
    (clearFileSymbolStep uri st s).fileReferences = st.fileReferences := by
  refine ⟨?_, ?_, ?_⟩ <;>
    (unfold clearFileSymbolStep
     repeat' split
     all_goals rfl)

theorem clearSteps_others (uri : String) : ∀ (F : List TgSymbol) (st : SymbolTable),
    (F.foldl (clearFileSymbolStep uri) st).references = st.references ∧
    (F.foldl (clearFileSymbolStep uri) st).fileSymbols = st.fileSymbols ∧
    (F.foldl (clearFileSymbolStep uri) st).fileReferences = st.fileReferences := by
  intro F
  induction F with
  | nil => intro st; exact ⟨rfl, rfl, rfl⟩
  | cons s F ih =>
    intro st
    rw [List.foldl_cons]
    obtain ⟨h1, h2, h3⟩ := ih (clearFileSymbolStep uri st s)
    obtain ⟨g1, g2, g3⟩ := clearStep_others uri st s
    exact ⟨h1.trans g1, h2.trans g2, h3.trans g3⟩

theorem clearStep_bucketG (uri : String) (st : SymbolTable) (s : TgSymbol) (n : String) :
    bucketG (clearFileSymbolStep uri st s) n =
      (if isTruthyScope s.scope = false ∧ s.name = n then
        removeFirstUri uri (bucketG st n)
      else bucketG st n) := by
  by_cases h2 : isTruthyScope s.scope = true
  · have hg : (clearFileSymbolStep uri st s).globalSymbols = st.globalSymbols := by
      unfold clearFileSymbolStep
      simp only [h2, if_true]
      repeat' split
      all_goals rfl
    simp [bucketG, hg, h2]
  · have h2f : isTruthyScope s.scope = false := by simpa using h2
    by_cases h3 : s.name = n
    · subst h3
      unfold clearFileSymbolStep
      simp only [h2f, Bool.false_eq_true, if_false]
      cases hg : alLookup st.globalSymbols s.name with
      | none => simp [bucketG, hg, h2f, removeFirstUri]
      | some syms => simp [bucketG, hg, h2f, alLookup_alSet_self]
    · unfold clearFileSymbolStep
      simp only [h2f, Bool.false_eq_true, if_false]
      cases hg : alLookup st.globalSymbols s.name with
      | none => simp [bucketG, hg, h2f, h3]
      | some syms =>
        simp [bucketG, hg, h2f, h3, alLookup_alSet_ne _ _ _ _ (fun hh => h3 hh.symm)]

theorem clearStep_bucketS (uri : String) (st : SymbolTable) (s : TgSymbol) (sc n : String) :
    bucketS (clearFileSymbolStep uri st s) sc n =
      (if isTruthyScope s.scope = true ∧ s.scope.getD "" = sc ∧ s.name = n then
        removeFirstUri uri (bucketS st sc n)
      else bucketS st sc n) := by
  by_cases h2 : isTruthyScope s.scope = true
  · by_cases h3 : s.scope.getD "" = sc
    · subst h3
      by_cases h4 : s.name = n
      · subst h4
        unfold clearFileSymbolStep
        simp only [h2, if_true]
        cases hg : alLookup st.scopedSymbols (s.scope.getD "") with
        | none => simp [bucketS, hg, alLookup, removeFirstUri]
        | some scopeMap =>
          cases hh : alLookup scopeMap s.name with
          | none => simp [bucketS, hg, hh, removeFirstUri]
          | some syms => simp [bucketS, hg, hh, alLookup_alSet_self]
      · unfold clearFileSymbolStep
        simp only [h2, if_true]
        cases hg : alLookup st.scopedSymbols (s.scope.getD "") with
        | none => simp [bucketS, hg, h4]
        | some scopeMap =>
          cases hh : alLookup scopeMap s.name with
          | none => simp [bucketS, hg, hh, h4]
          | some syms =>
            simp [bucketS, hg, hh, h4, alLookup_alSet_self,
              alLookup_alSet_ne _ _ _ _ (fun hx => h4 hx.symm)]
    · unfold clearFileSymbolStep
      simp only [h2, if_true]
      cases hg : alLookup st.scopedSymbols (s.scope.getD "") with
      | none => simp [bucketS, hg, h3]
      | some scopeMap =>
        cases hh : alLookup scopeMap s.name with
        | none => simp [bucketS, hg, hh, h3]
        | some syms =>
          simp [bucketS, hg, hh, h3, alLookup_alSet_ne _ _ _ _ (fun hx => h3 hx.symm)]
  · have hs : (clearFileSymbolStep uri st s).scopedSymbols = st.scopedSymbols := by
      unfold clearFileSymbolStep
      have h2f : isTruthyScope s.scope = false := by simpa using h2
      simp only [h2f, Bool.false_eq_true, if_false]
      repeat' split
      all_goals rfl
    simp [bucketS, hs, h2]

theorem clearSteps_bucketG (uri : String) : ∀ (F : List TgSymbol) (st : SymbolTable)
    (n : String),
    bucketG (F.foldl (clearFileSymbolStep uri) st) n =
      remN uri (F.countP (fun s => !(isTruthyScope s.scope) && s.name == n)) (bucketG st n) := by
  intro F
  induction F with
  | nil => intro st n; rfl
  | cons s F ih =>
    intro st n
    rw [List.foldl_cons, ih, clearStep_bucketG]
    by_cases hcond : isTruthyScope s.scope = false ∧ s.name = n
    · have hb : (!(isTruthyScope s.scope) && s.name == n) = true := by
        simp [hcond.1, hcond.2]
      rw [if_pos hcond]
      have hc : List.countP (fun s => !(isTruthyScope s.scope) && s.name == n) (s :: F) =
          List.countP (fun s => !(isTruthyScope s.scope) && s.name == n) F + 1 := by
        simp [List.countP_cons, hb]
      rw [hc]
      rfl
    · have hb : (!(isTruthyScope s.scope) && s.name == n) = false := by
        rcases not_and_or.mp hcond with h | h
        · have hx : isTruthyScope s.scope = true := by
            cases hy : isTruthyScope s.scope
            · exact absurd hy h
            · rfl
          simp [hx]
        · simp [h]
      rw [if_neg hcond]
      have hc : List.countP (fun s => !(isTruthyScope s.scope) && s.name == n) (s :: F) =
          List.countP (fun s => !(isTruthyScope s.scope) && s.name == n) F := by
        simp [List.countP_cons, hb]
      rw [hc]

theorem clearSteps_bucketS (uri : String) : ∀ (F : List TgSymbol) (st : SymbolTable)
    (sc n : String),
    bucketS (F.foldl (clearFileSymbolStep uri) st) sc n =
      remN uri
        (F.countP (fun s => isTruthyScope s.scope && (s.scope.getD "" == sc) && (s.name == n)))
        (bucketS st sc n) := by
  intro F
  induction F with
  | nil => intro st sc n; rfl
  | cons s F ih =>
    intro st sc n
    rw [List.foldl_cons, ih, clearStep_bucketS]
    by_cases hcond : isTruthyScope s.scope = true ∧ s.scope.getD "" = sc ∧ s.name = n
    · have hb : (isTruthyScope s.scope && (s.scope.getD "" == sc) && (s.name == n)) = true := by
        simp [hcond.1, hcond.2.1, hcond.2.2]
      rw [if_pos hcond]
      have hc : List.countP
            (fun s => isTruthyScope s.scope && (s.scope.getD "" == sc) && (s.name == n))
            (s :: F) =
          List.countP
            (fun s => isTruthyScope s.scope && (s.scope.getD "" == sc) && (s.name == n)) F
            + 1 := by
        simp [List.countP_cons, hb]
      rw [hc]
      rfl
    · have hb : (isTruthyScope s.scope && (s.scope.getD "" == sc) && (s.name == n)) = false := by
        rcases not_and_or.mp hcond with h | h
        · have hx : isTruthyScope s.scope = false := by
            cases hy : isTruthyScope s.scope
            · rfl
            · exact absurd hy h
          simp [hx]
        · rcases not_and_or.mp h with h2 | h2 <;> simp [h2]
      rw [if_neg hcond]
      have hc : List.countP
            (fun s => isTruthyScope s.scope && (s.scope.getD "" == sc) && (s.name == n))
            (s :: F) =
          List.countP
            (fun s => isTruthyScope s.scope && (s.scope.getD "" == sc) && (s.name == n)) F := by
        simp [List.countP_cons, hb]
      rw [hc]

theorem countP_filterMap {α β : Type} (f : α → Option β) (p : β → Bool) :
    ∀ (L : List α),
      (L.filterMap f).countP p =
        L.countP (fun a => match f a with | some b => p b | none => false) := by
  intro L
  induction L with
  | nil => rfl
  | cons a L ih =>
    cases hfa : f a with
    | none => simp [List.filterMap_cons, List.countP_cons, hfa, ih]
    | some b => simp [List.filterMap_cons, List.countP_cons, hfa, ih]

theorem filterMap_filter_comm {α β : Type} (f : α → Option β) (p : α → Bool) (q : β → Bool)
    (h : ∀ a b, f a = some b → p a = q b) :
    ∀ (L : List α), (L.filter p).filterMap f = (L.filterMap f).filter q := by
  intro L
  induction L with
  | nil => rfl
  | cons a L ih =>
    cases hfa : f a with
    | none =>
      by_cases hp : p a = true <;>
        simp [List.filter_cons, List.filterMap_cons, hfa, hp, ih]
    | some b =>
      have := h a b hfa
      by_cases hp : p a = true
      · simp [List.filter_cons, List.filterMap_cons, hfa, hp, ← this, ih]
      · have hp2 : p a = false := by
          cases hy : p a
          · rfl
          · exact absurd hy hp
        simp [List.filter_cons, List.filterMap_cons, hfa, hp2, ← this, ih]

theorem filterMap_filter_keep {α β : Type} (f : α → Option β) (p : α → Bool)
    (h : ∀ a b, f a = some b → p a = true) :
    ∀ (L : List α), (L.filter p).filterMap f = L.filterMap f := by
  intro L
  induction L with
  | nil => rfl
  | cons a L ih =>
    cases hfa : f a with
    | none =>
      by_cases hp : p a = true <;>
        simp [List.filter_cons, List.filterMap_cons, hfa, hp, ih]
    | some b => simp [List.filter_cons, List.filterMap_cons, hfa, h a b hfa, ih]

theorem filterMap_filter_drop {α β : Type} (f : α → Option β) (p : α → Bool)
    (h : ∀ a b, f a = some b → p a = false) :
    ∀ (L : List α), (L.filter p).filterMap f = [] := by
  intro L
  induction L with
  | nil => rfl
  | cons a L ih =>
    cases hfa : f a with
    | none =>
      by_cases hp : p a = true <;>
        simp [List.filter_cons, List.filterMap_cons, hfa, hp, ih]
    | some b =>
      have := h a b hfa
      simp [List.filter_cons, this, ih]

theorem count_FS_G (L : List TableEntry) (u n : String) :
    (L.filterMap (selFS u)).countP (fun s => !(isTruthyScope s.scope) && s.name == n) =
      (L.filterMap (selG n)).countP (fun s => s.location.uri == u) := by
  rw [countP_filterMap, countP_filterMap]
  apply List.countP_congr
  intro e _
  cases e with
  | ref r => simp [selFS, selG]
  | sym s =>
    by_cases h4 : s.name = n
    · subst h4
      by_cases h1 : s.name = "" <;> by_cases h2 : s.location.uri = u <;>
        by_cases h3 : isTruthyScope s.scope = true <;>
        simp [selFS, selG, h1, h2, h3]
    · by_cases h1 : s.name = "" <;> by_cases h2 : s.location.uri = u <;>
        by_cases h3 : isTruthyScope s.scope = true <;>
        simp [selFS, selG, h1, h2, h3, h4]

theorem count_FS_S (L : List TableEntry) (u sc n : String) :
    (L.filterMap (selFS u)).countP
        (fun s => isTruthyScope s.scope && (s.scope.getD "" == sc) && (s.name == n)) =
      (L.filterMap (selS sc n)).countP (fun s => s.location.uri == u) := by
  rw [countP_filterMap, countP_filterMap]
  apply List.countP_congr
  intro e _
  cases e with
  | ref r => simp [selFS, selS]
  | sym s =>
    by_cases h4 : s.name = n
    · subst h4
      by_cases h5 : s.scope.getD "" = sc
      · subst h5
        by_cases h1 : s.name = "" <;> by_cases h2 : s.location.uri = u <;>
          by_cases h3 : isTruthyScope s.scope = true <;>
          simp [selFS, selS, h1, h2, h3]
      · by_cases h1 : s.name = "" <;> by_cases h2 : s.location.uri = u <;>
          by_cases h3 : isTruthyScope s.scope = true <;>
          simp [selFS, selS, h1, h2, h3, h5]
    · by_cases h1 : s.name = "" <;> by_cases h2 : s.location.uri = u <;>
        by_cases h3 : isTruthyScope s.scope = true <;>
        by_cases h5 : s.scope.getD "" = sc <;>
        simp [selFS, selS, h1, h2, h3, h4, h5]

theorem filterMap_selG_filter (L : List TableEntry) (u n : String) :
    (L.filter (fun e => !(e.uri == u))).filterMap (selG n) =
      (L.filterMap (selG n)).filter (fun s => !(s.location.uri == u)) := by
  apply filterMap_filter_comm
  intro e s he
  cases e with
  | ref r => simp [selG] at he
  | sym s2 =>
    have hs : s2 = s := by
      by_cases h : s2.name ≠ "" ∧ isTruthyScope s2.scope = false ∧ s2.name = n
      · simp [selG, h] at he
        first
          | exact he
          | exact he.2
      · simp [selG, h] at he
    subst hs
    simp [TableEntry.uri]

theorem filterMap_selS_filter (L : List TableEntry) (u sc n : String) :
    (L.filter (fun e => !(e.uri == u))).filterMap (selS sc n) =
      (L.filterMap (selS sc n)).filter (fun s => !(s.location.uri == u)) := by
  apply filterMap_filter_comm
  intro e s he
  cases e with
  | ref r => simp [selS] at he
  | sym s2 =>
    have hs : s2 = s := by
      by_cases h : s2.name ≠ "" ∧ isTruthyScope s2.scope = true ∧
          s2.scope.getD "" = sc ∧ s2.name = n
      · simp [selS, h] at he
        first
          | exact he
          | exact he.2
      · simp [selS, h] at he
    subst hs
    simp [TableEntry.uri]

theorem filterMap_selRef_filter (L : List TableEntry) (u : String) :
    (L.filter (fun e => !(e.uri == u))).filterMap selRef =
      (L.filterMap selRef).filter (fun r => !(r.location.uri == u)) := by
  apply filterMap_filter_comm
  intro e r he
  cases e with
  | sym s => simp [selRef] at he
  | ref r2 =>
    have hr : r2 = r := by simpa [selRef] using he
    subst hr
    simp [TableEntry.uri]

theorem filterMap_selFS_filter_ne (L : List TableEntry) (u f : String) (hf : f ≠ u) :
    (L.filter (fun e => !(e.uri == u))).filterMap (selFS f) = L.filterMap (selFS f) := by
  apply filterMap_filter_keep
  intro e s he
  cases e with
  | ref r => simp [selFS] at he
  | sym s2 =>
    by_cases h : s2.name ≠ "" ∧ s2.location.uri = f
    · simp [TableEntry.uri, h.2, hf]
    · simp [selFS, h] at he

theorem filterMap_selFS_filter_self (L : List TableEntry) (u : String) :
    (L.filter (fun e => !(e.uri == u))).filterMap (selFS u) = [] := by
  apply filterMap_filter_drop
  intro e s he
  cases e with
  | ref r => simp [selFS] at he
  | sym s2 =>
    by_cases h : s2.name ≠ "" ∧ s2.location.uri = u
    · simp [TableEntry.uri, h.2]
    · simp [selFS, h] at he

theorem filterMap_selFR_filter_ne (L : List TableEntry) (u f : String) (hf : f ≠ u) :
    (L.filter (fun e => !(e.uri == u))).filterMap (selFR f) = L.filterMap (selFR f) := by
  apply filterMap_filter_keep
  intro e r he
  cases e with
  | sym s => simp [selFR] at he
  | ref r2 =>
    by_cases h : r2.location.uri = f
    · simp [TableEntry.uri, h, hf]
    · simp [selFR, h] at he

theorem filterMap_selFR_filter_self (L : List TableEntry) (u : String) :
    (L.filter (fun e => !(e.uri == u))).filterMap (selFR u) = [] := by
  apply filterMap_filter_drop
  intro e r he
  cases e with
  | sym s => simp [selFR] at he
  | ref r2 =>
    by_cases h : r2.location.uri = u
    · simp [TableEntry.uri, h]
    · simp [selFR, h] at he

/-- Bucket query: what `findDefinition` does with one index bucket. -/
def bq (b : List TgSymbol) : Option TgSymbol :=
  if b.length > 0 then pickDefinition b else none

theorem globalPart_eq (st : SymbolTable) (name : String) :
    (match alLookup st.globalSymbols name with
     | none => none
     | some syms => if syms.length > 0 then pickDefinition syms else none) =
      bq (bucketG st name) := by
  cases h : alLookup st.globalSymbols name with
  | none => simp [bq, bucketG, h]
  | some syms => simp [bq, bucketG, h]

theorem scopedPart_eq (st : SymbolTable) (sc name : String) :
    (match alLookup st.scopedSymbols sc with
     | none => none
     | some scopeMap =>
       match alLookup scopeMap name with
       | none => none
       | some syms => if syms.length > 0 then pickDefinition syms else none) =
      bq (bucketS st sc name) := by
  cases h1 : alLookup st.scopedSymbols sc with
  | none => simp [bq, bucketS, h1, alLookup]
  | some scopeMap =>
    cases h2 : alLookup scopeMap name with
    | none => simp [bq, bucketS, h1, h2]
    | some syms => simp [bq, bucketS, h1, h2]

/-- `findDefinition` is a function of the two bucket observations. -/
theorem findDefinition_eq_bq (st : SymbolTable) (name : String) (scope : Option String) :
    st.findDefinition name scope =
      (match (if isTruthyScope scope then bq (bucketS st (scope.getD "") name) else none) with
       | some s => some s
       | none => bq (bucketG st name)) := by
  unfold SymbolTable.findDefinition
  by_cases ht : isTruthyScope scope = true
  · simp only [ht, if_true]
    rw [scopedPart_eq, globalPart_eq]
  · have htf : isTruthyScope scope = false := by
      cases hy : isTruthyScope scope
      · rfl
      · exact absurd hy ht
    simp only [htf, Bool.false_eq_true, if_false]
    rw [globalPart_eq]

/-- C9: `clearFile` removes exactly the symbols and references attributed to
the cleared file from every index: every query observation of the cleared
table (definition lookup in any scope, reference lookup, per-file symbol
list, per-file reference index) coincides with the table built from only the
other files' entries, so same-named symbols from other files remain
queryable. -/
theorem clearFile_exact_removal (L : List TableEntry) (u : String) :
    (∀ (name : String) (scope : Option String),
        ((buildTable L).clearFile u).findDefinition name scope =
          (buildTable (L.filter (fun e => !(e.uri == u)))).findDefinition name scope) ∧
    (∀ (name : String),
        ((buildTable L).clearFile u).findReferences name =
          (buildTable (L.filter (fun e => !(e.uri == u)))).findReferences name) ∧
    (∀ (f : String),
        ((buildTable L).clearFile u).getAllSymbolsInFile f =
          (buildTable (L.filter (fun e => !(e.uri == u)))).getAllSymbolsInFile f) ∧
    (∀ (f : String),
        bucketFR ((buildTable L).clearFile u) f =
          bucketFR (buildTable (L.filter (fun e => !(e.uri == u)))) f) := by
  have hF : (alLookup (buildTable L).fileSymbols u).getD [] = L.filterMap (selFS u) := by
    have h := fold_bucketFS L SymbolTable.empty u
    simpa [buildTable, bucketFS, SymbolTable.empty, alLookup] using h
  have hG : ∀ n, bucketG ((buildTable L).clearFile u) n =
      bucketG (buildTable (L.filter (fun e => !(e.uri == u)))) n := by
    intro n
    have h1 : bucketG ((buildTable L).clearFile u) n =
        bucketG (((alLookup (buildTable L).fileSymbols u).getD []).foldl
          (clearFileSymbolStep u) (buildTable L)) n := rfl
    rw [h1, hF, clearSteps_bucketG, count_FS_G]
    have h2 : bucketG (buildTable L) n = L.filterMap (selG n) := by
      have h := fold_bucketG L SymbolTable.empty n
      simpa [buildTable, bucketG, SymbolTable.empty, alLookup] using h
    rw [h2, remN_count]
    have h3 : bucketG (buildTable (L.filter (fun e => !(e.uri == u)))) n =
        (L.filter (fun e => !(e.uri == u))).filterMap (selG n) := by
      have h := fold_bucketG (L.filter (fun e => !(e.uri == u))) SymbolTable.empty n
      simpa [buildTable, bucketG, SymbolTable.empty, alLookup] using h
    rw [h3, filterMap_selG_filter]
  have hS : ∀ sc n, bucketS ((buildTable L).clearFile u) sc n =
      bucketS (buildTable (L.filter (fun e => !(e.uri == u)))) sc n := by
    intro sc n
    have h1 : bucketS ((buildTable L).clearFile u) sc n =
        bucketS (((alLookup (buildTable L).fileSymbols u).getD []).foldl
          (clearFileSymbolStep u) (buildTable L)) sc n := rfl
    rw [h1, hF, clearSteps_bucketS, count_FS_S]
    have h2 : bucketS (buildTable L) sc n = L.filterMap (selS sc n) := by
      have h := fold_bucketS L SymbolTable.empty sc n
      simpa [buildTable, bucketS, SymbolTable.empty, alLookup] using h
    rw [h2, remN_count]
    have h3 : bucketS (buildTable (L.filter (fun e => !(e.uri == u)))) sc n =
        (L.filter (fun e => !(e.uri == u))).filterMap (selS sc n) := by
      have h := fold_bucketS (L.filter (fun e => !(e.uri == u))) SymbolTable.empty sc n
      simpa [buildTable, bucketS, SymbolTable.empty, alLookup] using h
    rw [h3, filterMap_selS_filter]
  have hRefs : ((buildTable L).clearFile u).references =
      (buildTable (L.filter (fun e => !(e.uri == u)))).references := by
    have h1 : ((buildTable L).clearFile u).references =
        ((((alLookup (buildTable L).fileSymbols u).getD []).foldl
          (clearFileSymbolStep u) (buildTable L)).references).filter
            (fun r => !(r.location.uri == u)) := rfl
    rw [h1, (clearSteps_others u _ (buildTable L)).1]
    have h2 : (buildTable L).references = L.filterMap selRef := by
      have h := fold_references L SymbolTable.empty
      simpa [buildTable, SymbolTable.empty] using h
    have h3 : (buildTable (L.filter (fun e => !(e.uri == u)))).references =
        (L.filter (fun e => !(e.uri == u))).filterMap selRef := by
      have h := fold_references (L.filter (fun e => !(e.uri == u))) SymbolTable.empty
      simpa [buildTable, SymbolTable.empty] using h
    rw [h2, h3, filterMap_selRef_filter]
  refine ⟨?_, ?_, ?_, ?_⟩
  · intro name scope
    rw [findDefinition_eq_bq, findDefinition_eq_bq, hG, hS]
  · intro name
    unfold SymbolTable.findReferences
    rw [hRefs]
  · intro f
    have h1 : ((buildTable L).clearFile u).getAllSymbolsInFile f =
        (alLookup (alErase ((((alLookup (buildTable L).fileSymbols u).getD []).foldl
          (clearFileSymbolStep u) (buildTable L)).fileSymbols) u) f).getD [] := rfl
    rw [h1, (clearSteps_others u _ (buildTable L)).2.1]
    have h3 : (buildTable (L.filter (fun e => !(e.uri == u)))).getAllSymbolsInFile f =
        (L.filter (fun e => !(e.uri == u))).filterMap (selFS f) := by
      have h := fold_bucketFS (L.filter (fun e => !(e.uri == u))) SymbolTable.empty f
      simpa [buildTable, SymbolTable.getAllSymbolsInFile, bucketFS, SymbolTable.empty,
        alLookup] using h
    rw [h3]
    by_cases hf : f = u
    · subst hf
      rw [alLookup_alErase_self, filterMap_selFS_filter_self]
      rfl
    · rw [alLookup_alErase_ne _ _ _ hf, filterMap_selFS_filter_ne _ _ _ hf]
      have h2 : (alLookup (buildTable L).fileSymbols f).getD [] = L.filterMap (selFS f) := by
        have h := fold_bucketFS L SymbolTable.empty f
        simpa [buildTable, bucketFS, SymbolTable.empty, alLookup] using h
      exact h2
  · intro f
    have h1 : bucketFR ((buildTable L).clearFile u) f =
        (alLookup (alErase ((((alLookup (buildTable L).fileSymbols u).getD []).foldl
          (clearFileSymbolStep u) (buildTable L)).fileReferences) u) f).getD [] := rfl
    rw [h1, (clearSteps_others u _ (buildTable L)).2.2]
    have h3 : bucketFR (buildTable (L.filter (fun e => !(e.uri == u)))) f =
        (L.filter (fun e => !(e.uri == u))).filterMap (selFR f) := by
      have h := fold_bucketFR (L.filter (fun e => !(e.uri == u))) SymbolTable.empty f
      simpa [buildTable, bucketFR, SymbolTable.empty, alLookup] using h
    rw [h3]
    by_cases hf : f = u
    · subst hf
      rw [alLookup_alErase_self, filterMap_selFR_filter_self]
      rfl
    · rw [alLookup_alErase_ne _ _ _ hf, filterMap_selFR_filter_ne _ _ _ hf]
      have h2 : (alLookup (buildTable L).fileReferences f).getD [] =
          L.filterMap (selFR f) := by
        have h := fold_bucketFR L SymbolTable.empty f
        simpa [buildTable, bucketFR, SymbolTable.empty, alLookup] using h
      exact h2

/-- Token kinds of the lexer (parser.ts `TokenType`). -/
inductive TokenType where
  | keyword
  | identifier
  | number
  | string
  | code
  | operator
  | punctuation
  | comment
  | eof
deriving Repr, DecidableEq

/-- Lexer token (parser.ts `Token`). -/
structure Token where
  type : TokenType
  value : String
  range : Range
deriving Repr, DecidableEq

/-- parser.ts `KEYWORDS`. -/
def KEYWORDS : List String :=
  ["class", "def", "defm", "defset", "defvar", "multiclass",
   "let", "in", "foreach", "if", "then", "else",
   "include", "field", "bit", "bits", "int", "string",
   "list", "dag", "code", "assert"]

/-- Lexer state: remaining characters and the current line/character
position (the source tracks an index into the text; the remaining suffix is
the same information). -/
structure LexSt where
  cs : List Char
  line : Nat
  col : Nat
deriving Repr, DecidableEq

def LexSt.pos (st : LexSt) : Pos := ⟨st.line, st.col⟩

/-- `Lexer.advance`: consume one character, tracking line/character (reading
past the end still bumps the character counter, as the source does). -/
def lexAdvance (st : LexSt) : LexSt :=
  match st.cs with
  | [] => ⟨[], st.line, st.col + 1⟩
  | c :: rest =>
    if c = '\n' then ⟨rest, st.line + 1, 0⟩ else ⟨rest, st.line, st.col + 1⟩

def isIdentChar (c : Char) : Bool :=
  c.isAlpha || c.isDigit || c == '_'

def isHexChar (c : Char) : Bool :=
  c.isDigit || (('a' ≤ c) && (c ≤ 'f')) || (('A' ≤ c) && (c ≤ 'F'))

def isWs (c : Char) : Bool :=
  c == ' ' || c == '\t' || c == '\r' || c == '\n'

/-- Skip to the end of a `//` comment (the newline itself is left for the
whitespace loop). -/
def skipLineComment : List Char → Nat → Nat → LexSt
  | [], l, c => ⟨[], l, c⟩
  | ch :: rest, l, c =>
    if ch = '\n' then ⟨ch :: rest, l, c⟩
    else skipLineComment rest l (c + 1)

/-- Skip a `/* */` comment body after the opening marker; unterminated
comments consume to the end of the input. -/
def skipBlockComment : List Char → Nat → Nat → LexSt
  | [], l, c => ⟨[], l, c⟩
  | ch :: rest, l, c =>
    if ch = '*' ∧ rest.head? = some '/' then lexAdvance (lexAdvance ⟨ch :: rest, l, c⟩)
    else if ch = '\n' then skipBlockComment rest (l + 1) 0
    else skipBlockComment rest l (c + 1)

/-- `Lexer.skipWhitespace`: whitespace and comments, fuelled (one unit per
loop iteration; every iteration consumes at least one character). -/
def skipWhitespaceF : Nat → LexSt → LexSt
  | 0, st => st
  | fuel + 1, st =>
    match st.cs with
    | [] => st
    | c :: rest =>
      if isWs c then skipWhitespaceF fuel (lexAdvance st)
      else if c = '/' ∧ rest.head? = some '/' then
        skipWhitespaceF fuel (skipLineComment st.cs st.line st.col)
      else if c = '/' ∧ rest.head? = some '*' then
        skipWhitespaceF fuel
          (let st2 := lexAdvance (lexAdvance st)
           skipBlockComment st2.cs st2.line st2.col)
      else st

/-- Consume a run of characters satisfying `p` (none of which are newlines in
any use below), accumulating them onto `v`. -/
def readCharsWhile (p : Char → Bool) : List Char → Nat → Nat → String → (String × LexSt)
  | [], l, c, v => (v, ⟨[], l, c⟩)
  | ch :: rest, l, c, v =>
    if p ch then readCharsWhile p rest l (c + 1) (v.push ch)
    else (v, ⟨ch :: rest, l, c⟩)

/-- The body loop of `Lexer.readString`: backslash passes the next character
through literally (a trailing backslash at end of input appends the text
`undefined`, as JavaScript string concatenation of `undefined` does). -/
def readStringLoop : List Char → Nat → Nat → String → (String × LexSt)
  | [], l, c, value => (value, ⟨[], l, c⟩)
  | ch :: rest, l, c, value =>
    if ch = '"' then (value, ⟨ch :: rest, l, c⟩)
    else if ch = '\\' then
      match rest with
      | [] => (value ++ "undefined", ⟨[], l, c + 2⟩)
      | e :: rest2 =>
        if e = '\n' then readStringLoop rest2 (l + 1) 0 (value.push e)
        else readStringLoop rest2 l (c + 2) (value.push e)
    else if ch = '\n' then readStringLoop rest (l + 1) 0 (value.push ch)
    else readStringLoop rest l (c + 1) (value.push ch)

/-- `Lexer.readString`. -/
def readString (st : LexSt) : Token × LexSt :=
  let start := st.pos
  let st1 := lexAdvance st
  let r := readStringLoop st1.cs st1.line st1.col ""
  let st3 := lexAdvance r.2
  (⟨.string, r.1, ⟨start, st3.pos⟩⟩, st3)

/-- The body loop of `Lexer.readCode`: verbatim text up to `}]`. -/
def readCodeLoop : List Char → Nat → Nat → String → (String × LexSt)
  | [], l, c, value => (value, ⟨[], l, c⟩)
  | ch :: rest, l, c, value =>
    if ch = '}' ∧ rest.head? = some ']' then
      (value, lexAdvance (lexAdvance ⟨ch :: rest, l, c⟩))
    else if ch = '\n' then readCodeLoop rest (l + 1) 0 (value.push ch)
    else readCodeLoop rest l (c + 1) (value.push ch)

/-- `Lexer.readCode`: a `[{ ... }]` verbatim block. -/
def readCode (st : LexSt) : Token × LexSt :=
  let start := st.pos
  let st1 := lexAdvance (lexAdvance st)
  let r := readCodeLoop st1.cs st1.line st1.col ""
  (⟨.code, r.1, ⟨start, r.2.pos⟩⟩, r.2)

/-- `Lexer.readNumber`: decimal, `0x`/`0X` hex and `0b`/`0B` binary
spellings, with an optional leading minus. -/
def readNumber (st : LexSt) : Token × LexSt :=
  let start := st.pos
  let afterMinus :=
    match st.cs with
    | '-' :: rest => (("-" : String), (⟨rest, st.line, st.col + 1⟩ : LexSt))
    | _ => (("" : String), st)
  let v1 := afterMinus.1
  let st1 := afterMinus.2
  let r :=
    match st1.cs with
    | '0' :: x :: rest =>
      if x = 'x' ∨ x = 'X' then
        readCharsWhile isHexChar rest st1.line (st1.col + 2) (v1 ++ "0" ++ x.toString)
      else if x = 'b' ∨ x = 'B' then
        readCharsWhile (fun c => c == '0' || c == '1') rest st1.line (st1.col + 2)
          (v1 ++ "0" ++ x.toString)
      else readCharsWhile Char.isDigit st1.cs st1.line st1.col v1
    | _ => readCharsWhile Char.isDigit st1.cs st1.line st1.col v1
  (⟨.number, r.1, ⟨start, r.2.pos⟩⟩, r.2)

/-- `Lexer.readIdentifier`: an identifier run, classified as a keyword when
in the reserved-word set. -/
def readIdentifier (st : LexSt) : Token × LexSt :=
  let start := st.pos
  let r := readCharsWhile isIdentChar st.cs st.line st.col ""
  let ty := if KEYWORDS.contains r.1 then TokenType.keyword else TokenType.identifier
  (⟨ty, r.1, ⟨start, r.2.pos⟩⟩, r.2)

def puncChars : List Char :=
  ['{', '}', '[', ']', '(', ')', '<', '>', ':', ';', ',', '=', '.']

/-- `Lexer.nextToken`, fuelled for the skip-unknown-character recursion
(every recursive call consumes one character). -/
def nextTokenF : Nat → LexSt → (Token × LexSt)
  | 0, st => (⟨.eof, "", ⟨st.pos, st.pos⟩⟩, st)
  | fuel + 1, st0 =>
    let st := skipWhitespaceF (st0.cs.length + 1) st0
    match st.cs with
    | [] => (⟨.eof, "", ⟨st.pos, st.pos⟩⟩, st)
    | ch :: rest =>
      let start := st.pos
      if ch = '"' then readString st
      else if ch = '[' ∧ rest.head? = some '{' then readCode st
      else if ch.isDigit ∨ (ch = '-' ∧ (rest.head?.map Char.isDigit).getD false) then
        readNumber st
      else if ch.isAlpha ∨ ch = '_' then readIdentifier st
      else if ch = '!' then
        let st1 := lexAdvance st
        let r := readCharsWhile Char.isAlpha st1.cs st1.line st1.col ""
        (⟨.operator, "!" ++ r.1, ⟨start, r.2.pos⟩⟩, r.2)
      else if ch = '#' then
        (⟨.operator, "#", ⟨start, (lexAdvance st).pos⟩⟩, lexAdvance st)
      else if puncChars.contains ch then
        (⟨.punctuation, ch.toString, ⟨start, (lexAdvance st).pos⟩⟩, lexAdvance st)
      else nextTokenF fuel (lexAdvance st)

/-- `Lexer.tokenize`: all tokens up to and including the single `eof`. -/
def tokenizeF : Nat → LexSt → List Token
  | 0, _ => []
  | fuel + 1, st =>
    let r := nextTokenF (st.cs.length + 2) st
    if r.1.type == .eof then [r.1] else r.1 :: tokenizeF fuel r.2

/-- Tokenize a source text (ample fuel: one unit per produced token). -/
def tokenize (text : String) : List Token :=
  tokenizeF (text.length + 2) ⟨text.data, 0, 0⟩

/-- JavaScript `parseInt` on the number spellings the lexer produces:
optional minus, `0x`/`0X` hex prefix, else the longest decimal-digit prefix
(`0b101` parses as `0`); a spelling with no usable digits gives `NaN`,
collapsed to `0` here (no consumer inspects the numeric value). -/
def decDigitsVal : List Char → Nat → Nat
  | c :: cs, acc => if c.isDigit then decDigitsVal cs (acc * 10 + (c.toNat - 48)) else acc
  | [], acc => acc

def hexDigitVal (c : Char) : Nat :=
  if c.isDigit then c.toNat - 48
  else if 'a' ≤ c ∧ c ≤ 'f' then c.toNat - 87
  else c.toNat - 55

def hexDigitsVal : List Char → Nat → Nat
  | c :: cs, acc => if isHexChar c then hexDigitsVal cs (acc * 16 + hexDigitVal c) else acc
  | [], acc => acc

def jsParseIntNat : List Char → Nat
  | '0' :: 'x' :: cs => hexDigitsVal cs 0
  | '0' :: 'X' :: cs => hexDigitsVal cs 0
  | cs => decDigitsVal cs 0

def jsParseInt (s : String) : Int :=
  match s.data with
  | '-' :: rest => -(jsParseIntNat rest : Int)
  | cs => (jsParseIntNat cs : Int)

/-- Parser state: current token index and collected diagnostics. -/
structure PState where
  pos : Nat
  errors : List ParseError
deriving Repr

def eofTok : Token := ⟨.eof, "", ⟨⟨0, 0⟩, ⟨0, 0⟩⟩⟩

/-- `Parser.peek`: the token at the index, with the source's fallback to the
last token for reads past the end.  The fallback keeps the last token only
when it is the lexer's terminating `eof`; on token sequences that do not end
in `eof` (which `tokenize` never produces) the source parser would loop
forever, while this total model stops at a synthetic `eof`. -/
def peekT (toks : List Token) (pos : Nat) : Token :=
  match toks[pos]? with
  | some t => t
  | none =>
    match toks.getLast? with
    | some t => if t.type == TokenType.eof && t.value == "" then t else eofTok
    | none => eofTok

/-- `Parser.match` with a type only. -/
def matchT (toks : List Token) (pos : Nat) (ty : TokenType) : Bool :=
  (peekT toks pos).type == ty

/-- `Parser.match` with a type and value. -/
def matchTV (toks : List Token) (pos : Nat) (ty : TokenType) (v : String) : Bool :=
  (peekT toks pos).type == ty && (peekT toks pos).value == v

theorem lt_of_peek_ne_eof {toks : List Token} {pos : Nat}
    (h : (peekT toks pos).type ≠ TokenType.eof) : pos < toks.length := by
  by_contra hge
  have hnone : toks[pos]? = none := by
    simp [List.getElem?_eq_none_iff]
    omega
  unfold peekT at h
  rw [hnone] at h
  cases hl : toks.getLast? with
  | none => simp [hl, eofTok] at h
  | some t =>
    simp only [hl] at h
    by_cases he : (t.type == TokenType.eof && t.value == "") = true
    · rw [if_pos he] at h
      have := (Bool.and_eq_true _ _).mp he
      exact h (by simpa using this.1)
    · rw [if_neg he] at h
      simp [eofTok] at h

theorem lt_of_matchT {toks : List Token} {pos : Nat} {ty : TokenType}
    (hty : ty ≠ TokenType.eof) (h : matchT toks pos ty = true) : pos < toks.length := by
  apply lt_of_peek_ne_eof
  unfold matchT at h
  intro he
  exact hty (by rw [← he]; exact (beq_iff_eq.mp h).symm)

theorem lt_of_matchTV {toks : List Token} {pos : Nat} {ty : TokenType} {v : String}
    (hty : ty ≠ TokenType.eof) (h : matchTV toks pos ty v = true) : pos < toks.length := by
  apply lt_of_matchT hty
  unfold matchTV at h
  unfold matchT
  exact ((Bool.and_eq_true _ _).mp h).1

/-- A token list is eof-clean when its `eof`-typed tokens carry the empty
value, as every `tokenize` output does. -/
def EofOk (toks : List Token) : Prop :=
  ∀ t ∈ toks, t.type = TokenType.eof → t.value = ""

theorem ne_eof_of_not_matchTV_eof {toks : List Token} {pos : Nat} (hw : EofOk toks)
    (h : matchTV toks pos TokenType.eof "" = false) :
    (peekT toks pos).type ≠ TokenType.eof := by
  intro he
  have hv : (peekT toks pos).value = "" := by
    unfold peekT at he ⊢
    cases hp : toks[pos]? with
    | some t =>
      simp only [hp] at he ⊢
      exact hw t (List.getElem?_mem hp) he
    | none =>
      simp only [hp] at he ⊢
      cases hl : toks.getLast? with
      | none => simp [eofTok]
      | some t =>
        simp only [hl] at he ⊢
        by_cases hb : (t.type == TokenType.eof && t.value == "") = true
        · rw [if_pos hb] at he ⊢
          exact (beq_iff_eq.mp ((Bool.and_eq_true _ _).mp hb).2)
        · rw [if_neg hb] at he ⊢
          simp [eofTok]
  unfold matchTV at h
  rw [he, hv] at h
  simp at h

theorem lt_of_not_matchTV_eof {toks : List Token} {pos : Nat} (hw : EofOk toks)
    (h : matchTV toks pos TokenType.eof "" = false) : pos < toks.length :=
  lt_of_peek_ne_eof (ne_eof_of_not_matchTV_eof hw h)

/-- `Parser.advance` on the state (the consumed token is `peekT` at the old
position). -/
def advSt (st : PState) : PState :=
  ⟨st.pos + 1, st.errors⟩

@[simp] theorem advSt_pos (st : PState) : (advSt st).pos = st.pos + 1 := rfl

/-- Result of a parsing function that consumes at least `k` tokens. -/
def PRes (α : Type) (st : PState) (k : Nat) : Type :=
  { r : α × PState // st.pos + k ≤ r.2.pos ∧ r.2.errors = st.errors }

@[simp] theorem advSt_errors (st : PState) : (advSt st).errors = st.errors := rfl

/-- The `if (this.match(...)) this.advance()` idiom on the state. -/
def skipTok (b : Bool) (st : PState) : PState := if b then advSt st else st

theorem skipTok_pos (b : Bool) (st : PState) : st.pos ≤ (skipTok b st).pos := by
  unfold skipTok; split <;> simp

@[simp] theorem skipTok_errors (b : Bool) (st : PState) :
    (skipTok b st).errors = st.errors := by
  unfold skipTok; split <;> simp

/-- `Parser.parseIdentifier`: consume one token and wrap it as an identifier. -/
def parseIdentifierF (toks : List Token) (st : PState) : PRes Identifier st 1 :=
  ⟨(⟨(peekT toks st.pos).value, (peekT toks st.pos).range⟩, advSt st), by simp, rfl⟩

/-- Spelling of a token type, as interpolated into `expect` diagnostics. -/
def TokenType.str : TokenType → String
  | .keyword => "keyword"
  | .identifier => "identifier"
  | .number => "number"
  | .string => "string"
  | .code => "code"
  | .operator => "operator"
  | .punctuation => "punctuation"
  | .comment => "comment"
  | .eof => "eof"

/-- `Parser.expect`: if the head token mismatches the expectation, record the
diagnostic `Expected ..., got ...` (with JavaScript `value || type` falling
back to the type name when the expected value is absent or empty); either way
consume the token and return it (`this.advance()`, `none` past the end). -/
def expectT (toks : List Token) (st : PState) (ty : TokenType) (v : Option String) :
    Option Token × PState :=
  let token := peekT toks st.pos
  let mismatch : Bool := !(token.type == ty) || (match v with
    | some s => !(token.value == s)
    | none => false)
  let errs' := if mismatch then
      st.errors ++ [⟨"Expected " ++ (match v with
        | some s => if s == "" then ty.str else s
        | none => ty.str) ++ ", got " ++ token.value, token.range⟩]
    else st.errors
  (toks[st.pos]?, ⟨st.pos + 1, errs'⟩)

/-- The expression's source range (each AST node's `range` field). -/
def Expression.range : Expression → Range
  | .identE id => id.range
  | .numberLit _ r => r
  | .stringLit _ r => r
  | .codeLit _ r => r
  | .listExpr _ r => r
  | .dagExpr _ _ r => r
  | .bangOp _ _ _ r => r
  | .binaryExpr _ _ _ r => r
  | .ternaryExpr _ _ _ r => r
  | .fieldAccess _ _ r => r
  | .classRefE cr => cr.range

/-- Past the end of the token list, the clamped `peekT` always yields an
empty-valued `eof` token, so failing to match `eof`/`""` pins the position
inside the list. -/
theorem lt_of_not_eofTV {toks : List Token} {pos : Nat}
    (h : matchTV toks pos TokenType.eof "" = false) : pos < toks.length := by
  by_contra hge
  have hnone : toks[pos]? = none := by
    simp [List.getElem?_eq_none_iff]; omega
  unfold matchTV peekT at h
  rw [hnone] at h
  cases hl : toks.getLast? with
  | none => simp [hl, eofTok] at h
  | some t =>
    simp only [hl] at h
    by_cases hb : (t.type == TokenType.eof && t.value == "") = true
    · rw [if_pos hb] at h
      have hb' := (Bool.and_eq_true _ _).mp hb
      simp [hb'.1, hb'.2] at h
    · rw [if_neg hb] at h
      simp [eofTok] at h

/-- The collection loop of `Parser.parseBangTypeArgumentText`: consume tokens
tracking angle-bracket depth, re-quoting string tokens. -/
def bangTypeLoopF (toks : List Token) (depth : Nat) (st : PState) (acc : List String) :
    PRes (List String) st 0 :=
  if hg : (depth > 0 ∧ matchTV toks st.pos TokenType.eof "" = false) then
    have hlt : st.pos < toks.length := lt_of_not_eofTV hg.2
    let token := peekT toks st.pos
    if token.type == TokenType.punctuation && token.value == "<" then
      let ⟨(r, st'), hr⟩ := bangTypeLoopF toks (depth + 1) (advSt st) (acc ++ [token.value])
      ⟨(r, st'), by obtain ⟨h1, h2⟩ := hr; simp at h1 ⊢; omega, by simp_all⟩
    else if token.type == TokenType.punctuation && token.value == ">" then
      if depth = 1 then ⟨(acc, advSt st), by simp, rfl⟩
      else
        let ⟨(r, st'), hr⟩ := bangTypeLoopF toks (depth - 1) (advSt st) (acc ++ [token.value])
        ⟨(r, st'), by obtain ⟨h1, h2⟩ := hr; simp at h1 ⊢; omega, by simp_all⟩
    else
      let piece := if token.type == TokenType.string
        then "\"" ++ token.value ++ "\"" else token.value
      let ⟨(r, st'), hr⟩ := bangTypeLoopF toks depth (advSt st) (acc ++ [piece])
      ⟨(r, st'), by obtain ⟨h1, h2⟩ := hr; simp at h1 ⊢; omega, by simp_all⟩
  else ⟨(acc, st), by simp, rfl⟩
termination_by toks.length - st.pos
decreasing_by
  all_goals simp only [advSt_pos]
  all_goals omega

/-- `Parser.parseBangTypeArgumentText`: capture `<...>` after a bang operator
as raw text, or `undefined` when absent or blank after trimming. -/
def parseBangTypeTextF (toks : List Token) (st : PState) : PRes (Option String) st 0 :=
  if matchTV toks st.pos TokenType.punctuation "<" then
    let ⟨(pieces, st'), hr⟩ := bangTypeLoopF toks 1 (advSt st) []
    let typeArgText := (String.join pieces).trim
    ⟨((if typeArgText.length > 0 then some typeArgText else none), st'), by
      obtain ⟨h1, h2⟩ := hr; simp at h1 ⊢; omega, by simp_all⟩
  else ⟨(none, st), by simp, rfl⟩

/-- The type-consuming loop of `Parser.parseField`: keywords, identifiers,
angle brackets and numbers are appended to the type text, stopping at an
identifier followed by `=` or `;` (the field name). -/
def fieldTypeLoopF (toks : List Token) (st : PState) (acc : String) : PRes String st 0 :=
  if hg : (matchT toks st.pos TokenType.keyword || matchT toks st.pos TokenType.identifier ||
      matchTV toks st.pos TokenType.punctuation "<" ||
      matchTV toks st.pos TokenType.punctuation ">" ||
      matchT toks st.pos TokenType.number) = true then
    have hlt : st.pos < toks.length := by
      simp only [Bool.or_eq_true] at hg
      rcases hg with ((((h | h) | h) | h) | h)
      · exact lt_of_matchT (by decide) h
      · exact lt_of_matchT (by decide) h
      · exact lt_of_matchTV (by decide) h
      · exact lt_of_matchTV (by decide) h
      · exact lt_of_matchT (by decide) h
    if (peekT toks st.pos).type == TokenType.identifier &&
        ((peekT toks (st.pos + 1)).value == "=" || (peekT toks (st.pos + 1)).value == ";") then
      ⟨(acc, st), by simp, rfl⟩
    else
      let ⟨(r, st'), hr⟩ := fieldTypeLoopF toks (advSt st) (acc ++ (peekT toks st.pos).value)
      ⟨(r, st'), by obtain ⟨h1, h2⟩ := hr; simp at h1 ⊢; omega, by simp_all⟩
  else ⟨(acc, st), by simp, rfl⟩
termination_by toks.length - st.pos
decreasing_by
  simp only [advSt_pos]; omega

/-- The type-consuming loop of `Parser.parseDefset`, tracking angle-bracket
depth (the source decrements a plain counter, so depth is an integer). -/
def defsetTypeLoopF (toks : List Token) (st : PState) (depth : Int) (acc : String) :
    PRes String st 0 :=
  if h1 : matchTV toks st.pos TokenType.punctuation "<" = true then
    have hlt : st.pos < toks.length := lt_of_matchTV (by decide) h1
    let ⟨(r, st'), hr⟩ :=
      defsetTypeLoopF toks (advSt st) (depth + 1) (acc ++ (peekT toks st.pos).value)
    ⟨(r, st'), by obtain ⟨ha, hb⟩ := hr; simp at ha ⊢; omega, by simp_all⟩
  else if h2 : matchTV toks st.pos TokenType.punctuation ">" = true then
    have hlt : st.pos < toks.length := lt_of_matchTV (by decide) h2
    if depth - 1 = 0 then
      ⟨(acc ++ (peekT toks st.pos).value, advSt st), by simp, rfl⟩
    else
      let ⟨(r, st'), hr⟩ :=
        defsetTypeLoopF toks (advSt st) (depth - 1) (acc ++ (peekT toks st.pos).value)
      ⟨(r, st'), by obtain ⟨ha, hb⟩ := hr; simp at ha ⊢; omega, by simp_all⟩
  else if depth > 0 then
    if h3 : (matchT toks st.pos TokenType.keyword || matchT toks st.pos TokenType.identifier ||
        matchTV toks st.pos TokenType.punctuation ",") = true then
      have hlt : st.pos < toks.length := by
        simp only [Bool.or_eq_true] at h3
        rcases h3 with ((h | h) | h)
        · exact lt_of_matchT (by decide) h
        · exact lt_of_matchT (by decide) h
        · exact lt_of_matchTV (by decide) h
      let ⟨(r, st'), hr⟩ :=
        defsetTypeLoopF toks (advSt st) depth (acc ++ (peekT toks st.pos).value)
      ⟨(r, st'), by obtain ⟨ha, hb⟩ := hr; simp at ha ⊢; omega, by simp_all⟩
    else ⟨(acc, st), by simp, rfl⟩
  else if h4 : matchT toks st.pos TokenType.keyword = true then
    have hlt : st.pos < toks.length := lt_of_matchT (by decide) h4
    let ⟨(r, st'), hr⟩ :=
      defsetTypeLoopF toks (advSt st) depth (acc ++ (peekT toks st.pos).value)
    ⟨(r, st'), by obtain ⟨ha, hb⟩ := hr; simp at ha ⊢; omega, by simp_all⟩
  else ⟨(acc, st), by simp, rfl⟩
termination_by toks.length - st.pos
decreasing_by
  all_goals simp only [advSt_pos]; omega

/-- The type-parsing prefix of one `parseTemplateArgs` iteration: an optional
keyword/identifier, with the `bits<n>` and `list<Type>` special cases.  The
source's two sequential `if` blocks are exclusive (a consumed `bits<...>`
spelling never equals `list`), so they appear here as one conditional chain
with explicit leaf positions. -/
def templateArgTypeF (toks : List Token) (st : PState) : PRes String st 0 :=
  if (matchT toks st.pos TokenType.keyword || matchT toks st.pos TokenType.identifier) then
    let argType := (peekT toks st.pos).value
    if argType == "bits" && matchTV toks (st.pos + 1) TokenType.punctuation "<" then
      if matchT toks (st.pos + 2) TokenType.number then
        if matchTV toks (st.pos + 3) TokenType.punctuation ">" then
          ⟨(argType ++ "<" ++ (peekT toks (st.pos + 2)).value ++ ">",
            ⟨st.pos + 4, st.errors⟩), by simp, rfl⟩
        else
          ⟨(argType ++ "<" ++ (peekT toks (st.pos + 2)).value,
            ⟨st.pos + 3, st.errors⟩), by simp, rfl⟩
      else
        if matchTV toks (st.pos + 2) TokenType.punctuation ">" then
          ⟨(argType ++ "<" ++ ">", ⟨st.pos + 3, st.errors⟩), by simp, rfl⟩
        else
          ⟨(argType ++ "<", ⟨st.pos + 2, st.errors⟩), by simp, rfl⟩
    else if argType == "list" && matchTV toks (st.pos + 1) TokenType.punctuation "<" then
      if matchT toks (st.pos + 2) TokenType.keyword || matchT toks (st.pos + 2) TokenType.identifier then
        if matchTV toks (st.pos + 3) TokenType.punctuation ">" then
          ⟨(argType ++ "<" ++ (peekT toks (st.pos + 2)).value ++ ">",
            ⟨st.pos + 4, st.errors⟩), by simp, rfl⟩
        else
          ⟨(argType ++ "<" ++ (peekT toks (st.pos + 2)).value,
            ⟨st.pos + 3, st.errors⟩), by simp, rfl⟩
      else
        if matchTV toks (st.pos + 2) TokenType.punctuation ">" then
          ⟨(argType ++ "<" ++ ">", ⟨st.pos + 3, st.errors⟩), by simp, rfl⟩
        else
          ⟨(argType ++ "<", ⟨st.pos + 2, st.errors⟩), by simp, rfl⟩
    else ⟨(argType, advSt st), by simp, rfl⟩
  else ⟨("", st), by simp, rfl⟩

/-- Whether a statement is an `IncludeStatement` (the `stmt.type` check in
`Parser.parse`). -/
def isIncludeStmt : Statement → Bool
  | .includeStmt _ _ => true
  | _ => false

/-- `Parser.parseInclude`: consume `include` and an optional string path. -/
def parseIncludeF (toks : List Token) (st : PState) : PRes Statement st 1 :=
  let start := (peekT toks st.pos).range.start
  if matchT toks (st.pos + 1) TokenType.string then
    ⟨(Statement.includeStmt (peekT toks (st.pos + 1)).value
        ⟨start, (peekT toks (st.pos + 2)).range.start⟩, ⟨st.pos + 2, st.errors⟩),
      by simp, rfl⟩
  else
    ⟨(Statement.includeStmt "" ⟨start, (peekT toks (st.pos + 1)).range.start⟩,
      ⟨st.pos + 1, st.errors⟩), by simp, rfl⟩

/-- Result type of `parseStatement`: possibly a statement, never moving
backwards, and strictly advancing unless the head token is `eof`. -/
def StmtRes (toks : List Token) (st : PState) : Type :=
  { r : Option Statement × PState //
    st.pos ≤ r.2.pos ∧ ((peekT toks st.pos).type ≠ TokenType.eof → st.pos < r.2.pos) ∧
    r.2.errors = st.errors }

mutual

/-- `Parser.parseExpression`: delegates to the primary-expression parser. -/
def parseExpressionF (toks : List Token) (st : PState) : PRes Expression st 1 :=
  parsePrimaryF toks st
termination_by (toks.length - st.pos, 3)
decreasing_by
  all_goals simp_wf
  all_goals try dsimp only [] at *
  all_goals try simp only [advSt_pos] at *
  all_goals first
    | (apply Prod.Lex.right; omega)
    | (apply Prod.Lex.left; omega)

/-- `Parser.parsePrimaryExpression`: bang operators, literals, lists, dags,
identifiers with instantiation arguments or field access, and the
skip-a-token placeholder fallback. -/
def parsePrimaryF (toks : List Token) (st : PState) : PRes Expression st 1 :=
  if hb : ((peekT toks st.pos).type == TokenType.operator &&
      (peekT toks st.pos).value.startsWith "!") = true then
    have hlt : st.pos < toks.length := lt_of_peek_ne_eof (by
      have hb1 := ((Bool.and_eq_true _ _).mp hb).1
      intro he; rw [he] at hb1; simp at hb1)
    parseBangF toks st hlt
  else if (peekT toks st.pos).type == TokenType.number then
    ⟨(Expression.numberLit (jsParseInt (peekT toks st.pos).value) (peekT toks st.pos).range,
      advSt st), by simp, rfl⟩
  else if (peekT toks st.pos).type == TokenType.string then
    ⟨(Expression.stringLit (peekT toks st.pos).value (peekT toks st.pos).range, advSt st),
      by simp, rfl⟩
  else if (peekT toks st.pos).type == TokenType.code then
    ⟨(Expression.codeLit (peekT toks st.pos).value (peekT toks st.pos).range, advSt st),
      by simp, rfl⟩
  else if hlb : matchTV toks st.pos TokenType.punctuation "[" = true then
    parseListF toks st (lt_of_matchTV (by decide) hlb)
  else if hdg : matchTV toks st.pos TokenType.punctuation "(" = true then
    parseDagF toks st (lt_of_matchTV (by decide) hdg)
  else if hid : ((peekT toks st.pos).type == TokenType.identifier) = true then
    have hlt : st.pos < toks.length := lt_of_peek_ne_eof (by
      intro he; rw [he] at hid; simp at hid)
    let ⟨(id, st1), h1⟩ := parseIdentifierF toks st
    if matchTV toks st1.pos TokenType.punctuation "<" then
      let ⟨(args, st3), h3⟩ := crArgsLoopB toks (advSt st1) []
      ⟨(Expression.classRefE (ClassRef.mk id args
          ⟨id.range.start,
            (peekT toks (skipTok (matchTV toks st3.pos TokenType.punctuation ">") st3).pos).range.start⟩),
        skipTok (matchTV toks st3.pos TokenType.punctuation ">") st3), by
        have hs := skipTok_pos (matchTV toks st3.pos TokenType.punctuation ">") st3
        obtain ⟨h1a, h1b⟩ := h1; obtain ⟨h3a, h3b⟩ := h3
        constructor
        · (try dsimp only [] at *); (try simp only [advSt_pos] at *); omega
        · simp_all⟩
    else if matchTV toks st1.pos TokenType.punctuation "." then
      let ⟨(fld, st3), h3⟩ := parseIdentifierF toks (advSt st1)
      ⟨(Expression.fieldAccess (Expression.identE id) fld ⟨id.range.start, fld.range.«end»⟩,
        st3), by
        obtain ⟨h1a, h1b⟩ := h1; obtain ⟨h3a, h3b⟩ := h3
        constructor
        · (try dsimp only [] at *); (try simp only [advSt_pos] at *); omega
        · simp_all⟩
    else
      ⟨(Expression.identE id, st1), by
        obtain ⟨h1a, h1b⟩ := h1
        exact ⟨by simp at h1a ⊢; omega, by simp_all⟩⟩
  else
    ⟨(Expression.identE ⟨"", (peekT toks st.pos).range⟩, advSt st), by simp, rfl⟩
termination_by (toks.length - st.pos, 2)
decreasing_by
  all_goals simp_wf
  all_goals try dsimp only [] at *
  all_goals try simp only [advSt_pos] at *
  all_goals first
    | (apply Prod.Lex.right; omega)
    | (apply Prod.Lex.left; omega)

/-- `Parser.parseBangOperator`: the operator token, optional `<...>` type
text, and an optional parenthesised argument list. -/
def parseBangF (toks : List Token) (st : PState) (h : st.pos < toks.length) :
    PRes Expression st 1 :=
  let start := (peekT toks st.pos).range.start
  let op := (peekT toks st.pos).value
  let ⟨(typeArgText, st2), h2⟩ := parseBangTypeTextF toks (advSt st)
  if hp : matchTV toks st2.pos TokenType.punctuation "(" = true then
    let ⟨(args, st4), h4⟩ := bangArgsLoopF toks (advSt st2) []
    ⟨(Expression.bangOp op typeArgText args
        ⟨start,
          (peekT toks (skipTok (matchTV toks st4.pos TokenType.punctuation ")") st4).pos).range.start⟩,
      skipTok (matchTV toks st4.pos TokenType.punctuation ")") st4), by
      have hs := skipTok_pos (matchTV toks st4.pos TokenType.punctuation ")") st4
      obtain ⟨h2a, h2b⟩ := h2; obtain ⟨h4a, h4b⟩ := h4
      constructor
      · (try dsimp only [] at *); (try simp only [advSt_pos] at *); omega
      · simp_all⟩
  else
    ⟨(Expression.bangOp op typeArgText [] ⟨start, (peekT toks st2.pos).range.start⟩, st2), by
      obtain ⟨h2a, h2b⟩ := h2
      constructor
      · (try dsimp only [] at *); (try simp only [advSt_pos] at *); omega
      · simp_all⟩
termination_by (toks.length - st.pos, 1)
decreasing_by
  all_goals simp_wf
  all_goals try dsimp only [] at *
  all_goals try simp only [advSt_pos] at *
  all_goals first
    | (apply Prod.Lex.right; omega)
    | (apply Prod.Lex.left; omega)

/-- The argument loop of `parseBangOperator`: expressions separated by
optional commas until `)` or end of input. -/
def bangArgsLoopF (toks : List Token) (st : PState) (acc : List Expression) :
    PRes (List Expression) st 0 :=
  if hg : (matchTV toks st.pos TokenType.punctuation ")" = false ∧
      matchTV toks st.pos TokenType.eof "" = false) then
    have hlt : st.pos < toks.length := lt_of_not_eofTV hg.2
    let ⟨(e, st1), h1⟩ := parseExpressionF toks st
    have hsk : st1.pos ≤ (skipTok (matchTV toks st1.pos TokenType.punctuation ",") st1).pos :=
      skipTok_pos _ _
    let ⟨(r, st2), h2⟩ := bangArgsLoopF toks
      (skipTok (matchTV toks st1.pos TokenType.punctuation ",") st1) (acc ++ [e])
    ⟨(r, st2), by
      obtain ⟨h1a, h1b⟩ := h1; obtain ⟨h2a, h2b⟩ := h2
      constructor
      · (try dsimp only [] at *); (try simp only [advSt_pos] at *); omega
      · simp_all⟩
  else ⟨(acc, st), by simp, rfl⟩
termination_by (toks.length - st.pos, 4)
decreasing_by
  all_goals simp_wf
  all_goals try dsimp only [] at *
  all_goals try simp only [advSt_pos] at *
  all_goals first
    | (apply Prod.Lex.right; omega)
    | (apply Prod.Lex.left; omega)

/-- The element loop of `Parser.parseList`: expressions separated by optional
commas until `]` or end of input. -/
def listLoopF (toks : List Token) (st : PState) (acc : List Expression) :
    PRes (List Expression) st 0 :=
  if hg : (matchTV toks st.pos TokenType.punctuation "]" = false ∧
      matchTV toks st.pos TokenType.eof "" = false) then
    have hlt : st.pos < toks.length := lt_of_not_eofTV hg.2
    let ⟨(e, st1), h1⟩ := parseExpressionF toks st
    have hsk : st1.pos ≤ (skipTok (matchTV toks st1.pos TokenType.punctuation ",") st1).pos :=
      skipTok_pos _ _
    let ⟨(r, st2), h2⟩ := listLoopF toks
      (skipTok (matchTV toks st1.pos TokenType.punctuation ",") st1) (acc ++ [e])
    ⟨(r, st2), by
      obtain ⟨h1a, h1b⟩ := h1; obtain ⟨h2a, h2b⟩ := h2
      constructor
      · (try dsimp only [] at *); (try simp only [advSt_pos] at *); omega
      · simp_all⟩
  else ⟨(acc, st), by simp, rfl⟩
termination_by (toks.length - st.pos, 4)
decreasing_by
  all_goals simp_wf
  all_goals try dsimp only [] at *
  all_goals try simp only [advSt_pos] at *
  all_goals first
    | (apply Prod.Lex.right; omega)
    | (apply Prod.Lex.left; omega)

/-- The argument loop of `Parser.parseClassRef`: expressions separated by
optional commas until `>` or end of input. -/
def crArgsLoopA (toks : List Token) (st : PState) (acc : List Expression) :
    PRes (List Expression) st 0 :=
  if hg : (matchTV toks st.pos TokenType.punctuation ">" = false ∧
      matchTV toks st.pos TokenType.eof "" = false) then
    have hlt : st.pos < toks.length := lt_of_not_eofTV hg.2
    let ⟨(e, st1), h1⟩ := parseExpressionF toks st
    have hsk : st1.pos ≤ (skipTok (matchTV toks st1.pos TokenType.punctuation ",") st1).pos :=
      skipTok_pos _ _
    let ⟨(r, st2), h2⟩ := crArgsLoopA toks
      (skipTok (matchTV toks st1.pos TokenType.punctuation ",") st1) (acc ++ [e])
    ⟨(r, st2), by
      obtain ⟨h1a, h1b⟩ := h1; obtain ⟨h2a, h2b⟩ := h2
      constructor
      · (try dsimp only [] at *); (try simp only [advSt_pos] at *); omega
      · simp_all⟩
  else ⟨(acc, st), by simp, rfl⟩
termination_by (toks.length - st.pos, 4)
decreasing_by
  all_goals simp_wf
  all_goals try dsimp only [] at *
  all_goals try simp only [advSt_pos] at *
  all_goals first
    | (apply Prod.Lex.right; omega)
    | (apply Prod.Lex.left; omega)

/-- The instantiation-argument loop inlined in `parsePrimaryExpression`:
like the class-ref loop, but breaks out when neither `,` nor `>` follows an
argument. -/
def crArgsLoopB (toks : List Token) (st : PState) (acc : List Expression) :
    PRes (List Expression) st 0 :=
  if hg : (matchTV toks st.pos TokenType.punctuation ">" = false ∧
      matchTV toks st.pos TokenType.eof "" = false) then
    have hlt : st.pos < toks.length := lt_of_not_eofTV hg.2
    let ⟨(e, st1), h1⟩ := parseExpressionF toks st
    if matchTV toks st1.pos TokenType.punctuation "," then
      let ⟨(r, st2), h2⟩ := crArgsLoopB toks (advSt st1) (acc ++ [e])
      ⟨(r, st2), by
        obtain ⟨h1a, h1b⟩ := h1; obtain ⟨h2a, h2b⟩ := h2
        constructor
        · (try dsimp only [] at *); (try simp only [advSt_pos] at *); omega
        · simp_all⟩
    else if matchTV toks st1.pos TokenType.punctuation ">" then
      let ⟨(r, st2), h2⟩ := crArgsLoopB toks st1 (acc ++ [e])
      ⟨(r, st2), by
        obtain ⟨h1a, h1b⟩ := h1; obtain ⟨h2a, h2b⟩ := h2
        constructor
        · (try dsimp only [] at *); (try simp only [advSt_pos] at *); omega
        · simp_all⟩
    else
      ⟨(acc ++ [e], st1), by
        obtain ⟨h1a, h1b⟩ := h1
        exact ⟨by simp at h1a ⊢; omega, by simp_all⟩⟩
  else ⟨(acc, st), by simp, rfl⟩
termination_by (toks.length - st.pos, 4)
decreasing_by
  all_goals simp_wf
  all_goals try dsimp only [] at *
  all_goals try simp only [advSt_pos] at *
  all_goals first
    | (apply Prod.Lex.right; omega)
    | (apply Prod.Lex.left; omega)

/-- `Parser.parseList`: `[` elements `]`, the end of the range read before
the closing bracket is consumed. -/
def parseListF (toks : List Token) (st : PState) (h : st.pos < toks.length) :
    PRes Expression st 1 :=
  let start := (peekT toks st.pos).range.start
  let ⟨(elements, st2), h2⟩ := listLoopF toks (advSt st) []
  ⟨(Expression.listExpr elements ⟨start, (peekT toks st2.pos).range.«end»⟩,
    skipTok (matchTV toks st2.pos TokenType.punctuation "]") st2), by
    have hs := skipTok_pos (matchTV toks st2.pos TokenType.punctuation "]") st2
    obtain ⟨h2a, h2b⟩ := h2
    constructor
    · (try dsimp only [] at *); (try simp only [advSt_pos] at *); omega
    · simp_all⟩
termination_by (toks.length - st.pos, 1)
decreasing_by
  all_goals simp_wf
  all_goals try dsimp only [] at *
  all_goals try simp only [advSt_pos] at *
  all_goals first
    | (apply Prod.Lex.right; omega)
    | (apply Prod.Lex.left; omega)

/-- The argument loop of `Parser.parseDag`: a value, an optional `:` with a
`$name` label, separated by optional commas until `)` or end of input. -/
def dagLoopF (toks : List Token) (st : PState) (acc : List DagArg) :
    PRes (List DagArg) st 0 :=
  if hg : (matchTV toks st.pos TokenType.punctuation ")" = false ∧
      matchTV toks st.pos TokenType.eof "" = false) then
    have hlt : st.pos < toks.length := lt_of_not_eofTV hg.2
    let ⟨(value, st1), h1⟩ := parseExpressionF toks st
    let nr : PRes (Option Identifier) st1 0 :=
      if matchTV toks st1.pos TokenType.punctuation ":" then
        if (peekT toks (st1.pos + 1)).value.startsWith "$" then
          ⟨(some ⟨(peekT toks (st1.pos + 1)).value, (peekT toks (st1.pos + 1)).range⟩,
            ⟨st1.pos + 2, st1.errors⟩), by simp, rfl⟩
        else ⟨(none, advSt st1), by simp, rfl⟩
      else ⟨(none, st1), by simp, rfl⟩
    let ⟨(nm, st2), hn⟩ := nr
    have hsk : st2.pos ≤ (skipTok (matchTV toks st2.pos TokenType.punctuation ",") st2).pos :=
      skipTok_pos _ _
    let ⟨(r, st3), h3⟩ := dagLoopF toks
      (skipTok (matchTV toks st2.pos TokenType.punctuation ",") st2)
      (acc ++ [DagArg.mk value nm value.range])
    ⟨(r, st3), by
      obtain ⟨h1a, h1b⟩ := h1; obtain ⟨hna, hnb⟩ := hn; obtain ⟨h3a, h3b⟩ := h3
      constructor
      · (try dsimp only [] at *); (try simp only [advSt_pos] at *); omega
      · simp_all⟩
  else ⟨(acc, st), by simp, rfl⟩
termination_by (toks.length - st.pos, 4)
decreasing_by
  all_goals simp_wf
  all_goals try dsimp only [] at *
  all_goals try simp only [advSt_pos] at *
  all_goals first
    | (apply Prod.Lex.right; omega)
    | (apply Prod.Lex.left; omega)

/-- `Parser.parseDag`: `(` operator args `)`, the end of the range read
before the closing parenthesis is consumed. -/
def parseDagF (toks : List Token) (st : PState) (h : st.pos < toks.length) :
    PRes Expression st 1 :=
  let start := (peekT toks st.pos).range.start
  let ⟨(operator, st2), h2⟩ := parseExpressionF toks (advSt st)
  let ⟨(args, st3), h3⟩ := dagLoopF toks st2 []
  ⟨(Expression.dagExpr operator args ⟨start, (peekT toks st3.pos).range.«end»⟩,
    skipTok (matchTV toks st3.pos TokenType.punctuation ")") st3), by
    have hs := skipTok_pos (matchTV toks st3.pos TokenType.punctuation ")") st3
    obtain ⟨h2a, h2b⟩ := h2; obtain ⟨h3a, h3b⟩ := h3
    constructor
    · (try dsimp only [] at *); (try simp only [advSt_pos] at *); omega
    · simp_all⟩
termination_by (toks.length - st.pos, 1)
decreasing_by
  all_goals simp_wf
  all_goals try dsimp only [] at *
  all_goals try simp only [advSt_pos] at *
  all_goals first
    | (apply Prod.Lex.right; omega)
    | (apply Prod.Lex.left; omega)

/-- `Parser.parseClassRef`: an identifier with an optional `<...>` argument
list. -/
def parseClassRefF (toks : List Token) (st : PState) (h : st.pos < toks.length) :
    PRes ClassRef st 1 :=
  let start := (peekT toks st.pos).range.start
  let ⟨(name, st1), h1⟩ := parseIdentifierF toks st
  if hab : matchTV toks st1.pos TokenType.punctuation "<" = true then
    let ⟨(args, st3), h3⟩ := crArgsLoopA toks (advSt st1) []
    ⟨(ClassRef.mk name args
        ⟨start,
          (peekT toks (skipTok (matchTV toks st3.pos TokenType.punctuation ">") st3).pos).range.start⟩,
      skipTok (matchTV toks st3.pos TokenType.punctuation ">") st3), by
      have hs := skipTok_pos (matchTV toks st3.pos TokenType.punctuation ">") st3
      obtain ⟨h1a, h1b⟩ := h1; obtain ⟨h3a, h3b⟩ := h3
      constructor
      · (try dsimp only [] at *); (try simp only [advSt_pos] at *); omega
      · simp_all⟩
  else
    ⟨(ClassRef.mk name [] ⟨start, (peekT toks st1.pos).range.start⟩, st1), by
      obtain ⟨h1a, h1b⟩ := h1
      exact ⟨by simp at h1a ⊢; omega, by simp_all⟩⟩

/-- The parent loop of `Parser.parseParentClasses`: class references while an
identifier is next, continuing only across commas. -/
def parentsLoopF (toks : List Token) (st : PState) (acc : List ClassRef) :
    PRes (List ClassRef) st 0 :=
  if hg : matchT toks st.pos TokenType.identifier = true then
    have hlt : st.pos < toks.length := lt_of_matchT (by decide) hg
    let ⟨(cr, st1), h1⟩ := parseClassRefF toks st hlt
    if matchTV toks st1.pos TokenType.punctuation "," then
      let ⟨(r, st3), h3⟩ := parentsLoopF toks (advSt st1) (acc ++ [cr])
      ⟨(r, st3), by
        obtain ⟨h1a, h1b⟩ := h1; obtain ⟨h3a, h3b⟩ := h3
        constructor
        · (try dsimp only [] at *); (try simp only [advSt_pos] at *); omega
        · simp_all⟩
    else
      ⟨(acc ++ [cr], st1), by
        obtain ⟨h1a, h1b⟩ := h1
        exact ⟨by simp at h1a ⊢; omega, by simp_all⟩⟩
  else ⟨(acc, st), by simp, rfl⟩
termination_by (toks.length - st.pos, 4)
decreasing_by
  all_goals simp_wf
  all_goals try dsimp only [] at *
  all_goals try simp only [advSt_pos] at *
  all_goals first
    | (apply Prod.Lex.right; omega)
    | (apply Prod.Lex.left; omega)

/-- `Parser.parseParentClasses`: nothing without a leading `:`, else the
parent loop. -/
def parseParentClassesF (toks : List Token) (st : PState) : PRes (List ClassRef) st 0 :=
  if hc : matchTV toks st.pos TokenType.punctuation ":" = true then
    have hlt : st.pos < toks.length := lt_of_matchTV (by decide) hc
    let ⟨(ps, st2), h2⟩ := parentsLoopF toks (advSt st) []
    ⟨(ps, st2), by
      obtain ⟨h2a, h2b⟩ := h2
      constructor
      · (try dsimp only [] at *); (try simp only [advSt_pos] at *); omega
      · simp_all⟩
  else ⟨([], st), by simp, rfl⟩

/-- The iteration loop of `Parser.parseTemplateArgs`: a type, an optional
name, an optional `= default`; pushed only when named; a `,` is consumed, and
an iteration that consumed nothing force-advances one token. -/
def templateArgsLoopF (toks : List Token) (st : PState) (acc : List TemplateArg) :
    PRes (List TemplateArg) st 0 :=
  if hg : (matchTV toks st.pos TokenType.punctuation ">" = false ∧
      matchTV toks st.pos TokenType.eof "" = false) then
    have hlt : st.pos < toks.length := lt_of_not_eofTV hg.2
    let start := (peekT toks st.pos).range.start
    let ⟨(argType, st1), h1⟩ := templateArgTypeF toks st
    let nr : PRes (Option Identifier) st1 0 :=
      if matchT toks st1.pos TokenType.identifier then
        let ⟨(nm, st'), hn⟩ := parseIdentifierF toks st1
        ⟨(some nm, st'), by
          obtain ⟨hna, hnb⟩ := hn
          exact ⟨by simp at hna ⊢; omega, by simp_all⟩⟩
      else ⟨(none, st1), by simp, rfl⟩
    let ⟨(nameOpt, st2), h2⟩ := nr
    let dr : PRes (Option Expression) st2 0 :=
      if hde : matchTV toks st2.pos TokenType.punctuation "=" = true then
        let ⟨(dv, st'), hd⟩ := parseExpressionF toks (advSt st2)
        ⟨(some dv, st'), by
          obtain ⟨hda, hdb⟩ := hd
          exact ⟨by simp at hda ⊢; omega, by simp_all⟩⟩
      else ⟨(none, st2), by simp, rfl⟩
    let ⟨(defOpt, st3), h3⟩ := dr
    have hch : st.pos ≤ st3.pos := by
      have h1a := h1.1; have h2a := h2.1; have h3a := h3.1
      (try simp only at h1a h2a h3a)
      omega
    let acc' := match nameOpt with
      | some nm =>
        acc ++ [TemplateArg.mk argType nm defOpt ⟨start, (peekT toks st3.pos).range.start⟩]
      | none => acc
    if hcm : (matchTV toks st3.pos TokenType.punctuation "," || (st3.pos == st.pos)) = true then
      let ⟨(r, st4), h4⟩ := templateArgsLoopF toks (advSt st3) acc'
      ⟨(r, st4), by
        obtain ⟨h1a, h1b⟩ := h1; obtain ⟨h2a, h2b⟩ := h2
        obtain ⟨h3a, h3b⟩ := h3; obtain ⟨h4a, h4b⟩ := h4
        constructor
        · (try simp only at h1a h2a h3a h4a ⊢)
          (try simp only [advSt_pos] at h1a h2a h3a h4a ⊢)
          omega
        · (try simp only at h1b h2b h3b h4b ⊢)
          (try simp only [advSt_errors] at h1b h2b h3b h4b ⊢)
          rw [h4b, h3b, h2b, h1b]⟩
    else
      have hne : st3.pos ≠ st.pos := fun he => hcm (by simp [he])
      let ⟨(r, st4), h4⟩ := templateArgsLoopF toks st3 acc'
      ⟨(r, st4), by
        obtain ⟨h1a, h1b⟩ := h1; obtain ⟨h2a, h2b⟩ := h2
        obtain ⟨h3a, h3b⟩ := h3; obtain ⟨h4a, h4b⟩ := h4
        constructor
        · (try simp only at h1a h2a h3a h4a ⊢)
          (try simp only [advSt_pos] at h1a h2a h3a h4a ⊢)
          omega
        · (try simp only at h1b h2b h3b h4b ⊢)
          (try simp only [advSt_errors] at h1b h2b h3b h4b ⊢)
          rw [h4b, h3b, h2b, h1b]⟩
  else ⟨(acc, st), by simp, rfl⟩
termination_by (toks.length - st.pos, 4)
decreasing_by
  all_goals simp_wf
  all_goals try dsimp only [] at *
  all_goals try simp only [advSt_pos] at *
  all_goals first
    | (apply Prod.Lex.right; omega)
    | (apply Prod.Lex.left; omega)

/-- `Parser.parseTemplateArgs`: nothing without a leading `<`, else the
iteration loop followed by an optional closing `>`. -/
def parseTemplateArgsF (toks : List Token) (st : PState) : PRes (List TemplateArg) st 0 :=
  if hc : matchTV toks st.pos TokenType.punctuation "<" = true then
    have hlt : st.pos < toks.length := lt_of_matchTV (by decide) hc
    let ⟨(args, st2), h2⟩ := templateArgsLoopF toks (advSt st) []
    ⟨(args, skipTok (matchTV toks st2.pos TokenType.punctuation ">") st2), by
      have hs := skipTok_pos (matchTV toks st2.pos TokenType.punctuation ">") st2
      obtain ⟨h2a, h2b⟩ := h2
      constructor
      · (try dsimp only [] at *); (try simp only [advSt_pos] at *); omega
      · simp_all⟩
  else ⟨([], st), by simp, rfl⟩

end

/-- `Parser.parseDefm`: `defm`, an optional name, parent classes, and an
optional trailing semicolon (no body). -/
def parseDefmF (toks : List Token) (st : PState) : PRes Statement st 1 :=
  let start := (peekT toks st.pos).range.start
  let nr : PRes (Option Identifier) (advSt st) 0 :=
    if matchT toks (advSt st).pos TokenType.identifier then
      let ⟨(nm, st'), hn⟩ := parseIdentifierF toks (advSt st)
      ⟨(some nm, st'), by
        obtain ⟨a, b⟩ := hn
        exact ⟨by (try simp only at a ⊢); omega, by (try simp only at b ⊢); exact b⟩⟩
    else ⟨(none, advSt st), by simp, rfl⟩
  let ⟨(nameOpt, st2), h2⟩ := nr
  let ⟨(parents, st3), h3⟩ := parseParentClassesF toks st2
  ⟨(Statement.defmDef nameOpt parents
      ⟨start,
        (peekT toks (skipTok (matchTV toks st3.pos TokenType.punctuation ";") st3).pos).range.start⟩,
    skipTok (matchTV toks st3.pos TokenType.punctuation ";") st3), by
    have hs := skipTok_pos (matchTV toks st3.pos TokenType.punctuation ";") st3
    obtain ⟨h2a, h2b⟩ := h2; obtain ⟨h3a, h3b⟩ := h3
    constructor
    · (try simp only at h2a h3a ⊢); (try simp only [advSt_pos] at h2a h3a ⊢); omega
    · simp only [skipTok_errors]
      (try simp only at h2b h3b)
      (try simp only [advSt_errors] at h2b h3b)
      rw [h3b, h2b]⟩

/-- `Parser.parseDefvar`: `defvar`, a name, an optional `=`, a value
expression, and an optional trailing semicolon. -/
def parseDefvarF (toks : List Token) (st : PState) : PRes Statement st 1 :=
  let start := (peekT toks st.pos).range.start
  let ⟨(name, st2), h2⟩ := parseIdentifierF toks (advSt st)
  have hsk1 := skipTok_pos (matchTV toks st2.pos TokenType.punctuation "=") st2
  let ⟨(value, st3), h3⟩ :=
    parseExpressionF toks (skipTok (matchTV toks st2.pos TokenType.punctuation "=") st2)
  ⟨(Statement.defvarDef name value
      ⟨start,
        (peekT toks (skipTok (matchTV toks st3.pos TokenType.punctuation ";") st3).pos).range.start⟩,
    skipTok (matchTV toks st3.pos TokenType.punctuation ";") st3), by
    have hs := skipTok_pos (matchTV toks st3.pos TokenType.punctuation ";") st3
    obtain ⟨h2a, h2b⟩ := h2; obtain ⟨h3a, h3b⟩ := h3
    constructor
    · (try simp only at h2a h3a ⊢); (try simp only [advSt_pos] at h2a h3a ⊢); omega
    · simp only [skipTok_errors]
      (try simp only at h2b h3b)
      (try simp only [advSt_errors, skipTok_errors] at h2b h3b)
      rw [h3b, h2b]⟩

/-- `Parser.parseAssert`: `assert`, a condition, an optional comma, a message
expression, and an optional trailing semicolon. -/
def parseAssertF (toks : List Token) (st : PState) : PRes Statement st 1 :=
  let start := (peekT toks st.pos).range.start
  let ⟨(condition, st2), h2⟩ := parseExpressionF toks (advSt st)
  have hsk1 := skipTok_pos (matchTV toks st2.pos TokenType.punctuation ",") st2
  let ⟨(message, st3), h3⟩ :=
    parseExpressionF toks (skipTok (matchTV toks st2.pos TokenType.punctuation ",") st2)
  ⟨(Statement.assertStmt condition message
      ⟨start,
        (peekT toks (skipTok (matchTV toks st3.pos TokenType.punctuation ";") st3).pos).range.start⟩,
    skipTok (matchTV toks st3.pos TokenType.punctuation ";") st3), by
    have hs := skipTok_pos (matchTV toks st3.pos TokenType.punctuation ";") st3
    obtain ⟨h2a, h2b⟩ := h2; obtain ⟨h3a, h3b⟩ := h3
    constructor
    · (try simp only at h2a h3a ⊢); (try simp only [advSt_pos] at h2a h3a ⊢); omega
    · simp only [skipTok_errors]
      (try simp only at h2b h3b)
      (try simp only [advSt_errors, skipTok_errors] at h2b h3b)
      rw [h3b, h2b]⟩

/-- `Parser.parseField`: an optional `field` keyword, the type-text loop, the
field name, an optional `= value`, and an optional trailing semicolon. -/
def parseFieldF (toks : List Token) (st : PState) : PRes Statement st 1 :=
  let start := (peekT toks st.pos).range.start
  have hsk0 := skipTok_pos (matchTV toks st.pos TokenType.keyword "field") st
  let ⟨(ftype, st1), h1⟩ :=
    fieldTypeLoopF toks (skipTok (matchTV toks st.pos TokenType.keyword "field") st) ""
  let ⟨(nm, st2), h2⟩ := parseIdentifierF toks st1
  let vr : PRes (Option Expression) st2 0 :=
    if matchTV toks st2.pos TokenType.punctuation "=" then
      let ⟨(v, st'), hd⟩ := parseExpressionF toks (advSt st2)
      ⟨(some v, st'), by
        obtain ⟨a, b⟩ := hd
        constructor
        · (try simp only at a ⊢); (try simp only [advSt_pos] at a ⊢); omega
        · (try simp only at b ⊢); (try simp only [advSt_errors] at b ⊢); exact b⟩
    else ⟨(none, st2), by simp, rfl⟩
  let ⟨(valOpt, st3), h3⟩ := vr
  ⟨(Statement.fieldDef ftype.trim nm valOpt
      ⟨start,
        (peekT toks (skipTok (matchTV toks st3.pos TokenType.punctuation ";") st3).pos).range.start⟩,
    skipTok (matchTV toks st3.pos TokenType.punctuation ";") st3), by
    have hs := skipTok_pos (matchTV toks st3.pos TokenType.punctuation ";") st3
    obtain ⟨h1a, h1b⟩ := h1; obtain ⟨h2a, h2b⟩ := h2; obtain ⟨h3a, h3b⟩ := h3
    constructor
    · (try simp only at h1a h2a h3a ⊢); (try simp only [advSt_pos] at h1a h2a h3a ⊢); omega
    · simp only [skipTok_errors]
      (try simp only at h1b h2b h3b)
      (try simp only [advSt_errors, skipTok_errors] at h1b h2b h3b)
      rw [h3b, h2b, h1b]⟩

/-- The binding loop of `Parser.parseLet`: `name (= value)?` entries while an
identifier is next, continuing only across commas. -/
def letBindingsLoopF (toks : List Token) (st : PState) (acc : List LetBinding) :
    PRes (List LetBinding) st 0 :=
  if hg : matchT toks st.pos TokenType.identifier = true then
    have hlt : st.pos < toks.length := lt_of_matchT (by decide) hg
    let bindingStart := (peekT toks st.pos).range.start
    let ⟨(nm, st1), h1⟩ := parseIdentifierF toks st
    have hsk1 := skipTok_pos (matchTV toks st1.pos TokenType.punctuation "=") st1
    let ⟨(value, st2), h2⟩ :=
      parseExpressionF toks (skipTok (matchTV toks st1.pos TokenType.punctuation "=") st1)
    let b := LetBinding.mk nm value ⟨bindingStart, (peekT toks st2.pos).range.start⟩
    if matchTV toks st2.pos TokenType.punctuation "," then
      let ⟨(r, st3), h3⟩ := letBindingsLoopF toks (advSt st2) (acc ++ [b])
      ⟨(r, st3), by
        obtain ⟨h1a, h1b⟩ := h1; obtain ⟨h2a, h2b⟩ := h2; obtain ⟨h3a, h3b⟩ := h3
        constructor
        · (try simp only at h1a h2a h3a ⊢); (try simp only [advSt_pos] at h1a h2a h3a ⊢); omega
        · (try simp only at h1b h2b h3b)
          (try simp only [advSt_errors, skipTok_errors] at h1b h2b h3b)
          rw [h3b, h2b, h1b]⟩
    else
      ⟨(acc ++ [b], st2), by
        obtain ⟨h1a, h1b⟩ := h1; obtain ⟨h2a, h2b⟩ := h2
        constructor
        · (try simp only at h1a h2a ⊢); (try simp only [advSt_pos] at h1a h2a ⊢); omega
        · (try simp only at h1b h2b ⊢)
          (try simp only [advSt_errors, skipTok_errors] at h1b h2b ⊢)
          rw [h2b, h1b]⟩
  else ⟨(acc, st), by simp, rfl⟩
termination_by toks.length - st.pos
decreasing_by
  have h1a := h1.1; have h2a := h2.1
  (try simp at h1a); (try simp at h2a)
  (try simp only [advSt_pos] at h1a h2a ⊢)
  omega

mutual

/-- `Parser.parseClass`: `class` name, template args, parent classes, the
forward-declaration flag computed before the body from the presence of `{`,
then the body and an optional trailing semicolon. -/
def parseClassF (toks : List Token) (hw : EofOk toks) (st : PState)
    (h : st.pos < toks.length) : PRes Statement st 1 :=
  let start := (peekT toks st.pos).range.start
  let ⟨(name, st1), h1⟩ := parseIdentifierF toks (advSt st)
  have hch1 : st.pos + 2 ≤ st1.pos := by
    have a := h1.1; (try simp at a); omega
  let ⟨(templateArgs, st2), h2⟩ := parseTemplateArgsF toks st1
  have hch2 : st.pos + 2 ≤ st2.pos := by
    have a := h2.1; (try simp at a); omega
  let ⟨(parentClasses, st3), h3⟩ := parseParentClassesF toks st2
  have hch3 : st.pos + 2 ≤ st3.pos := by
    have a := h3.1; (try simp at a); omega
  let hasBody := matchTV toks st3.pos TokenType.punctuation "\x7b"
  let isFwd := !hasBody && templateArgs.isEmpty && parentClasses.isEmpty
  let ⟨(body, st4), h4⟩ := parseBodyF toks hw st3
  ⟨(Statement.classDef name templateArgs parentClasses body isFwd
      ⟨start,
        (peekT toks (skipTok (matchTV toks st4.pos TokenType.punctuation ";") st4).pos).range.start⟩,
    skipTok (matchTV toks st4.pos TokenType.punctuation ";") st4), by
    have hs := skipTok_pos (matchTV toks st4.pos TokenType.punctuation ";") st4
    have a4 := h4.1; have b4 := h4.2
    have b1 := h1.2; have b2 := h2.2; have b3 := h3.2
    (try simp at a4); (try simp at b4); (try simp at b1); (try simp at b2); (try simp at b3)
    refine ⟨?_, ?_⟩
    · (try dsimp only []); omega
    · (try dsimp only []); simp only [skipTok_errors]; rw [b4, b3, b2, b1]⟩
termination_by (toks.length - st.pos, 0)
decreasing_by
  all_goals simp_wf
  all_goals try dsimp only [] at *
  all_goals try simp only [advSt_pos] at *
  all_goals first
    | (apply Prod.Lex.right; omega)
    | (apply Prod.Lex.left; omega)

/-- `Parser.parseDef`: `def`, an optional name, parent classes, a body, and
an optional trailing semicolon. -/
def parseDefF (toks : List Token) (hw : EofOk toks) (st : PState)
    (h : st.pos < toks.length) : PRes Statement st 1 :=
  let start := (peekT toks st.pos).range.start
  let nr : PRes (Option Identifier) (advSt st) 0 :=
    if matchT toks (advSt st).pos TokenType.identifier then
      let ⟨(nm, st'), hn⟩ := parseIdentifierF toks (advSt st)
      ⟨(some nm, st'), by
        have a := hn.1; have b := hn.2; (try simp at a); (try simp at b)
        constructor
        · (try dsimp only []); (try simp only [advSt_pos] at a ⊢); omega
        · exact b⟩
    else ⟨(none, advSt st), by simp, rfl⟩
  let ⟨(nameOpt, st2), h2⟩ := nr
  have hch2 : st.pos + 1 ≤ st2.pos := by
    have a := h2.1; (try simp at a); omega
  let ⟨(parents, st3), h3⟩ := parseParentClassesF toks st2
  have hch3 : st.pos + 1 ≤ st3.pos := by
    have a := h3.1; (try simp at a); omega
  let ⟨(body, st4), h4⟩ := parseBodyF toks hw st3
  ⟨(Statement.recordDef nameOpt parents body
      ⟨start,
        (peekT toks (skipTok (matchTV toks st4.pos TokenType.punctuation ";") st4).pos).range.start⟩,
    skipTok (matchTV toks st4.pos TokenType.punctuation ";") st4), by
    have hs := skipTok_pos (matchTV toks st4.pos TokenType.punctuation ";") st4
    have a4 := h4.1; have b4 := h4.2
    have b2 := h2.2; have b3 := h3.2
    (try simp at a4); (try simp at b4); (try simp at b2); (try simp at b3)
    refine ⟨?_, ?_⟩
    · (try dsimp only []); omega
    · (try dsimp only []); simp only [skipTok_errors]; rw [b4, b3, b2]⟩
termination_by (toks.length - st.pos, 0)
decreasing_by
  all_goals simp_wf
  all_goals try dsimp only [] at *
  all_goals try simp only [advSt_pos] at *
  all_goals first
    | (apply Prod.Lex.right; omega)
    | (apply Prod.Lex.left; omega)

/-- `Parser.parseMulticlass`: `multiclass` name, template args, parent
classes, and a body (no trailing-semicolon handling). -/
def parseMulticlassF (toks : List Token) (hw : EofOk toks) (st : PState)
    (h : st.pos < toks.length) : PRes Statement st 1 :=
  let start := (peekT toks st.pos).range.start
  let ⟨(name, st1), h1⟩ := parseIdentifierF toks (advSt st)
  have hch1 : st.pos + 2 ≤ st1.pos := by
    have a := h1.1; (try simp at a); omega
  let ⟨(templateArgs, st2), h2⟩ := parseTemplateArgsF toks st1
  have hch2 : st.pos + 2 ≤ st2.pos := by
    have a := h2.1; (try simp at a); omega
  let ⟨(parentClasses, st3), h3⟩ := parseParentClassesF toks st2
  have hch3 : st.pos + 2 ≤ st3.pos := by
    have a := h3.1; (try simp at a); omega
  let ⟨(body, st4), h4⟩ := parseBodyF toks hw st3
  ⟨(Statement.multiClassDefS (MultiClassDef.mk name templateArgs parentClasses body
      ⟨start, (peekT toks st4.pos).range.start⟩), st4), by
    have a4 := h4.1; have b4 := h4.2
    have b1 := h1.2; have b2 := h2.2; have b3 := h3.2
    (try simp at a4); (try simp at b4); (try simp at b1); (try simp at b2); (try simp at b3)
    refine ⟨?_, ?_⟩
    · (try dsimp only []); omega
    · (try dsimp only []); rw [b4, b3, b2, b1]⟩
termination_by (toks.length - st.pos, 0)
decreasing_by
  all_goals simp_wf
  all_goals try dsimp only [] at *
  all_goals try simp only [advSt_pos] at *
  all_goals first
    | (apply Prod.Lex.right; omega)
    | (apply Prod.Lex.left; omega)

/-- `Parser.parseDefset`: `defset`, the depth-tracking type loop, a name (or
an empty placeholder), an optional `=`, and a body. -/
def parseDefsetF (toks : List Token) (hw : EofOk toks) (st : PState)
    (h : st.pos < toks.length) : PRes Statement st 1 :=
  let start := (peekT toks st.pos).range.start
  let ⟨(vt, st1), h1⟩ := defsetTypeLoopF toks (advSt st) 0 ""
  have hch1 : st.pos + 1 ≤ st1.pos := by
    have a := h1.1; (try simp at a); omega
  let nr : PRes Identifier st1 0 :=
    if matchT toks st1.pos TokenType.identifier then
      let ⟨(nm, st'), hn⟩ := parseIdentifierF toks st1
      ⟨(nm, st'), by
        have a := hn.1; have b := hn.2; (try simp at a); (try simp at b)
        exact ⟨by (try dsimp only []); omega, b⟩⟩
    else ⟨(⟨"", (peekT toks st1.pos).range⟩, st1), by simp, rfl⟩
  let ⟨(name, st2), h2⟩ := nr
  have hsk := skipTok_pos (matchTV toks st2.pos TokenType.punctuation "=") st2
  have hch2 : st.pos + 1 ≤ (skipTok (matchTV toks st2.pos TokenType.punctuation "=") st2).pos := by
    have a := h2.1; (try simp at a); omega
  let ⟨(body, st3), h3⟩ :=
    parseBodyF toks hw (skipTok (matchTV toks st2.pos TokenType.punctuation "=") st2)
  ⟨(Statement.defsetDef vt.trim name body ⟨start, (peekT toks st3.pos).range.start⟩, st3), by
    have a3 := h3.1; have b3 := h3.2
    have b1 := h1.2; have b2 := h2.2
    (try simp at a3); (try simp at b3); (try simp at b1); (try simp at b2)
    refine ⟨?_, ?_⟩
    · (try dsimp only []); omega
    · (try dsimp only []); rw [b3, b2, b1]⟩
termination_by (toks.length - st.pos, 0)
decreasing_by
  all_goals simp_wf
  all_goals try dsimp only [] at *
  all_goals try simp only [advSt_pos] at *
  all_goals first
    | (apply Prod.Lex.right; omega)
    | (apply Prod.Lex.left; omega)

/-- `Parser.parseLet`: `let`, the binding loop, an optional `in` with a brace
body or a single statement, and an optional trailing semicolon. -/
def parseLetF (toks : List Token) (hw : EofOk toks) (st : PState)
    (h : st.pos < toks.length) : PRes Statement st 1 :=
  let start := (peekT toks st.pos).range.start
  let ⟨(bindings, st2), h2⟩ := letBindingsLoopF toks (advSt st) []
  have hch2 : st.pos + 1 ≤ st2.pos := by
    have a := h2.1; (try simp at a); omega
  have hadv2 : (advSt st2).pos = st2.pos + 1 := rfl
  let br : PRes (List Statement) st2 0 :=
    if hin : matchTV toks st2.pos TokenType.keyword "in" = true then
      if matchTV toks (advSt st2).pos TokenType.punctuation "\x7b" then
        let ⟨(b, st'), hb⟩ := parseBodyF toks hw (advSt st2)
        ⟨(b, st'), by
          have a := hb.1; have c := hb.2; (try simp at a); (try simp at c)
          exact ⟨by (try dsimp only []); omega, c⟩⟩
      else
        let ⟨(os, st'), hs2⟩ := parseStatementF toks hw (advSt st2)
        ⟨((match os with | some s => [s] | none => []), st'), by
          have a := hs2.1; have c := hs2.2.2; (try simp at a); (try simp at c)
          exact ⟨by (try dsimp only []); omega, c⟩⟩
    else ⟨([], st2), by simp, rfl⟩
  let ⟨(body, st3), h3⟩ := br
  ⟨(Statement.letStmt bindings body
      ⟨start,
        (peekT toks (skipTok (matchTV toks st3.pos TokenType.punctuation ";") st3).pos).range.start⟩,
    skipTok (matchTV toks st3.pos TokenType.punctuation ";") st3), by
    have hs := skipTok_pos (matchTV toks st3.pos TokenType.punctuation ";") st3
    have a3 := h3.1; have b3 := h3.2; have b2 := h2.2
    (try simp at a3); (try simp at b3); (try simp at b2)
    refine ⟨?_, ?_⟩
    · (try dsimp only []); omega
    · (try dsimp only []); simp only [skipTok_errors]; rw [b3, b2]⟩
termination_by (toks.length - st.pos, 0)
decreasing_by
  all_goals simp_wf
  all_goals try dsimp only [] at *
  all_goals try simp only [advSt_pos] at *
  all_goals first
    | (apply Prod.Lex.right; omega)
    | (apply Prod.Lex.left; omega)

/-- `Parser.parseForeach`: `foreach` variable `= range`, an optional `in`
with a brace body or a single statement (no trailing-semicolon handling). -/
def parseForeachF (toks : List Token) (hw : EofOk toks) (st : PState)
    (h : st.pos < toks.length) : PRes Statement st 1 :=
  let start := (peekT toks st.pos).range.start
  let ⟨(var1, st1), h1⟩ := parseIdentifierF toks (advSt st)
  have hch1 : st.pos + 2 ≤ st1.pos := by
    have a := h1.1; (try simp at a); omega
  have hsk := skipTok_pos (matchTV toks st1.pos TokenType.punctuation "=") st1
  let ⟨(iterRange, st2), h2⟩ :=
    parseExpressionF toks (skipTok (matchTV toks st1.pos TokenType.punctuation "=") st1)
  have hch2 : st.pos + 2 ≤ st2.pos := by
    have a := h2.1; (try simp at a); omega
  have hadv2 : (advSt st2).pos = st2.pos + 1 := rfl
  let br : PRes (List Statement) st2 0 :=
    if hin : matchTV toks st2.pos TokenType.keyword "in" = true then
      if matchTV toks (advSt st2).pos TokenType.punctuation "\x7b" then
        let ⟨(b, st'), hb⟩ := parseBodyF toks hw (advSt st2)
        ⟨(b, st'), by
          have a := hb.1; have c := hb.2; (try simp at a); (try simp at c)
          exact ⟨by (try dsimp only []); omega, c⟩⟩
      else
        let ⟨(os, st'), hs2⟩ := parseStatementF toks hw (advSt st2)
        ⟨((match os with | some s => [s] | none => []), st'), by
          have a := hs2.1; have c := hs2.2.2; (try simp at a); (try simp at c)
          exact ⟨by (try dsimp only []); omega, c⟩⟩
    else ⟨([], st2), by simp, rfl⟩
  let ⟨(body, st3), h3⟩ := br
  ⟨(Statement.foreachStmt var1 iterRange body ⟨start, (peekT toks st3.pos).range.start⟩,
    st3), by
    have a3 := h3.1; have b3 := h3.2; have b1 := h1.2; have b2 := h2.2
    (try simp at a3); (try simp at b3); (try simp at b1); (try simp at b2)
    refine ⟨?_, ?_⟩
    · (try dsimp only []); omega
    · (try dsimp only []); rw [b3, b2, b1]⟩
termination_by (toks.length - st.pos, 0)
decreasing_by
  all_goals simp_wf
  all_goals try dsimp only [] at *
  all_goals try simp only [advSt_pos] at *
  all_goals first
    | (apply Prod.Lex.right; omega)
    | (apply Prod.Lex.left; omega)

/-- `Parser.parseIf`: `if` condition, an optional `then` branch and an
optional `else` branch, each a brace body or a single statement. -/
def parseIfF (toks : List Token) (hw : EofOk toks) (st : PState)
    (h : st.pos < toks.length) : PRes Statement st 1 :=
  let start := (peekT toks st.pos).range.start
  let ⟨(condition, st1), h1⟩ := parseExpressionF toks (advSt st)
  have hch1 : st.pos + 2 ≤ st1.pos := by
    have a := h1.1; (try simp at a); omega
  have hadv1 : (advSt st1).pos = st1.pos + 1 := rfl
  let tbr : PRes (List Statement) st1 0 :=
    if htn : matchTV toks st1.pos TokenType.keyword "then" = true then
      if matchTV toks (advSt st1).pos TokenType.punctuation "\x7b" then
        let ⟨(b, st'), hb⟩ := parseBodyF toks hw (advSt st1)
        ⟨(b, st'), by
          have a := hb.1; have c := hb.2; (try simp at a); (try simp at c)
          exact ⟨by (try dsimp only []); omega, c⟩⟩
      else
        let ⟨(os, st'), hs2⟩ := parseStatementF toks hw (advSt st1)
        ⟨((match os with | some s => [s] | none => []), st'), by
          have a := hs2.1; have c := hs2.2.2; (try simp at a); (try simp at c)
          exact ⟨by (try dsimp only []); omega, c⟩⟩
    else ⟨([], st1), by simp, rfl⟩
  let ⟨(thenBody, st2), h2⟩ := tbr
  have hch2 : st.pos + 2 ≤ st2.pos := by
    have a := h2.1; (try simp at a); omega
  have hadv2 : (advSt st2).pos = st2.pos + 1 := rfl
  let ebr : PRes (List Statement) st2 0 :=
    if hel : matchTV toks st2.pos TokenType.keyword "else" = true then
      if matchTV toks (advSt st2).pos TokenType.punctuation "\x7b" then
        let ⟨(b, st'), hb⟩ := parseBodyF toks hw (advSt st2)
        ⟨(b, st'), by
          have a := hb.1; have c := hb.2; (try simp at a); (try simp at c)
          exact ⟨by (try dsimp only []); omega, c⟩⟩
      else
        let ⟨(os, st'), hs2⟩ := parseStatementF toks hw (advSt st2)
        ⟨((match os with | some s => [s] | none => []), st'), by
          have a := hs2.1; have c := hs2.2.2; (try simp at a); (try simp at c)
          exact ⟨by (try dsimp only []); omega, c⟩⟩
    else ⟨([], st2), by simp, rfl⟩
  let ⟨(elseBody, st3), h3⟩ := ebr
  ⟨(Statement.ifStmt condition thenBody elseBody ⟨start, (peekT toks st3.pos).range.start⟩,
    st3), by
    have a3 := h3.1; have b3 := h3.2; have b1 := h1.2; have b2 := h2.2
    (try simp at a3); (try simp at b3); (try simp at b1); (try simp at b2)
    refine ⟨?_, ?_⟩
    · (try dsimp only []); omega
    · (try dsimp only []); rw [b3, b2, b1]⟩
termination_by (toks.length - st.pos, 0)
decreasing_by
  all_goals simp_wf
  all_goals try dsimp only [] at *
  all_goals try simp only [advSt_pos] at *
  all_goals first
    | (apply Prod.Lex.right; omega)
    | (apply Prod.Lex.left; omega)

/-- `Parser.parseStatement`: `null` at `eof` without consuming; the keyword
dispatch; field parsing for type keywords and identifiers; otherwise skip the
unknown token and return `null`. -/
def parseStatementF (toks : List Token) (hw : EofOk toks) (st : PState) : StmtRes toks st :=
  if he : (peekT toks st.pos).type = TokenType.eof then
    ⟨(none, st), ⟨le_refl _, fun hne => absurd he hne, rfl⟩⟩
  else
    have hlt : st.pos < toks.length := lt_of_peek_ne_eof he
    if hk : (peekT toks st.pos).type = TokenType.keyword then
      match (peekT toks st.pos).value with
      | "class" =>
        let ⟨(s, st'), hr⟩ := parseClassF toks hw st hlt
        ⟨(some s, st'), by
          have a := hr.1; have b := hr.2; (try simp at a); (try simp at b)
          exact ⟨by (try dsimp only []); omega, fun _ => by (try dsimp only []); omega, b⟩⟩
      | "def" =>
        let ⟨(s, st'), hr⟩ := parseDefF toks hw st hlt
        ⟨(some s, st'), by
          have a := hr.1; have b := hr.2; (try simp at a); (try simp at b)
          exact ⟨by (try dsimp only []); omega, fun _ => by (try dsimp only []); omega, b⟩⟩
      | "multiclass" =>
        let ⟨(s, st'), hr⟩ := parseMulticlassF toks hw st hlt
        ⟨(some s, st'), by
          have a := hr.1; have b := hr.2; (try simp at a); (try simp at b)
          exact ⟨by (try dsimp only []); omega, fun _ => by (try dsimp only []); omega, b⟩⟩
      | "defm" =>
        let ⟨(s, st'), hr⟩ := parseDefmF toks st
        ⟨(some s, st'), by
          have a := hr.1; have b := hr.2; (try simp at a); (try simp at b)
          exact ⟨by (try dsimp only []); omega, fun _ => by (try dsimp only []); omega, b⟩⟩
      | "defset" =>
        let ⟨(s, st'), hr⟩ := parseDefsetF toks hw st hlt
        ⟨(some s, st'), by
          have a := hr.1; have b := hr.2; (try simp at a); (try simp at b)
          exact ⟨by (try dsimp only []); omega, fun _ => by (try dsimp only []); omega, b⟩⟩
      | "defvar" =>
        let ⟨(s, st'), hr⟩ := parseDefvarF toks st
        ⟨(some s, st'), by
          have a := hr.1; have b := hr.2; (try simp at a); (try simp at b)
          exact ⟨by (try dsimp only []); omega, fun _ => by (try dsimp only []); omega, b⟩⟩
      | "let" =>
        let ⟨(s, st'), hr⟩ := parseLetF toks hw st hlt
        ⟨(some s, st'), by
          have a := hr.1; have b := hr.2; (try simp at a); (try simp at b)
          exact ⟨by (try dsimp only []); omega, fun _ => by (try dsimp only []); omega, b⟩⟩
      | "foreach" =>
        let ⟨(s, st'), hr⟩ := parseForeachF toks hw st hlt
        ⟨(some s, st'), by
          have a := hr.1; have b := hr.2; (try simp at a); (try simp at b)
          exact ⟨by (try dsimp only []); omega, fun _ => by (try dsimp only []); omega, b⟩⟩
      | "if" =>
        let ⟨(s, st'), hr⟩ := parseIfF toks hw st hlt
        ⟨(some s, st'), by
          have a := hr.1; have b := hr.2; (try simp at a); (try simp at b)
          exact ⟨by (try dsimp only []); omega, fun _ => by (try dsimp only []); omega, b⟩⟩
      | "include" =>
        let ⟨(s, st'), hr⟩ := parseIncludeF toks st
        ⟨(some s, st'), by
          have a := hr.1; have b := hr.2; (try simp at a); (try simp at b)
          exact ⟨by (try dsimp only []); omega, fun _ => by (try dsimp only []); omega, b⟩⟩
      | "assert" =>
        let ⟨(s, st'), hr⟩ := parseAssertF toks st
        ⟨(some s, st'), by
          have a := hr.1; have b := hr.2; (try simp at a); (try simp at b)
          exact ⟨by (try dsimp only []); omega, fun _ => by (try dsimp only []); omega, b⟩⟩
      | "field" | "bit" | "bits" | "int" | "string" | "list" | "dag" | "code" =>
        let ⟨(s, st'), hr⟩ := parseFieldF toks st
        ⟨(some s, st'), by
          have a := hr.1; have b := hr.2; (try simp at a); (try simp at b)
          exact ⟨by (try dsimp only []); omega, fun _ => by (try dsimp only []); omega, b⟩⟩
      | _ => ⟨(none, advSt st), ⟨by simp only [advSt_pos]; omega,
          fun _ => by simp only [advSt_pos]; omega, rfl⟩⟩
    else if hi : (peekT toks st.pos).type = TokenType.identifier then
      let ⟨(s, st'), hr⟩ := parseFieldF toks st
      ⟨(some s, st'), by
        have a := hr.1; have b := hr.2; (try simp at a); (try simp at b)
        exact ⟨by (try dsimp only []); omega, fun _ => by (try dsimp only []); omega, b⟩⟩
    else
      ⟨(none, advSt st), ⟨by simp only [advSt_pos]; omega,
        fun _ => by simp only [advSt_pos]; omega, rfl⟩⟩
termination_by (toks.length - st.pos, 1)
decreasing_by
  all_goals simp_wf
  all_goals try dsimp only [] at *
  all_goals try simp only [advSt_pos] at *
  all_goals first
    | (apply Prod.Lex.right; omega)
    | (apply Prod.Lex.left; omega)

/-- The statement loop of `Parser.parseBody`: statements until `}` or end of
input, pushing non-null results. -/
def bodyLoopF (toks : List Token) (hw : EofOk toks) (st : PState) (acc : List Statement) :
    PRes (List Statement) st 0 :=
  if hg : (matchTV toks st.pos TokenType.punctuation "\x7d" = false ∧
      matchTV toks st.pos TokenType.eof "" = false) then
    have hlt : st.pos < toks.length := lt_of_not_eofTV hg.2
    have hne : (peekT toks st.pos).type ≠ TokenType.eof :=
      ne_eof_of_not_matchTV_eof hw hg.2
    let ⟨(os, st1), h1⟩ := parseStatementF toks hw st
    have hprog : st.pos < st1.pos := by
      have a := h1.2.1 hne; (try simp at a); exact a
    let ⟨(r, st2), h2⟩ := bodyLoopF toks hw st1
      (match os with | some s => acc ++ [s] | none => acc)
    ⟨(r, st2), by
      have a2 := h2.1; have b2 := h2.2; have b1 := h1.2.2
      (try simp at a2); (try simp at b2); (try simp at b1)
      exact ⟨by (try dsimp only []); omega, by (try dsimp only []); rw [b2, b1]⟩⟩
  else ⟨(acc, st), by simp, rfl⟩
termination_by (toks.length - st.pos, 2)
decreasing_by
  all_goals simp_wf
  all_goals try dsimp only [] at *
  all_goals try simp only [advSt_pos] at *
  all_goals first
    | (apply Prod.Lex.right; omega)
    | (apply Prod.Lex.left; omega)

/-- `Parser.parseBody`: nothing without a leading `{`, else the statement
loop and an optional closing `}`. -/
def parseBodyF (toks : List Token) (hw : EofOk toks) (st : PState) :
    PRes (List Statement) st 0 :=
  if hc : matchTV toks st.pos TokenType.punctuation "\x7b" = true then
    have hlt : st.pos < toks.length := lt_of_matchTV (by decide) hc
    let ⟨(stmts, st2), h2⟩ := bodyLoopF toks hw (advSt st) []
    ⟨(stmts, skipTok (matchTV toks st2.pos TokenType.punctuation "\x7d") st2), by
      have hs := skipTok_pos (matchTV toks st2.pos TokenType.punctuation "\x7d") st2
      have a := h2.1; have b := h2.2
      (try simp at a); (try simp at b)
      (try dsimp only [] at a b ⊢)
      refine ⟨?_, ?_⟩
      · omega
      · simp only [skipTok_errors]; rw [b]⟩
  else ⟨([], st), by simp, rfl⟩
termination_by (toks.length - st.pos, 3)
decreasing_by
  all_goals simp_wf
  all_goals try dsimp only [] at *
  all_goals try simp only [advSt_pos] at *
  all_goals first
    | (apply Prod.Lex.right; omega)
    | (apply Prod.Lex.left; omega)

/-- The top-level loop of `Parser.parse`: statements until `eof`, collecting
include statements separately. -/
def parseLoopF (toks : List Token) (hw : EofOk toks) (st : PState)
    (stmts incs : List Statement) :
    {r : List Statement × List Statement × PState // r.2.2.errors = st.errors} :=
  if hg : matchTV toks st.pos TokenType.eof "" = false then
    have hlt : st.pos < toks.length := lt_of_not_eofTV hg
    have hne : (peekT toks st.pos).type ≠ TokenType.eof :=
      ne_eof_of_not_matchTV_eof hw hg
    let ⟨(os, st1), h1⟩ := parseStatementF toks hw st
    have hprog : st.pos < st1.pos := by
      have a := h1.2.1 hne; (try simp at a); exact a
    have herr : st1.errors = st.errors := by
      have b := h1.2.2; (try simp at b); exact b
    match os with
    | some s =>
      let ⟨r, hr⟩ := parseLoopF toks hw st1 (stmts ++ [s])
        (if isIncludeStmt s then incs ++ [s] else incs)
      ⟨r, by rw [hr, herr]⟩
    | none =>
      let ⟨r, hr⟩ := parseLoopF toks hw st1 stmts incs
      ⟨r, by rw [hr, herr]⟩
  else ⟨(stmts, incs, st), rfl⟩
termination_by (toks.length - st.pos, 4)
decreasing_by
  all_goals simp_wf
  all_goals try dsimp only [] at *
  all_goals try simp only [advSt_pos] at *
  all_goals first
    | (apply Prod.Lex.right; omega)
    | (apply Prod.Lex.left; omega)

end

/-- `Parser.parse`: run the top-level loop from position 0 with no
diagnostics and package the result. -/
def parseF (toks : List Token) (hw : EofOk toks) (uri : String) : ParsedFile :=
  let r := parseLoopF toks hw ⟨0, []⟩ [] []
  ⟨uri, r.1.1, r.1.2.1, r.1.2.2.errors⟩

theorem readIdentifier_type_ne (st : LexSt) :
    (readIdentifier st).1.type ≠ TokenType.eof := by
  unfold readIdentifier
  dsimp only []
  split <;> simp

/-- A `nextToken` result typed `eof` always carries the empty value. -/
theorem nextTokenF_eofOk : ∀ (fuel : Nat) (st : LexSt),
    (nextTokenF fuel st).1.type = TokenType.eof → (nextTokenF fuel st).1.value = "" := by
  intro fuel
  induction fuel with
  | zero => intro st _; rfl
  | succ n ih =>
    intro st h
    rw [nextTokenF] at h ⊢
    cases hcs : (skipWhitespaceF (st.cs.length + 1) st).cs with
    | nil => simp only [hcs] at h ⊢
    | cons ch rest =>
      simp only [hcs] at h ⊢
      by_cases c1 : ch = '"'
      · rw [if_pos c1] at h; exact absurd h (by simp [readString])
      rw [if_neg c1] at h ⊢
      by_cases c2 : ch = '[' ∧ rest.head? = some '{'
      · rw [if_pos c2] at h; exact absurd h (by simp [readCode])
      rw [if_neg c2] at h ⊢
      by_cases c3 : ch.isDigit = true ∨ (ch = '-' ∧ (Option.map Char.isDigit rest.head?).getD false = true)
      · rw [if_pos c3] at h; exact absurd h (by simp [readNumber])
      rw [if_neg c3] at h ⊢
      by_cases c4 : ch.isAlpha = true ∨ ch = '_'
      · rw [if_pos c4] at h; exact absurd h (readIdentifier_type_ne _)
      rw [if_neg c4] at h ⊢
      by_cases c5 : ch = '!'
      · rw [if_pos c5] at h; simp at h
      rw [if_neg c5] at h ⊢
      by_cases c6 : ch = '#'
      · rw [if_pos c6] at h; simp at h
      rw [if_neg c6] at h ⊢
      by_cases c7 : puncChars.contains ch = true
      · rw [if_pos c7] at h; simp at h
      rw [if_neg c7] at h ⊢
      exact ih _ h

/-- Every token list `tokenize` produces is eof-clean. -/
theorem tokenizeF_eofOk : ∀ (fuel : Nat) (st : LexSt), EofOk (tokenizeF fuel st) := by
  intro fuel
  induction fuel with
  | zero => intro st t ht _; simp [tokenizeF] at ht
  | succ n ih =>
    intro st t ht hty
    simp only [tokenizeF] at ht
    by_cases hc : ((nextTokenF (st.cs.length + 2) st).1.type == TokenType.eof) = true
    · rw [if_pos hc] at ht
      simp at ht
      rw [ht]
      exact nextTokenF_eofOk _ _ (by rw [← ht]; exact hty)
    · rw [if_neg hc] at ht
      rcases List.mem_cons.mp ht with he | hm
      · exact absurd hty (by rw [he]; simpa using hc)
      · exact ih _ t hm hty

theorem tokenize_eofOk (text : String) : EofOk (tokenize text) :=
  tokenizeF_eofOk _ _

/-- `parseTableGen`: tokenize then parse. -/
def parseTableGen (text uri : String) : ParsedFile :=
  parseF (tokenize text) (tokenize_eofOk text) uri

theorem identifierNeEof : TokenType.identifier ≠ TokenType.eof := by decide

/-- Value-level unfolding of the top-level parse loop. -/
theorem parseLoopF_val (toks : List Token) (hw : EofOk toks) (st : PState)
    (stmts incs : List Statement) :
    (parseLoopF toks hw st stmts incs).1 =
      if matchTV toks st.pos TokenType.eof "" = false then
        match (parseStatementF toks hw st).1.1 with
        | some s =>
          (parseLoopF toks hw (parseStatementF toks hw st).1.2 (stmts ++ [s])
            (if isIncludeStmt s then incs ++ [s] else incs)).1
        | none => (parseLoopF toks hw (parseStatementF toks hw st).1.2 stmts incs).1
      else (stmts, incs, st) := by
  rw [parseLoopF.eq_def]
  split
  · rcases hr : parseStatementF toks hw st with ⟨⟨os, st1⟩, hp⟩
    simp only [hr]
    cases os with
    | some s =>
      rcases hr2 : parseLoopF toks hw st1 (stmts ++ [s])
          (if isIncludeStmt s then incs ++ [s] else incs) with ⟨r2, hp2⟩
      simp only [hr2]
    | none =>
      rcases hr2 : parseLoopF toks hw st1 stmts incs with ⟨r2, hp2⟩
      simp only [hr2]
  · rfl

/-- `parseStatement` at an `eof`-typed token: `null`, no consumption. -/
theorem parseStatementF_eofv (toks : List Token) (hw : EofOk toks) (st : PState)
    (hk : (peekT toks st.pos).type = TokenType.eof) :
    (parseStatementF toks hw st).1 = (none, st) := by
  rw [parseStatementF.eq_def]
  rw [dif_pos hk]

/-- `parseStatement` at a `class` keyword: delegates to `parseClass`. -/
theorem parseStatementF_class (toks : List Token) (hw : EofOk toks) (st : PState)
    (hk : (peekT toks st.pos).type = TokenType.keyword)
    (hv : (peekT toks st.pos).value = "class")
    (hlt : st.pos < toks.length) :
    (parseStatementF toks hw st).1 =
      (some (parseClassF toks hw st hlt).1.1, (parseClassF toks hw st hlt).1.2) := by
  rw [parseStatementF.eq_def]
  rw [dif_neg (by rw [hk]; exact fun he => TokenType.noConfusion he)]
  dsimp only []
  rw [dif_pos hk, hv]
  rcases hr : parseClassF toks hw st hlt with ⟨⟨s, st1⟩, hp⟩
  simp only [hr]

/-- Value-level unfolding of `parseClass`. -/
theorem parseClassF_val (toks : List Token) (hw : EofOk toks) (st : PState)
    (h : st.pos < toks.length) :
    (parseClassF toks hw st h).1 =
      (let r1 := (parseIdentifierF toks (advSt st)).1
       let r2 := (parseTemplateArgsF toks r1.2).1
       let r3 := (parseParentClassesF toks r2.2).1
       let r4 := (parseBodyF toks hw r3.2).1
       (Statement.classDef r1.1 r2.1 r3.1 r4.1
          (!(matchTV toks r3.2.pos TokenType.punctuation "\x7b") && r2.1.isEmpty && r3.1.isEmpty)
          ⟨(peekT toks st.pos).range.start,
            (peekT toks (skipTok (matchTV toks r4.2.pos TokenType.punctuation ";") r4.2).pos).range.start⟩,
        skipTok (matchTV toks r4.2.pos TokenType.punctuation ";") r4.2)) := by
  rw [parseClassF.eq_def]
  rcases hr1 : parseIdentifierF toks (advSt st) with ⟨⟨nm, st1⟩, h1⟩
  simp only [hr1]
  (try dsimp only [])
  rcases hr2 : parseTemplateArgsF toks st1 with ⟨⟨targs, st2⟩, h2⟩
  simp only [hr2]
  (try dsimp only [])
  rcases hr3 : parseParentClassesF toks st2 with ⟨⟨parents, st3⟩, h3⟩
  simp only [hr3]
  (try dsimp only [])
  rcases hr4 : parseBodyF toks hw st3 with ⟨⟨body, st4⟩, h4⟩
  simp only [hr4]

/-- Value-level unfolding of `parseTemplateArgs`. -/
theorem parseTemplateArgsF_val (toks : List Token) (st : PState) :
    (parseTemplateArgsF toks st).1 =
      if matchTV toks st.pos TokenType.punctuation "<" = true then
        (let r := (templateArgsLoopF toks (advSt st) []).1
         (r.1, skipTok (matchTV toks r.2.pos TokenType.punctuation ">") r.2))
      else ([], st) := by
  rw [parseTemplateArgsF.eq_def]
  split
  · (try dsimp only [])
    rcases hr : templateArgsLoopF toks (advSt st) [] with ⟨⟨args, st2⟩, h2⟩
    simp only [hr]
  · rfl

/-- Value-level unfolding of one `parseTemplateArgs` loop iteration. -/
theorem templateArgsLoopF_val (toks : List Token) (st : PState) (acc : List TemplateArg) :
    (templateArgsLoopF toks st acc).1 =
      if (matchTV toks st.pos TokenType.punctuation ">" = false ∧
          matchTV toks st.pos TokenType.eof "" = false) then
        (let t1 := (templateArgTypeF toks st).1
         let n1 : Option Identifier × PState :=
           if matchT toks t1.2.pos TokenType.identifier = true then
             (some (parseIdentifierF toks t1.2).1.1, (parseIdentifierF toks t1.2).1.2)
           else (none, t1.2)
         let d1 : Option Expression × PState :=
           if matchTV toks n1.2.pos TokenType.punctuation "=" = true then
             (some (parseExpressionF toks (advSt n1.2)).1.1,
              (parseExpressionF toks (advSt n1.2)).1.2)
           else (none, n1.2)
         let acc' := match n1.1 with
           | some nm =>
             acc ++ [TemplateArg.mk t1.1 nm d1.1
               ⟨(peekT toks st.pos).range.start, (peekT toks d1.2.pos).range.start⟩]
           | none => acc
         if (matchTV toks d1.2.pos TokenType.punctuation "," || (d1.2.pos == st.pos)) = true then
           (templateArgsLoopF toks (advSt d1.2) acc').1
         else (templateArgsLoopF toks d1.2 acc').1)
      else (acc, st) := by
  rw [templateArgsLoopF.eq_def]
  split
  · (try dsimp only [])
    rcases hr1 : templateArgTypeF toks st with ⟨⟨ty1, st1⟩, h1⟩
    simp only [hr1]
    (try dsimp only [])
    by_cases hn : matchT toks st1.pos TokenType.identifier = true
    · rw [if_pos hn, if_pos hn]
      rcases hr2 : parseIdentifierF toks st1 with ⟨⟨nm, st2⟩, h2⟩
      simp only [hr2]
      (try dsimp only [])
      by_cases hd : matchTV toks st2.pos TokenType.punctuation "=" = true
      · rw [dif_pos hd, if_pos hd]
        rcases hr3 : parseExpressionF toks (advSt st2) with ⟨⟨dv, st3⟩, h3⟩
        simp only [hr3]
        (try dsimp only [])
        split
        · rcases hr4 : templateArgsLoopF toks (advSt st3) _ with ⟨⟨r, st4⟩, h4⟩
          simp only [hr4]
        · rcases hr4 : templateArgsLoopF toks st3 _ with ⟨⟨r, st4⟩, h4⟩
          simp only [hr4]
      · rw [dif_neg hd, if_neg hd]
        (try dsimp only [])
        split
        · rcases hr4 : templateArgsLoopF toks (advSt st2) _ with ⟨⟨r, st4⟩, h4⟩
          simp only [hr4]
        · rcases hr4 : templateArgsLoopF toks st2 _ with ⟨⟨r, st4⟩, h4⟩
          simp only [hr4]
    · rw [if_neg hn, if_neg hn]
      (try dsimp only [])
      by_cases hd : matchTV toks st1.pos TokenType.punctuation "=" = true
      · rw [dif_pos hd, if_pos hd]
        rcases hr3 : parseExpressionF toks (advSt st1) with ⟨⟨dv, st3⟩, h3⟩
        simp only [hr3]
        (try dsimp only [])
        split
        · rcases hr4 : templateArgsLoopF toks (advSt st3) _ with ⟨⟨r, st4⟩, h4⟩
          simp only [hr4]
        · rcases hr4 : templateArgsLoopF toks st3 _ with ⟨⟨r, st4⟩, h4⟩
          simp only [hr4]
      · rw [dif_neg hd, if_neg hd]
        (try dsimp only [])
        split
        · rcases hr4 : templateArgsLoopF toks (advSt st1) _ with ⟨⟨r, st4⟩, h4⟩
          simp only [hr4]
        · rcases hr4 : templateArgsLoopF toks st1 _ with ⟨⟨r, st4⟩, h4⟩
          simp only [hr4]
  · rfl

/-- Value-level unfolding of `parseParentClasses`. -/
theorem parseParentClassesF_val (toks : List Token) (st : PState) :
    (parseParentClassesF toks st).1 =
      if matchTV toks st.pos TokenType.punctuation ":" = true then
        (parentsLoopF toks (advSt st) []).1
      else ([], st) := by
  rw [parseParentClassesF.eq_def]
  split
  · (try dsimp only [])
    rcases hr : parentsLoopF toks (advSt st) [] with ⟨⟨ps, st2⟩, h2⟩
    simp only [hr]
  · rfl

/-- Value-level unfolding of one parent-class loop iteration. -/
theorem parentsLoopF_val (toks : List Token) (st : PState) (acc : List ClassRef) :
    (parentsLoopF toks st acc).1 =
      if hg : matchT toks st.pos TokenType.identifier = true then
        (let c1 := (parseClassRefF toks st (lt_of_matchT identifierNeEof hg)).1
         if matchTV toks c1.2.pos TokenType.punctuation "," = true then
           (parentsLoopF toks (advSt c1.2) (acc ++ [c1.1])).1
         else (acc ++ [c1.1], c1.2))
      else (acc, st) := by
  rw [parentsLoopF.eq_def]
  split
  · rename_i hg
    (try dsimp only [])
    rcases hr : parseClassRefF toks st (lt_of_matchT identifierNeEof hg) with ⟨⟨cr, st1⟩, h1⟩
    simp only [hr]
    (try dsimp only [])
    split
    · rcases hr2 : parentsLoopF toks (advSt st1) (acc ++ [cr]) with ⟨⟨r, st3⟩, h3⟩
      simp only [hr2]
    · rfl
  · rfl

/-- Value-level unfolding of `parseClassRef`. -/
theorem parseClassRefF_val (toks : List Token) (st : PState) (h : st.pos < toks.length) :
    (parseClassRefF toks st h).1 =
      (let r1 := (parseIdentifierF toks st).1
       if matchTV toks r1.2.pos TokenType.punctuation "<" = true then
         (let r3 := (crArgsLoopA toks (advSt r1.2) []).1
          (ClassRef.mk r1.1 r3.1
            ⟨(peekT toks st.pos).range.start,
              (peekT toks (skipTok (matchTV toks r3.2.pos TokenType.punctuation ">") r3.2).pos).range.start⟩,
           skipTok (matchTV toks r3.2.pos TokenType.punctuation ">") r3.2))
       else
         (ClassRef.mk r1.1 [] ⟨(peekT toks st.pos).range.start, (peekT toks r1.2.pos).range.start⟩,
          r1.2)) := by
  rw [parseClassRefF.eq_def]
  rcases hr1 : parseIdentifierF toks st with ⟨⟨nm, st1⟩, h1⟩
  simp only [hr1]
  (try dsimp only [])
  split
  · (try dsimp only [])
    rcases hr3 : crArgsLoopA toks (advSt st1) [] with ⟨⟨args, st3⟩, h3⟩
    simp only [hr3]
  · rfl

/-- Value-level unfolding of `parseBody`. -/
theorem parseBodyF_val (toks : List Token) (hw : EofOk toks) (st : PState) :
    (parseBodyF toks hw st).1 =
      if matchTV toks st.pos TokenType.punctuation "\x7b" = true then
        (let r := (bodyLoopF toks hw (advSt st) []).1
         (r.1, skipTok (matchTV toks r.2.pos TokenType.punctuation "\x7d") r.2))
      else ([], st) := by
  rw [parseBodyF.eq_def]
  split
  · (try dsimp only [])
    rcases hr : bodyLoopF toks hw (advSt st) [] with ⟨⟨stmts, st2⟩, h2⟩
    simp only [hr]
  · rfl

/-- Value-level unfolding of one body-loop iteration. -/
theorem bodyLoopF_val (toks : List Token) (hw : EofOk toks) (st : PState)
    (acc : List Statement) :
    (bodyLoopF toks hw st acc).1 =
      if (matchTV toks st.pos TokenType.punctuation "\x7d" = false ∧
          matchTV toks st.pos TokenType.eof "" = false) then
        (bodyLoopF toks hw (parseStatementF toks hw st).1.2
          (match (parseStatementF toks hw st).1.1 with
           | some s => acc ++ [s]
           | none => acc)).1
      else (acc, st) := by
  rw [bodyLoopF.eq_def]
  split
  · (try dsimp only [])
    rcases hr : parseStatementF toks hw st with ⟨⟨os, st1⟩, h1⟩
    simp only [hr]
    (try dsimp only [])
    cases os with
    | some s =>
      rcases hr2 : bodyLoopF toks hw st1 (acc ++ [s]) with ⟨⟨r, st2⟩, h2⟩
      simp only [hr2]
    | none =>
      rcases hr2 : bodyLoopF toks hw st1 acc with ⟨⟨r, st2⟩, h2⟩
      simp only [hr2]
  · rfl

/-- The forward-declaration flag of a parsed statement, when it is a class. -/
def stmtIsFwd : Statement → Option Bool
  | .classDef _ _ _ _ f _ => some f
  | _ => none

/-- C7: the parser marks a `ClassDef` as a forward declaration iff it has no
body, no template arguments and no parent classes: any class statement parsed
with the flag set has empty template arguments, parent classes and body, and
the four spec examples parse accordingly (`class Foo;` forward; a template
argument, a parent class, or an empty brace body each make a full
definition). -/
theorem parseClass_forward_decl_iff :
    (∀ (toks : List Token) (hw : EofOk toks) (st : PState) (h : st.pos < toks.length)
        (name : Identifier) (targs : List TemplateArg) (parents : List ClassRef)
        (body : List Statement) (rng : Range),
        (parseClassF toks hw st h).1.1 =
          Statement.classDef name targs parents body true rng →
        targs = [] ∧ parents = [] ∧ body = []) ∧
    ((parseTableGen "class Foo;" "u").statements.map stmtIsFwd = [some true]) ∧
    ((parseTableGen "class Foo<int N> ;" "u").statements.map stmtIsFwd = [some false]) ∧
    ((parseTableGen "class Foo : Bar;" "u").statements.map stmtIsFwd = [some false]) ∧
    ((parseTableGen "class Foo {}" "u").statements.map stmtIsFwd = [some false]) := by
  refine ⟨?_, ?_, ?_, ?_, ?_⟩
  · intro toks hw st h name targs parents body rng heq
    rw [parseClassF_val] at heq
    dsimp only [] at heq
    rw [Statement.classDef.injEq] at heq
    obtain ⟨-, hB, hC, hD, hflag, -⟩ := heq
    simp only [Bool.and_eq_true, Bool.not_eq_true'] at hflag
    obtain ⟨⟨hnb, hBe⟩, hCe⟩ := hflag
    refine ⟨?_, ?_, ?_⟩
    · rw [← hB]; exact List.isEmpty_iff.mp hBe
    · rw [← hC]; exact List.isEmpty_iff.mp hCe
    · rw [← hD, parseBodyF_val, if_neg (by rw [hnb]; exact fun hc => Bool.noConfusion hc)]
  · have key : ∀ (toks : List Token) (hw : EofOk toks),
        toks = [⟨TokenType.keyword, "class", ⟨⟨0,0⟩,⟨0,5⟩⟩⟩,
                ⟨TokenType.identifier, "Foo", ⟨⟨0,6⟩,⟨0,9⟩⟩⟩,
                ⟨TokenType.punctuation, ";", ⟨⟨0,9⟩,⟨0,10⟩⟩⟩,
                ⟨TokenType.eof, "", ⟨⟨0,10⟩,⟨0,10⟩⟩⟩] →
        (parseF toks hw "u").statements.map stmtIsFwd = [some true] := by
      intro toks hw heq
      subst heq
      simp [parseF, parseLoopF_val, parseStatementF_class, parseClassF_val, parseIdentifierF,
            parseTemplateArgsF_val, parseParentClassesF_val, parseBodyF_val,
            matchTV, matchT, peekT, advSt, skipTok, stmtIsFwd, isIncludeStmt]
    exact key _ _ rfl
  · have key : ∀ (toks : List Token) (hw : EofOk toks),
        toks = [⟨TokenType.keyword, "class", ⟨⟨0,0⟩,⟨0,5⟩⟩⟩,
                ⟨TokenType.identifier, "Foo", ⟨⟨0,6⟩,⟨0,9⟩⟩⟩,
                ⟨TokenType.punctuation, "<", ⟨⟨0,9⟩,⟨0,10⟩⟩⟩,
                ⟨TokenType.keyword, "int", ⟨⟨0,10⟩,⟨0,13⟩⟩⟩,
                ⟨TokenType.identifier, "N", ⟨⟨0,14⟩,⟨0,15⟩⟩⟩,
                ⟨TokenType.punctuation, ">", ⟨⟨0,15⟩,⟨0,16⟩⟩⟩,
                ⟨TokenType.punctuation, ";", ⟨⟨0,17⟩,⟨0,18⟩⟩⟩,
                ⟨TokenType.eof, "", ⟨⟨0,18⟩,⟨0,18⟩⟩⟩] →
        (parseF toks hw "u").statements.map stmtIsFwd = [some false] := by
      intro toks hw heq
      subst heq
      simp [parseF, parseLoopF_val, parseStatementF_class, parseClassF_val, parseIdentifierF,
            parseTemplateArgsF_val, templateArgsLoopF_val, templateArgTypeF,
            parseParentClassesF_val, parseBodyF_val,
            matchTV, matchT, peekT, advSt, skipTok, stmtIsFwd, isIncludeStmt]
    exact key _ _ rfl
  · have key : ∀ (toks : List Token) (hw : EofOk toks),
        toks = [⟨TokenType.keyword, "class", ⟨⟨0,0⟩,⟨0,5⟩⟩⟩,
                ⟨TokenType.identifier, "Foo", ⟨⟨0,6⟩,⟨0,9⟩⟩⟩,
                ⟨TokenType.punctuation, ":", ⟨⟨0,10⟩,⟨0,11⟩⟩⟩,
                ⟨TokenType.identifier, "Bar", ⟨⟨0,12⟩,⟨0,15⟩⟩⟩,
                ⟨TokenType.punctuation, ";", ⟨⟨0,15⟩,⟨0,16⟩⟩⟩,
                ⟨TokenType.eof, "", ⟨⟨0,16⟩,⟨0,16⟩⟩⟩] →
        (parseF toks hw "u").statements.map stmtIsFwd = [some false] := by
      intro toks hw heq
      subst heq
      simp [parseF, parseLoopF_val, parseStatementF_class, parseClassF_val, parseIdentifierF,
            parseTemplateArgsF_val, parseParentClassesF_val, parentsLoopF_val,
            parseClassRefF_val, parseBodyF_val,
            matchTV, matchT, peekT, advSt, skipTok, stmtIsFwd, isIncludeStmt]
    exact key _ _ rfl
  · have key : ∀ (toks : List Token) (hw : EofOk toks),
        toks = [⟨TokenType.keyword, "class", ⟨⟨0,0⟩,⟨0,5⟩⟩⟩,
                ⟨TokenType.identifier, "Foo", ⟨⟨0,6⟩,⟨0,9⟩⟩⟩,
                ⟨TokenType.punctuation, "\x7b", ⟨⟨0,10⟩,⟨0,11⟩⟩⟩,
                ⟨TokenType.punctuation, "\x7d", ⟨⟨0,11⟩,⟨0,12⟩⟩⟩,
                ⟨TokenType.eof, "", ⟨⟨0,12⟩,⟨0,12⟩⟩⟩] →
        (parseF toks hw "u").statements.map stmtIsFwd = [some false] := by
      intro toks hw heq
      subst heq
      simp [parseF, parseLoopF_val, parseStatementF_class, parseClassF_val, parseIdentifierF,
            parseTemplateArgsF_val, parseParentClassesF_val, parseBodyF_val, bodyLoopF_val,
            matchTV, matchT, peekT, advSt, skipTok, stmtIsFwd, isIncludeStmt]
    exact key _ _ rfl

theorem parseClass_forward_decl_iff_witness :
    ([] : List TemplateArg) = [] ∧ ([] : List ClassRef) = [] ∧ ([] : List Statement) = [] := by
  apply parseClass_forward_decl_iff.1
    [⟨TokenType.keyword, "class", ⟨⟨0,0⟩,⟨0,5⟩⟩⟩,
     ⟨TokenType.identifier, "Foo", ⟨⟨0,6⟩,⟨0,9⟩⟩⟩,
     ⟨TokenType.punctuation, ";", ⟨⟨0,9⟩,⟨0,10⟩⟩⟩,
     ⟨TokenType.eof, "", ⟨⟨0,10⟩,⟨0,10⟩⟩⟩]
    (by unfold EofOk; decide) ⟨0, []⟩ (by decide)
    ⟨"Foo", ⟨⟨0,6⟩,⟨0,9⟩⟩⟩ [] [] [] ⟨⟨0,0⟩,⟨0,10⟩⟩
  simp [parseClassF_val, parseIdentifierF, parseTemplateArgsF_val, parseParentClassesF_val,
        parseBodyF_val, matchTV, matchT, peekT, advSt, skipTok]

/-- C8: parsing always terminates with a best-effort result and never
throws — `parseStatement` never moves backwards and consumes at least one
token away from `eof` (so every loop makes progress), the parser's diagnostic
list is always empty in practice (its only writer, `expect`, is never
invoked), and `expect` records the `Expected ..., got ...` diagnostic for a
mismatched token while still consuming and returning the actual token. -/
theorem parser_terminates_best_effort :
    (∀ (toks : List Token) (hw : EofOk toks) (st : PState),
        st.pos ≤ (parseStatementF toks hw st).1.2.pos ∧
        ((peekT toks st.pos).type ≠ TokenType.eof →
          st.pos < (parseStatementF toks hw st).1.2.pos)) ∧
    (∀ (text uri : String), (parseTableGen text uri).errors = []) ∧
    (∀ (toks : List Token) (st : PState) (ty : TokenType) (v : Option String),
        (expectT toks st ty v).2.pos = st.pos + 1 ∧
        (expectT toks st ty v).1 = toks[st.pos]? ∧
        ((peekT toks st.pos).type ≠ ty →
          (expectT toks st ty v).2.errors = st.errors ++
            [⟨"Expected " ++ (match v with
                | some s => if s == "" then TokenType.str ty else s
                | none => TokenType.str ty) ++ ", got " ++ (peekT toks st.pos).value,
              (peekT toks st.pos).range⟩]) ∧
        (∀ s, v = some s → (peekT toks st.pos).value ≠ s →
          (expectT toks st ty v).2.errors = st.errors ++
            [⟨"Expected " ++ (if s == "" then TokenType.str ty else s) ++ ", got " ++
               (peekT toks st.pos).value, (peekT toks st.pos).range⟩])) := by
  refine ⟨?_, ?_, ?_⟩
  · intro toks hw st
    exact ⟨(parseStatementF toks hw st).2.1, (parseStatementF toks hw st).2.2.1⟩
  · intro text uri
    exact (parseLoopF (tokenize text) (tokenize_eofOk text) ⟨0, []⟩ [] []).2
  · intro toks st ty v
    refine ⟨rfl, rfl, ?_, ?_⟩
    · intro hty
      have hb : (((peekT toks st.pos).type == ty)) = false := beq_false_of_ne hty
      simp [expectT, hb]
    · intro s hv hne
      have hb : (((peekT toks st.pos).value == s)) = false := beq_false_of_ne hne
      subst hv
      simp [expectT, hb]

theorem parser_terminates_best_effort_witness :
    0 < (parseStatementF (tokenize "class Foo;") (tokenize_eofOk "class Foo;")
          ⟨0, []⟩).1.2.pos ∧
    (parseTableGen "class Foo;" "u").errors = [] ∧
    (expectT (tokenize "class Foo;") ⟨0, []⟩ TokenType.identifier none).2.errors =
      [⟨"Expected identifier, got class", ⟨⟨0, 0⟩, ⟨0, 5⟩⟩⟩] := by
  refine ⟨(parser_terminates_best_effort.1 (tokenize "class Foo;")
      (tokenize_eofOk "class Foo;") ⟨0, []⟩).2 (by decide),
    parser_terminates_best_effort.2.1 "class Foo;" "u", ?_⟩
  have h := (parser_terminates_best_effort.2.2 (tokenize "class Foo;") ⟨0, []⟩
      TokenType.identifier none).2.2.1 (by decide)
  rw [h]
  rfl
